import Mathlib

/-!
Verification of the grid path-search core of the CSE366 repository
(`Simulation of A(star) and IDA(star) Algorithms for Pathfinding/run.py`).

The Python source is shallowly embedded: positions are integer pairs,
the environment holds grid extents, the barrier set and the ordered
task mapping, and the two search algorithms are modelled as executable
fuel-indexed functions.  The outer `Option` layer of each search models
abnormal termination (fuel exhaustion, or a lookup the Python code
assumes to succeed); the theorems prove this layer is never exercised
for the fuel budgets chosen, so `some none` is exactly Python's `None`
("unreachable") and `some (some l)` is a returned path `l`.
-/

namespace Sim

/-- A grid position `(column, row)`, as in the Python tuples. -/
abbrev Pos : Type := Int × Int

/-- The `Environment` class: grid extents, barrier set and the ordered
task mapping (`task_locations` is an insertion-ordered dict, modelled as
an association list). -/
structure Env where
  columns : Int
  rows : Int
  barriers : List Pos
  tasks : List (Pos × Nat)

/-- `Environment.is_within_bounds`. -/
def isWithinBounds (e : Env) (x y : Int) : Bool :=
  decide (0 ≤ x ∧ x < e.columns ∧ 0 ≤ y ∧ y < e.rows)

/-- `Environment.is_barrier`. -/
def isBarrier (e : Env) (x y : Int) : Bool :=
  decide ((x, y) ∈ e.barriers)

/-- `Agent.get_neighbors`: up, down, left, right cells that are within
bounds and not barriers, in the source's enumeration order. -/
def getNeighbors (e : Env) (x y : Int) : List Pos :=
  [(x, y - 1), (x, y + 1), (x - 1, y), (x + 1, y)].filter
    (fun p => isWithinBounds e p.1 p.2 && !(isBarrier e p.1 p.2))

/-- `Agent.heuristic`: Manhattan distance. -/
def heuristic (a b : Pos) : Nat :=
  (a.1 - b.1).natAbs + (a.2 - b.2).natAbs

/-! ## Paths in the grid graph (specification side) -/

/-- The step relation of the grid graph: `q` is a legal move from `p`. -/
def Adj (e : Env) (p q : Pos) : Prop :=
  q ∈ getNeighbors e p.1 p.2

/-- `l` is a legal walk from `s` to `t`: it starts at `s`, ends at `t`,
and each consecutive pair is a legal move.  The number of unit-cost
steps of `l` is `l.length - 1`. -/
def IsPathList (e : Env) (s t : Pos) (l : List Pos) : Prop :=
  l.head? = some s ∧ l.getLast? = some t ∧ List.Chain' (Adj e) l

/-- Legal moves are decidable (membership in the neighbor list). -/
instance (e : Env) (p q : Pos) : Decidable (Adj e p q) :=
  inferInstanceAs (Decidable (q ∈ getNeighbors e p.1 p.2))

/-- `t` is 4-connected-reachable from `s` avoiding barriers. -/
def Reach (e : Env) (s t : Pos) : Prop :=
  ∃ l, IsPathList e s t l

/-- `d` is the minimum number of unit-cost steps from `s` to `t`. -/
def IsShortest (e : Env) (s t : Pos) (d : Nat) : Prop :=
  (∃ l, IsPathList e s t l ∧ l.length = d + 1) ∧
    ∀ l, IsPathList e s t l → d + 1 ≤ l.length

/-! ## A* search (`Agent.a_star_search`) -/

/-- The mutable state of the A* loop: the open list (a multiset of
`(f, position)` heap entries), and the `came_from`, `g_score` and
`f_score` dictionaries. -/
structure AState where
  openSet : List (Nat × Pos)
  cameFrom : Pos → Option Pos
  gScore : Pos → Option Nat
  fScore : Pos → Option Nat

/-- Dictionary update. -/
def updateMap {α : Type} (m : Pos → Option α) (k : Pos) (v : α) : Pos → Option α :=
  fun p => if p = k then some v else m p

/-- `heapq` orders entries by lexicographic tuple comparison
`(f, (x, y))`; this is that order as a Boolean test. -/
def entryLE (a b : Nat × Pos) : Bool :=
  decide (a.1 < b.1) ||
    (decide (a.1 = b.1) &&
      (decide (a.2.1 < b.2.1) ||
        (decide (a.2.1 = b.2.1) && decide (a.2.2 ≤ b.2.2))))

/-- The least entry of the open list under `entryLE` (what
`heapq.heappop` returns), or `none` if the list is empty. -/
def findMinEntry : List (Nat × Pos) → Option (Nat × Pos)
  | [] => none
  | a :: rest => some (rest.foldl (fun m x => if entryLE m x then m else x) a)

/-- Remove the first occurrence of an entry from the open list. -/
def eraseEntry : List (Nat × Pos) → (Nat × Pos) → List (Nat × Pos)
  | [], _ => []
  | x :: xs, m => if x = m then xs else x :: eraseEntry xs m

/-- `heapq.heappop`: remove and return the least entry. -/
def popMin (l : List (Nat × Pos)) : Option ((Nat × Pos) × List (Nat × Pos)) :=
  match findMinEntry l with
  | none => none
  | some m => some (m, eraseEntry l m)

/-- The relaxation guard of the source:
`neighbor not in g_score or tentative_g_score < g_score[neighbor]`. -/
def betterG (g : Option Nat) (tentative : Nat) : Bool :=
  match g with
  | none => true
  | some gn => decide (tentative < gn)

/-- Relax a single neighbor `nb` of the popped node `current` whose
recorded `g` is `gc`: if the tentative score improves, record it, set
the back-pointer, update `f_score` and push the new entry. -/
def relaxOne (goal current : Pos) (gc : Nat) (st : AState) (nb : Pos) : AState :=
  let tentative := gc + 1
  if betterG (st.gScore nb) tentative then
    { openSet := st.openSet ++ [(tentative + heuristic nb goal, nb)]
      cameFrom := updateMap st.cameFrom nb current
      gScore := updateMap st.gScore nb tentative
      fScore := updateMap st.fScore nb (tentative + heuristic nb goal) }
  else st

/-- The neighbor loop of one A* iteration. -/
def relaxAll (goal current : Pos) (gc : Nat) (nbrs : List Pos) (st : AState) : AState :=
  nbrs.foldl (relaxOne goal current gc) st

/-- `Agent.reconstruct_path`: follow `came_from` back-pointers from
`current`, then reverse; fuel-indexed because the source's `while`
loop has no syntactic bound. -/
def reconstructPath (cameFrom : Pos → Option Pos) : Nat → Pos → Option (List Pos)
  | 0, _ => none
  | fuel + 1, current =>
    match cameFrom current with
    | some prev => (reconstructPath cameFrom fuel prev).map (fun l => l ++ [current])
    | none => some [current]

/-- One more than the number of grid cells; every key ever present in
`g_score` lies in the grid or is the start, so this bounds the key
count. -/
def gridCount (e : Env) : Nat :=
  e.columns.toNat * e.rows.toNat + 1

/-- The A* main loop.  `none` is the abnormal layer (fuel exhaustion or
a failed `g_score` lookup); `some none` is the source's `return None`;
`some (some l)` is a found path. -/
def aStarLoop (e : Env) (goal : Pos) : Nat → AState → Option (Option (List Pos))
  | 0, _ => none
  | fuel + 1, st =>
    match popMin st.openSet with
    | none => some none
    | some (entry, rest) =>
      if entry.2 = goal then
        match reconstructPath st.cameFrom (gridCount e + 1) entry.2 with
        | none => none
        | some l => some (some l)
      else
        match st.gScore entry.2 with
        | none => none
        | some gc =>
          aStarLoop e goal fuel
            (relaxAll goal entry.2 gc (getNeighbors e entry.2.1 entry.2.2)
              { st with openSet := rest })

/-- The initial A* state: the start is pushed with priority `0`, its
`g_score` is `0` and its `f_score` is the heuristic. -/
def initAState (start goal : Pos) : AState :=
  { openSet := [(0, start)]
    cameFrom := fun _ => none
    gScore := fun p => if p = start then some 0 else none
    fScore := fun p => if p = start then some (heuristic start goal) else none }

/-- Fuel budget for the A* loop, proved sufficient below. -/
def aStarFuel (e : Env) : Nat :=
  2 * gridCount e * gridCount e + 2

/-- `Agent.a_star_search target` with the agent at `start`. -/
def aStarSearch (e : Env) (start target : Pos) : Option (Option (List Pos)) :=
  aStarLoop e target (aStarFuel e) (initAState start target)

/-! ## IDA* search (`Agent.ida_star_search`) -/

/-- Result of the recursive `search` helper: either the accumulated
path to the goal (the Python `"FOUND"` case, where the mutated `path`
list holds the route), or the minimal pruned `f` (`none` is the
`float('inf')` of the source). -/
inductive IdaRes : Type where
  | found : List Pos → IdaRes
  | bound : Option Nat → IdaRes

/-- Python's `result < min_cost` where `none` plays `float('inf')`. -/
def costLt : Option Nat → Option Nat → Bool
  | some a, some b => decide (a < b)
  | some _, none => true
  | none, _ => false

/-- The neighbor loop of `search`: skip neighbors already on the path,
recurse (through `recur`, the depth-limited recursive call) on the
others, short-circuit on `found`, and fold the minimum pruned cost. -/
def idaFold (recur : List Pos → Nat → Nat → Option IdaRes) (rpath : List Pos)
    (g threshold : Nat) : List Pos → Option Nat → Option IdaRes
  | [], minCost => some (IdaRes.bound minCost)
  | nb :: nbs, minCost =>
    if nb ∈ rpath then idaFold recur rpath g threshold nbs minCost
    else
      match recur (nb :: rpath) (g + 1) threshold with
      | none => none
      | some (IdaRes.found p) => some (IdaRes.found p)
      | some (IdaRes.bound b) =>
        idaFold recur rpath g threshold nbs (if costLt b minCost then b else minCost)

/-- The recursive `search(path, g, threshold)` helper of
`ida_star_search`.  The accumulated path is kept in reverse order
(`current` is the head); the `found` result reverses it back, matching
the forward-order list the source returns. -/
def idaSearch (e : Env) (goal : Pos) : Nat → List Pos → Nat → Nat → Option IdaRes
  | 0, _, _, _ => none
  | _ + 1, [], _, _ => none
  | fuel + 1, current :: rest, g, threshold =>
    let f := g + heuristic current goal
    if threshold < f then some (IdaRes.bound (some f))
    else if current = goal then some (IdaRes.found (current :: rest).reverse)
    else idaFold (fun rp g' t' => idaSearch e goal fuel rp g' t') (current :: rest) g
      threshold (getNeighbors e current.1 current.2) none

/-- Fuel for each depth-first `search` call; the recursion depth is the
path length, which the cycle check keeps below `gridCount`. -/
def idaSearchFuel (e : Env) : Nat :=
  gridCount e + 2

/-- Upper bound on `heuristic c goal` over every cell `c` the search
can occupy (grid cells and the start). -/
def hBound (e : Env) (start goal : Pos) : Nat :=
  heuristic start goal + (start.1.natAbs + e.columns.toNat + start.2.natAbs + e.rows.toNat)

/-- Upper bound on every `f` value occurring along a cycle-free path;
once the threshold reaches it, an unreachable goal makes `search`
return infinity. -/
def idaMaxF (e : Env) (start goal : Pos) : Nat :=
  gridCount e + hBound e start goal

/-- The `while True` threshold-update loop of `ida_star_search`. -/
def idaLoop (e : Env) (start goal : Pos) : Nat → Nat → Option (Option (List Pos))
  | 0, _ => none
  | fuel + 1, threshold =>
    match idaSearch e goal (idaSearchFuel e) [start] 0 threshold with
    | none => none
    | some (IdaRes.found p) => some (some p)
    | some (IdaRes.bound none) => some none
    | some (IdaRes.bound (some b)) => idaLoop e start goal fuel b

/-- Fuel budget for the threshold loop, proved sufficient below. -/
def idaLoopFuel (e : Env) (start goal : Pos) : Nat :=
  idaMaxF e start goal + 3

/-- `Agent.ida_star_search target` with the agent at `start`. -/
def idaStarSearch (e : Env) (start target : Pos) : Option (Option (List Pos)) :=
  idaLoop e start target (idaLoopFuel e start target) (heuristic start target)

/-! ## Agent state and simulation driver -/

/-- The algorithm choice fixed by the start button in `main`. -/
inductive Alg : Type where
  | astar : Alg
  | idastar : Alg

/-- The search the agent runs, as a plain `path`-or-`None` function.
The `getD none` collapses the abnormal layer of the model, which the
adequacy theorems prove is never reached for the chosen fuel. -/
def runSearch (alg : Alg) (e : Env) (start target : Pos) : Option (List Pos) :=
  match alg with
  | Alg.astar => (aStarSearch e start target).getD none
  | Alg.idastar => (idaStarSearch e start target).getD none

/-- Dictionary lookup in the ordered task mapping. -/
def lookupTask : List (Pos × Nat) → Pos → Option Nat
  | [], _ => none
  | (q, idv) :: rest, p => if p = q then some idv else lookupTask rest p

/-- `task_locations.pop(pos)`: remove the entry with key `pos`. -/
def removeTask : List (Pos × Nat) → Pos → List (Pos × Nat)
  | [], _ => []
  | (q, idv) :: rest, p => if p = q then rest else (q, idv) :: removeTask rest p

/-- The joint state of the `Agent` and its `Environment` in `main`. -/
structure SimState where
  env : Env
  position : Pos
  taskCompleted : Nat
  completedTasks : List Nat
  path : List Pos
  moving : Bool
  cumulativeCost : Nat

/-- `Agent.check_task_completion`. -/
def checkTaskCompletion (s : SimState) : SimState :=
  match lookupTask s.env.tasks s.position with
  | some tn =>
    { s with
      env := { s.env with tasks := removeTask s.env.tasks s.position }
      taskCompleted := s.taskCompleted + 1
      completedTasks := s.completedTasks ++ [tn] }
  | none => s

/-- `Agent.move`: consume one path step (cost 1, then completion
check), or clear the moving flag when the path is exhausted. -/
def moveAgent (s : SimState) : SimState :=
  match s.path with
  | [] => { s with moving := false }
  | next :: rest =>
    checkTaskCompletion
      { s with position := next, path := rest, cumulativeCost := s.cumulativeCost + 1 }

/-- One turn of the `find_nearest_task` loop body: a non-`None`,
non-empty (truthy) search result replaces the running best when there
is none yet or when it is strictly shorter. -/
def selectStep (search : Pos → Option (List Pos)) (acc : Option (Pos × List Pos))
    (t : Pos × Nat) : Option (Pos × List Pos) :=
  match search t.1 with
  | some (x :: xs) =>
    match acc with
    | none => some (t.1, x :: xs)
    | some (bt, bp) =>
      if (x :: xs).length < bp.length then some (t.1, x :: xs) else some (bt, bp)
  | _ => acc

/-- The selection loop of `Agent.find_nearest_task`: run `search` on
every task key in mapping order, keep the first strictly-shortest
successful (truthy) path together with its task position. -/
def selectNearest (search : Pos → Option (List Pos)) (tasks : List (Pos × Nat)) :
    Option (Pos × List Pos) :=
  tasks.foldl (selectStep search) none

/-- `Agent.find_nearest_task`: store the winning path minus its start
cell and set the moving flag; change nothing when every search fails. -/
def findNearestTask (alg : Alg) (s : SimState) : SimState :=
  match selectNearest (fun t => runSearch alg s.env s.position t) s.env.tasks with
  | some (_, sp) => { s with path := sp.drop 1, moving := true }
  | none => s

/-- One tick of the running simulation in `main` (the branch taken
after `MOVEMENT_DELAY`): search when idle and tasks remain, otherwise
move when moving. -/
def simStep (alg : Alg) (s : SimState) : SimState :=
  if s.moving = false ∧ s.env.tasks ≠ [] then findNearestTask alg s
  else if s.moving then moveAgent s
  else s

/-- Iterate `simStep` until no tasks remain (or the tick budget runs
out). -/
def runSim (alg : Alg) : Nat → SimState → SimState
  | 0, s => s
  | fuel + 1, s => if s.env.tasks = [] then s else runSim alg fuel (simStep alg s)

/-! ## Instrumented variants

The following definitions repeat the searches and the driver verbatim
while threading a counter or log; the extra component never influences
a branch, so each is the same embedding with added observation. -/

/-- A* loop counting pops of the open set. -/
def aStarLoopCount (e : Env) (goal : Pos) :
    Nat → AState → Nat → Option (Option (List Pos) × Nat)
  | 0, _, _ => none
  | fuel + 1, st, pops =>
    match popMin st.openSet with
    | none => some (none, pops)
    | some (entry, rest) =>
      if entry.2 = goal then
        match reconstructPath st.cameFrom (gridCount e + 1) entry.2 with
        | none => none
        | some l => some (some l, pops + 1)
      else
        match st.gScore entry.2 with
        | none => none
        | some gc =>
          aStarLoopCount e goal fuel
            (relaxAll goal entry.2 gc (getNeighbors e entry.2.1 entry.2.2)
              { st with openSet := rest })
            (pops + 1)

/-- `a_star_search` returning the result together with the number of
open-set pops performed. -/
def aStarSearchCount (e : Env) (start target : Pos) : Option (Option (List Pos) × Nat) :=
  aStarLoopCount e target (aStarFuel e) (initAState start target) 0

/-- Neighbor loop for `idaSearchCount`. -/
def idaFoldCount (recur : List Pos → Nat → Nat → Nat → Option (IdaRes × Nat))
    (rpath : List Pos) (g threshold : Nat) :
    List Pos → Option Nat → Nat → Option (IdaRes × Nat)
  | [], minCost, calls => some (IdaRes.bound minCost, calls)
  | nb :: nbs, minCost, calls =>
    if nb ∈ rpath then idaFoldCount recur rpath g threshold nbs minCost calls
    else
      match recur (nb :: rpath) (g + 1) threshold calls with
      | none => none
      | some (IdaRes.found p, calls') => some (IdaRes.found p, calls')
      | some (IdaRes.bound b, calls') =>
        idaFoldCount recur rpath g threshold nbs
          (if costLt b minCost then b else minCost) calls'

/-- `search` counting its own invocations. -/
def idaSearchCount (e : Env) (goal : Pos) :
    Nat → List Pos → Nat → Nat → Nat → Option (IdaRes × Nat)
  | 0, _, _, _, _ => none
  | _ + 1, [], _, _, _ => none
  | fuel + 1, current :: rest, g, threshold, calls =>
    let f := g + heuristic current goal
    if threshold < f then some (IdaRes.bound (some f), calls + 1)
    else if current = goal then some (IdaRes.found (current :: rest).reverse, calls + 1)
    else idaFoldCount (fun rp g' t' c' => idaSearchCount e goal fuel rp g' t' c')
      (current :: rest) g threshold (getNeighbors e current.1 current.2) none (calls + 1)

/-- Threshold loop counting `search` invocations across iterations. -/
def idaLoopCount (e : Env) (start goal : Pos) :
    Nat → Nat → Nat → Option (Option (List Pos) × Nat)
  | 0, _, _ => none
  | fuel + 1, threshold, calls =>
    match idaSearchCount e goal (idaSearchFuel e) [start] 0 threshold calls with
    | none => none
    | some (IdaRes.found p, calls') => some (some p, calls')
    | some (IdaRes.bound none, _) => some (none, calls)
    | some (IdaRes.bound (some b), calls') => idaLoopCount e start goal fuel b calls'

/-- `ida_star_search` returning the result together with the number of
recursive `search` expansions performed. -/
def idaStarSearchCount (e : Env) (start target : Pos) : Option (Option (List Pos) × Nat) :=
  idaLoopCount e start target (idaLoopFuel e start target) (heuristic start target) 0

/-- One driver tick while counting `find_nearest_task` invocations. -/
def simStepCount (alg : Alg) : SimState × Nat → SimState × Nat
  | (s, k) =>
    if s.moving = false ∧ s.env.tasks ≠ [] then (findNearestTask alg s, k + 1)
    else if s.moving then (moveAgent s, k)
    else (s, k)

/-- Iterate `simStepCount` a fixed number of ticks. -/
def simStepsCount (alg : Alg) : Nat → SimState × Nat → SimState × Nat
  | 0, p => p
  | fuel + 1, p => simStepsCount alg fuel (simStepCount alg p)

/-- `find_nearest_task` while logging each successful selection: the
agent position at selection time, the selected task cell, and the
number of steps the agent commits to (the stored path length). -/
def findNearestTaskLog (alg : Alg) (s : SimState) (log : List (Pos × Pos × Nat)) :
    SimState × List (Pos × Pos × Nat) :=
  match selectNearest (fun t => runSearch alg s.env s.position t) s.env.tasks with
  | some (w, sp) => ({ s with path := sp.drop 1, moving := true },
      log ++ [(s.position, w, (sp.drop 1).length)])
  | none => (s, log)

/-- One driver tick with the selection log threaded through. -/
def simStepLog (alg : Alg) (s : SimState) (log : List (Pos × Pos × Nat)) :
    SimState × List (Pos × Pos × Nat) :=
  if s.moving = false ∧ s.env.tasks ≠ [] then findNearestTaskLog alg s log
  else if s.moving then (moveAgent s, log)
  else (s, log)

/-- Iterate `simStepLog` until no tasks remain (or the tick budget runs
out). -/
def runSimLog (alg : Alg) : Nat → SimState → List (Pos × Pos × Nat) →
    SimState × List (Pos × Pos × Nat)
  | 0, s, log => (s, log)
  | fuel + 1, s, log =>
    if s.env.tasks = [] then (s, log)
    else runSimLog alg fuel (simStepLog alg s log).1 (simStepLog alg s log).2

/-! ## Random location generation (`Environment.generate_random_locations`) -/

/-- One trip around the `while` body: draw `d`; add it to the set when
it avoids `exclude` (adding an element already present is a no-op). -/
def genLocsStep (exclude : List Pos) (locs : List Pos) (d : Pos) : List Pos :=
  if d ∈ exclude then locs else if d ∈ locs then locs else locs ++ [d]

/-- `generate_random_locations count exclude` over an explicit stream
of random draws; `none` means the stream ran dry with the loop still
running (the laid-out draws did not suffice to finish). -/
def genLocsLoop (count : Nat) (exclude : List Pos) : List Pos → List Pos → Option (List Pos)
  | draws, locs =>
    if count ≤ locs.length then some locs
    else
      match draws with
      | [] => none
      | d :: ds => genLocsLoop count exclude ds (genLocsStep exclude locs d)

/-- The in-grid cells of `e` as a finite set. -/
def gridFinset (e : Env) : Finset Pos :=
  Finset.Icc 0 (e.columns - 1) ×ˢ Finset.Icc 0 (e.rows - 1)

/-! ## Concrete instances used by witnesses and counterexamples -/

/-- A 2-by-2 environment with one task at the origin. -/
def witnessEnv : Env :=
  { columns := 2, rows := 2, barriers := [], tasks := [(((0 : Int), (0 : Int)), 7)] }

/-- Agent standing on the task cell of `witnessEnv`. -/
def witnessState : SimState :=
  { env := witnessEnv, position := (0, 0), taskCompleted := 0, completedTasks := []
    path := [], moving := false, cumulativeCost := 0 }

/-- Agent standing on a cell of `witnessEnv` that has no task. -/
def witnessStateNoTask : SimState :=
  { env := witnessEnv, position := (1, 1), taskCompleted := 0, completedTasks := []
    path := [], moving := false, cumulativeCost := 0 }

/-- The spec's wall scenario: 3-by-3 grid whose barriers fully isolate
the task at `(2, 2)` from the agent start `(0, 0)`. -/
def wallEnv : Env :=
  { columns := 3, rows := 3
    barriers := [((1 : Int), (1 : Int)), (2, 1), (1, 2)]
    tasks := [(((2 : Int), (2 : Int)), 1)] }

/-- Initial agent/driver state for the wall scenario. -/
def wallState : SimState :=
  { env := wallEnv, position := (0, 0), taskCompleted := 0, completedTasks := []
    path := [], moving := false, cumulativeCost := 0 }

/-- A 1-by-1 environment (a single free cell). -/
def oneCellEnv : Env :=
  { columns := 1, rows := 1, barriers := [], tasks := [] }

/-- 2-by-2 environment with a task at the agent's start cell. -/
def selfTaskEnv : Env :=
  { columns := 2, rows := 2, barriers := [], tasks := [(((0 : Int), (0 : Int)), 1)] }

/-- Initial state for `selfTaskEnv`: the agent starts on the task. -/
def selfTaskState : SimState :=
  { env := selfTaskEnv, position := (0, 0), taskCompleted := 0, completedTasks := []
    path := [], moving := false, cumulativeCost := 0 }

/-- `selfTaskState` right after selecting the task under the agent: the
stripped path is empty but the moving flag is set. -/
def selfTaskMoving : SimState :=
  { env := selfTaskEnv, position := (0, 0), taskCompleted := 0, completedTasks := []
    path := [], moving := true, cumulativeCost := 0 }

/-- A legal walk of minimum length. -/
def ShortestPath (e : Env) (s t : Pos) (l : List Pos) : Prop :=
  IsPathList e s t l ∧ ∀ m, IsPathList e s t m → l.length ≤ m.length

/-- The `g`-keys of an A* state, as a finite set (every key is the
start or a grid cell whenever the invariant below holds). -/
def gKeysFinset (e : Env) (start : Pos) (st : AState) : Finset Pos :=
  (insert start (gridFinset e)).filter (fun p => (st.gScore p).isSome)

/-- Potential used by the termination measure: how much each recorded
`g` has already descended from `gridCount e`, summed over all keys. -/
def aPhi (e : Env) (start : Pos) (st : AState) : Nat :=
  (gKeysFinset e start st).sum (fun v => gridCount e - (st.gScore v).getD 0)

/-- Decreasing measure of the A* loop. -/
def aMeasure (e : Env) (start : Pos) (st : AState) : Nat :=
  2 * (gridCount e * gridCount e - aPhi e start st) + st.openSet.length

/-- The state after one full A* iteration that popped `(p, u)` (leaving
`rest`) with `g_score[u] = gc` and relaxed all neighbors of `u`. -/
def astarNext (e : Env) (goal u : Pos) (gc : Nat) (st : AState)
    (rest : List (Nat × Pos)) : AState :=
  relaxAll goal u gc (getNeighbors e u.1 u.2) { st with openSet := rest }

/-! ## Task-completion lemmas (C7) -/

theorem lookupTask_split :
    ∀ (ts : List (Pos × Nat)) (p : Pos) (tn : Nat), lookupTask ts p = some tn →
      ∃ l₁ l₂, ts = l₁ ++ (p, tn) :: l₂ ∧ (∀ q ∈ l₁, q.1 ≠ p) ∧ removeTask ts p = l₁ ++ l₂ := by
  intro ts
  induction ts with
  | nil => intro p tn h; simp [lookupTask] at h
  | cons q rest ih =>
    intro p tn h
    obtain ⟨qp, qv⟩ := q
    by_cases hpq : p = qp
    · refine ⟨[], rest, ?_, by simp, ?_⟩
      · simp [lookupTask, hpq] at h
        simp [hpq, h]
      · simp [removeTask, hpq]
    · simp only [lookupTask, if_neg hpq] at h
      obtain ⟨l₁, l₂, hsplit, hkeys, hrem⟩ := ih p tn h
      refine ⟨(qp, qv) :: l₁, l₂, by simp [hsplit], ?_, ?_⟩
      · intro x hx
        rcases List.mem_cons.mp hx with hx | hx
        · subst hx; simpa using fun hc => hpq hc.symm
        · exact hkeys x hx
      · simp [removeTask, hpq, hrem]

/-- C7: if the agent's cell holds a task, `check_task_completion`
removes exactly that entry from the task mapping (count down by one)
and appends exactly that task's id to the completed list; otherwise it
changes nothing. -/
theorem checkTaskCompletion_spec (s : SimState) :
    (∀ tn, lookupTask s.env.tasks s.position = some tn →
      ∃ l₁ l₂,
        s.env.tasks = l₁ ++ (s.position, tn) :: l₂ ∧
        (∀ q ∈ l₁, q.1 ≠ s.position) ∧
        (checkTaskCompletion s).env.tasks = l₁ ++ l₂ ∧
        (checkTaskCompletion s).env.tasks.length + 1 = s.env.tasks.length ∧
        (checkTaskCompletion s).completedTasks = s.completedTasks ++ [tn] ∧
        (checkTaskCompletion s).taskCompleted = s.taskCompleted + 1) ∧
    (lookupTask s.env.tasks s.position = none → checkTaskCompletion s = s) := by
  constructor
  · intro tn h
    obtain ⟨l₁, l₂, hsplit, hkeys, hrem⟩ := lookupTask_split _ _ _ h
    refine ⟨l₁, l₂, hsplit, hkeys, ?_, ?_, ?_, ?_⟩
    · simp only [checkTaskCompletion, h]
      exact hrem
    · simp only [checkTaskCompletion, h, hrem]
      rw [hsplit]
      simp
      omega
    · simp [checkTaskCompletion, h]
    · simp [checkTaskCompletion, h]
  · intro h
    simp [checkTaskCompletion, h]

/-- Witness for C7 at a concrete state: a task at the agent's cell is
removed and recorded, and a cell with no task changes nothing. -/
theorem checkTaskCompletion_spec_witness :
    (∃ l₁ l₂,
      (witnessState).env.tasks = l₁ ++ ((witnessState).position, 7) :: l₂ ∧
      (∀ q ∈ l₁, q.1 ≠ (witnessState).position) ∧
      (checkTaskCompletion witnessState).env.tasks = l₁ ++ l₂ ∧
      (checkTaskCompletion witnessState).env.tasks.length + 1 =
        (witnessState).env.tasks.length ∧
      (checkTaskCompletion witnessState).completedTasks =
        (witnessState).completedTasks ++ [7] ∧
      (checkTaskCompletion witnessState).taskCompleted =
        (witnessState).taskCompleted + 1) ∧
    checkTaskCompletion witnessStateNoTask = witnessStateNoTask :=
  ⟨(checkTaskCompletion_spec witnessState).1 7 rfl,
    (checkTaskCompletion_spec witnessStateNoTask).2 rfl⟩

/-! ## Frame property of task selection (C10) -/

/-- C10: `find_nearest_task` (with either algorithm) writes only the
agent's stored path and moving flag; the position, cumulative cost,
completed-task data and the whole environment (task mapping and
barrier set included) are untouched, whether or not a task is
reachable. -/
theorem findNearestTask_frame (alg : Alg) (s : SimState) :
    (findNearestTask alg s).position = s.position ∧
    (findNearestTask alg s).cumulativeCost = s.cumulativeCost ∧
    (findNearestTask alg s).taskCompleted = s.taskCompleted ∧
    (findNearestTask alg s).completedTasks = s.completedTasks ∧
    (findNearestTask alg s).env.tasks = s.env.tasks ∧
    (findNearestTask alg s).env.barriers = s.env.barriers ∧
    (findNearestTask alg s).env = s.env := by
  unfold findNearestTask
  cases h : selectNearest (fun t => runSearch alg s.env s.position t) s.env.tasks with
  | none => simp
  | some b =>
    obtain ⟨bt, bp⟩ := b
    simp

/-! ## Start equals goal (C5) -/

/-- Amended C5: when `start = goal`, both searches succeed with the
singleton path `[start]` (zero steps, which the caller strips to an
empty step queue), but the search machinery does run: A* pops the open
set exactly once and IDA* performs exactly one recursive `search`
call. -/
theorem searches_at_goal (e : Env) (p : Pos) :
    aStarSearchCount e p p = some (some [p], 1) ∧
    idaStarSearchCount e p p = some (some [p], 1) := by
  constructor
  · show aStarLoopCount e p (aStarFuel e) (initAState p p) 0 = some (some [p], 1)
    obtain ⟨k, hk⟩ : ∃ k, aStarFuel e = k + 1 := ⟨2 * gridCount e * gridCount e + 1, rfl⟩
    rw [hk]
    simp [aStarLoopCount, popMin, findMinEntry, initAState, reconstructPath]
  · show idaLoopCount e p p (idaLoopFuel e p p) (heuristic p p) 0 = some (some [p], 1)
    obtain ⟨k, hk⟩ : ∃ k, idaLoopFuel e p p = k + 1 := ⟨idaMaxF e p p + 2, rfl⟩
    obtain ⟨m, hm⟩ : ∃ m, idaSearchFuel e = m + 1 := ⟨gridCount e + 1, rfl⟩
    rw [hk]
    simp [idaLoopCount, hm, idaSearchCount, heuristic]

/-- Counterexample to C5 as stated: at the one-cell grid with
`start = goal = (0, 0)`, A* pops its open set once (not zero times) and
returns the singleton path `[(0, 0)]` (not an empty path), and IDA*
performs one recursive `search` expansion (not zero). -/
theorem searches_at_goal_counterexample :
    aStarSearchCount oneCellEnv (0, 0) (0, 0) = some (some [((0 : Int), (0 : Int))], 1) ∧
    idaStarSearchCount oneCellEnv (0, 0) (0, 0) = some (some [((0 : Int), (0 : Int))], 1) ∧
    ([((0 : Int), (0 : Int))] : List Pos) ≠ [] ∧ (1 : Nat) ≠ 0 := by
  refine ⟨?_, ?_, by simp, by simp⟩ <;> rfl

/-! ## Random location generation (C9) -/

theorem mem_gridFinset (e : Env) (p : Pos) :
    p ∈ gridFinset e ↔ isWithinBounds e p.1 p.2 = true := by
  obtain ⟨x, y⟩ := p
  simp only [gridFinset, Finset.mem_product, Finset.mem_Icc, isWithinBounds,
    decide_eq_true_eq]
  omega

theorem genLocsStep_invariant (e : Env) (exclude : List Pos) (locs : List Pos) (d : Pos)
    (hn : locs.Nodup) (hmem : ∀ p ∈ locs, p ∈ gridFinset e ∧ p ∉ exclude)
    (hd : isWithinBounds e d.1 d.2 = true) :
    (genLocsStep exclude locs d).Nodup ∧
      (∀ p ∈ genLocsStep exclude locs d, p ∈ gridFinset e ∧ p ∉ exclude) ∧
      (genLocsStep exclude locs d).length ≤ locs.length + 1 ∧
      locs.length ≤ (genLocsStep exclude locs d).length := by
  unfold genLocsStep
  by_cases h1 : d ∈ exclude
  · simp only [if_pos h1]
    refine ⟨hn, hmem, by simp, by simp⟩
  · by_cases h2 : d ∈ locs
    · simp only [if_neg h1, if_pos h2]
      refine ⟨hn, hmem, by simp, by simp⟩
    · simp only [if_neg h1, if_neg h2]
      refine ⟨?_, ?_, by simp, by simp⟩
      · simp [List.nodup_append, hn, h2]
      · intro p hp
        rcases List.mem_append.mp hp with hp | hp
        · exact hmem p hp
        · simp only [List.mem_singleton] at hp
          subst hp
          exact ⟨(mem_gridFinset e p).mpr hd, h1⟩

theorem genLocsLoop_none_aux (e : Env) (count : Nat) (exclude : List Pos)
    (hcard : ((gridFinset e).filter (fun p => p ∉ exclude)).card < count) :
    ∀ (draws locs : List Pos), locs.Nodup →
      (∀ p ∈ locs, p ∈ gridFinset e ∧ p ∉ exclude) →
      (∀ d ∈ draws, isWithinBounds e d.1 d.2 = true) →
      genLocsLoop count exclude draws locs = none := by
  intro draws
  induction draws with
  | nil =>
    intro locs hn hmem _
    have hle : locs.length < count := by
      have h1 : locs.length = locs.toFinset.card := (List.toFinset_card_of_nodup hn).symm
      have h2 : locs.toFinset ⊆ (gridFinset e).filter (fun p => p ∉ exclude) := by
        intro p hp
        rw [List.mem_toFinset] at hp
        obtain ⟨hg, hx⟩ := hmem p hp
        exact Finset.mem_filter.mpr ⟨hg, hx⟩
      have := Finset.card_le_card h2
      omega
    simp [genLocsLoop, Nat.not_le.mpr hle]
  | cons d ds ih =>
    intro locs hn hmem hdraws
    have hle : locs.length < count := by
      have h1 : locs.length = locs.toFinset.card := (List.toFinset_card_of_nodup hn).symm
      have h2 : locs.toFinset ⊆ (gridFinset e).filter (fun p => p ∉ exclude) := by
        intro p hp
        rw [List.mem_toFinset] at hp
        obtain ⟨hg, hx⟩ := hmem p hp
        exact Finset.mem_filter.mpr ⟨hg, hx⟩
      have := Finset.card_le_card h2
      omega
    have hd : isWithinBounds e d.1 d.2 = true := hdraws d (by simp)
    obtain ⟨hn', hmem', _, _⟩ := genLocsStep_invariant e exclude locs d hn hmem hd
    rw [genLocsLoop, if_neg (Nat.not_le.mpr hle)]
    exact ih _ hn' hmem' (fun x hx => hdraws x (by simp [hx]))

/-- C9 (code side): whenever `count` exceeds the number of in-grid
cells outside `exclude`, `generate_random_locations` never finishes:
for every finite stream of random draws the loop is still running.
The source raises no `InvalidConfiguration`; it loops forever. -/
theorem generateRandomLocations_diverges (e : Env) (count : Nat) (exclude : List Pos)
    (hcard : ((gridFinset e).filter (fun p => p ∉ exclude)).card < count) :
    ∀ draws : List Pos, (∀ d ∈ draws, isWithinBounds e d.1 d.2 = true) →
      genLocsLoop count exclude draws [] = none := by
  intro draws hdraws
  exact genLocsLoop_none_aux e count exclude hcard draws [] (by simp) (by simp) hdraws

/-- Witness for C9's divergence theorem: on the 1-by-1 grid, asking for
two locations consumes any stream of valid draws without finishing. -/
theorem generateRandomLocations_diverges_witness :
    genLocsLoop 2 [] [((0 : Int), (0 : Int)), ((0 : Int), (0 : Int))] [] = none :=
  generateRandomLocations_diverges oneCellEnv 2 []
    (by
      have h : (gridFinset oneCellEnv).filter (fun p => p ∉ ([] : List Pos)) =
          gridFinset oneCellEnv := by
        simp
      rw [h]
      simp only [gridFinset, oneCellEnv]
      rw [Finset.card_product]
      simp [Int.card_Icc])
    [((0 : Int), (0 : Int)), ((0 : Int), (0 : Int))]
    (by intro d hd; simp only [List.mem_cons] at hd; rcases hd with h | h | h <;>
      first
        | (subst h; decide)
        | simp at h)

/-! ## No reachable task (C4) -/

theorem selectFold_all_fail (search : Pos → Option (List Pos)) :
    ∀ (tasks : List (Pos × Nat)) (acc : Option (Pos × List Pos)),
      (∀ t ∈ tasks, search t.1 = none) → tasks.foldl (selectStep search) acc = acc := by
  intro tasks
  induction tasks with
  | nil => intro acc _; rfl
  | cons t ts ih =>
    intro acc hfail
    have ht : search t.1 = none := hfail t (by simp)
    have hstep : selectStep search acc t = acc := by
      simp [selectStep, ht]
    rw [List.foldl_cons, hstep]
    exact ih acc (fun x hx => hfail x (by simp [hx]))

theorem selectNearest_all_fail (search : Pos → Option (List Pos))
    (tasks : List (Pos × Nat)) (hfail : ∀ t ∈ tasks, search t.1 = none) :
    selectNearest search tasks = none :=
  selectFold_all_fail search tasks none hfail

theorem simStepsCount_fix (alg : Alg) (s : SimState)
    (hstep : simStep alg s = s) (hidle : s.moving = false) (htasks : s.env.tasks ≠ []) :
    ∀ (k j : Nat), simStepsCount alg k (s, j) = (s, j + k) := by
  have hsel : findNearestTask alg s = s := by
    have h1 : simStep alg s = findNearestTask alg s := by
      simp [simStep, hidle, htasks]
    rw [← h1, hstep]
  intro k
  induction k with
  | zero => intro j; simp [simStepsCount]
  | succ n ih =>
    intro j
    have h2 : simStepCount alg (s, j) = (s, j + 1) := by
      simp [simStepCount, hidle, htasks, hsel]
    rw [simStepsCount, h2, ih (j + 1)]
    ring_nf

/-- Amended C4: when tasks remain but every open task's search fails,
`find_nearest_task` leaves the whole state unchanged (there is no
`NoReachableTask` report and no `Done` transition), and the driver
keeps invoking the search on every tick, forever, with the completed
count, completed list and cumulative cost untouched at their current
values. -/
theorem noReachableTask_behavior (alg : Alg) (s : SimState)
    (hidle : s.moving = false) (htasks : s.env.tasks ≠ [])
    (hfail : ∀ t ∈ s.env.tasks, runSearch alg s.env s.position t.1 = none) :
    findNearestTask alg s = s ∧
    simStep alg s = s ∧
    ∀ k, simStepsCount alg k (s, 0) = (s, k) := by
  have hsel : selectNearest (fun t => runSearch alg s.env s.position t) s.env.tasks = none :=
    selectNearest_all_fail _ _ hfail
  have hfind : findNearestTask alg s = s := by
    simp [findNearestTask, hsel]
  have hstep : simStep alg s = s := by
    simp [simStep, hidle, htasks, hfind]
  refine ⟨hfind, hstep, fun k => ?_⟩
  have := simStepsCount_fix alg s hstep hidle htasks k 0
  simpa using this

/-- Witness for the amended C4 theorem at the spec's wall scenario. -/
theorem noReachableTask_behavior_witness :
    findNearestTask Alg.astar wallState = wallState ∧
    simStep Alg.astar wallState = wallState ∧
    ∀ k, simStepsCount Alg.astar k (wallState, 0) = (wallState, k) :=
  noReachableTask_behavior Alg.astar wallState rfl (by simp [wallState, wallEnv])
    (by
      intro t ht
      simp only [wallState, wallEnv, List.mem_singleton] at ht
      subst ht
      rfl)

/-- Counterexample to C4 as stated: in the spec's own 3-by-3 wall
scenario the selection step produces no distinguishable failure
outcome (the state, moving flag included, is bit-for-bit unchanged)
and the driver performs five further search invocations in five ticks
while tasks remain, instead of transitioning to any terminal state. -/
theorem wall_scenario_counterexample :
    findNearestTask Alg.astar wallState = wallState ∧
    findNearestTask Alg.idastar wallState = wallState ∧
    simStep Alg.astar wallState = wallState ∧
    simStepsCount Alg.astar 5 (wallState, 0) = (wallState, 5) ∧
    wallState.env.tasks ≠ [] ∧
    wallState.taskCompleted = 0 ∧ wallState.cumulativeCost = 0 :=
  ⟨rfl, rfl, by rfl, by rfl, by simp [wallState, wallEnv], rfl, rfl⟩

/-! ## Search results are never the empty list -/

theorem reconstructPath_ne_nil (cf : Pos → Option Pos) :
    ∀ (fuel : Nat) (c : Pos) (l : List Pos), reconstructPath cf fuel c = some l → l ≠ [] := by
  intro fuel
  induction fuel with
  | zero => intro c l h; simp [reconstructPath] at h
  | succ n ih =>
    intro c l h
    cases hc : cf c with
    | some prev =>
      simp only [reconstructPath, hc] at h
      cases hr : reconstructPath cf n prev with
      | none => simp only [hr] at h; simp at h
      | some l' =>
        simp only [hr] at h
        simp only [Option.map_some', Option.some_inj] at h
        subst h
        simp
    | none =>
      simp only [reconstructPath, hc, Option.some_inj] at h
      subst h
      simp

theorem aStarLoop_ne_nil (e : Env) (goal : Pos) :
    ∀ (fuel : Nat) (st : AState) (l : List Pos),
      aStarLoop e goal fuel st = some (some l) → l ≠ [] := by
  intro fuel
  induction fuel with
  | zero => intro st l h; simp [aStarLoop] at h
  | succ n ih =>
    intro st l h
    cases hp : popMin st.openSet with
    | none => simp only [aStarLoop, hp] at h; exact absurd h (by simp)
    | some pr =>
      obtain ⟨entry, rest⟩ := pr
      simp only [aStarLoop, hp] at h
      by_cases hgoal : entry.2 = goal
      · rw [if_pos hgoal] at h
        cases hr : reconstructPath st.cameFrom (gridCount e + 1) entry.2 with
        | none => simp only [hr] at h; simp at h
        | some l' =>
          simp only [hr, Option.some_inj] at h
          subst h
          exact reconstructPath_ne_nil _ _ _ _ hr
      · rw [if_neg hgoal] at h
        cases hg : st.gScore entry.2 with
        | none => simp only [hg] at h; simp at h
        | some gc =>
          simp only [hg] at h
          exact ih _ _ h

theorem idaFold_found_ne_nil (recur : List Pos → Nat → Nat → Option IdaRes)
    (hrec : ∀ rp g t p, recur rp g t = some (IdaRes.found p) → p ≠ []) :
    ∀ (nbrs : List Pos) (rpath : List Pos) (g threshold : Nat) (minCost : Option Nat)
      (p : List Pos),
      idaFold recur rpath g threshold nbrs minCost = some (IdaRes.found p) → p ≠ [] := by
  intro nbrs
  induction nbrs with
  | nil => intro rpath g t m p h; simp [idaFold] at h
  | cons nb nbs ih =>
    intro rpath g t m p h
    rw [idaFold] at h
    by_cases hmem : nb ∈ rpath
    · rw [if_pos hmem] at h
      exact ih _ _ _ _ _ h
    · rw [if_neg hmem] at h
      cases hr : recur (nb :: rpath) (g + 1) t with
      | none => rw [hr] at h; simp at h
      | some r =>
        rw [hr] at h
        cases r with
        | found q =>
          simp only [Option.some_inj] at h
          have : q = p := by injection h
          subst this
          exact hrec _ _ _ _ hr
        | bound b => exact ih _ _ _ _ _ h

theorem idaSearch_found_ne_nil (e : Env) (goal : Pos) :
    ∀ (fuel : Nat) (rpath : List Pos) (g threshold : Nat) (p : List Pos),
      idaSearch e goal fuel rpath g threshold = some (IdaRes.found p) → p ≠ [] := by
  intro fuel
  induction fuel with
  | zero => intro rpath g t p h; simp [idaSearch] at h
  | succ n ih =>
    intro rpath g t p h
    match rpath with
    | [] => simp [idaSearch] at h
    | current :: rest =>
      rw [idaSearch] at h
      by_cases hf : t < g + heuristic current goal
      · simp only [if_pos hf] at h
        simp at h
      · simp only [if_neg hf] at h
        by_cases hgoal : current = goal
        · simp only [if_pos hgoal, Option.some_inj] at h
          have : (current :: rest).reverse = p := by injection h
          subst this
          simp
        · simp only [if_neg hgoal] at h
          exact idaFold_found_ne_nil _ (fun rp g' t' q hq => ih rp g' t' q hq) _ _ _ _ _ _ h

theorem idaLoop_ne_nil (e : Env) (start goal : Pos) :
    ∀ (fuel threshold : Nat) (l : List Pos),
      idaLoop e start goal fuel threshold = some (some l) → l ≠ [] := by
  intro fuel
  induction fuel with
  | zero => intro t l h; simp [idaLoop] at h
  | succ n ih =>
    intro t l h
    rw [idaLoop] at h
    cases hr : idaSearch e goal (idaSearchFuel e) [start] 0 t with
    | none => rw [hr] at h; simp at h
    | some r =>
      rw [hr] at h
      cases r with
      | found p =>
        simp only [Option.some_inj] at h
        subst h
        exact idaSearch_found_ne_nil e goal _ _ _ _ _ hr
      | bound b =>
        cases b with
        | none => simp at h
        | some bn => exact ih _ _ h

theorem runSearch_ne_nil (alg : Alg) (e : Env) (s t : Pos) :
    ∀ p, runSearch alg e s t = some p → p ≠ [] := by
  intro p h
  cases alg with
  | astar =>
    simp only [runSearch] at h
    cases ha : aStarSearch e s t with
    | none => rw [ha] at h; simp at h
    | some x =>
      rw [ha] at h
      simp only [Option.getD_some] at h
      subst h
      exact aStarLoop_ne_nil e t _ _ _ ha
  | idastar =>
    simp only [runSearch] at h
    cases ha : idaStarSearch e s t with
    | none => rw [ha] at h; simp at h
    | some x =>
      rw [ha] at h
      simp only [Option.getD_some] at h
      subst h
      exact idaLoop_ne_nil e s t _ _ _ ha

/-! ## Characterization of the selection fold (C3) -/

theorem selectStep_fail (search : Pos → Option (List Pos)) (acc : Option (Pos × List Pos))
    (t : Pos × Nat) (hs : search t.1 = none) : selectStep search acc t = acc := by
  unfold selectStep
  rw [hs]

theorem selectStep_nil (search : Pos → Option (List Pos)) (acc : Option (Pos × List Pos))
    (t : Pos × Nat) (hs : search t.1 = some []) : selectStep search acc t = acc := by
  unfold selectStep
  rw [hs]

theorem selectStep_first (search : Pos → Option (List Pos)) (t : Pos × Nat)
    (x : Pos) (xs : List Pos) (hs : search t.1 = some (x :: xs)) :
    selectStep search none t = some (t.1, x :: xs) := by
  unfold selectStep
  rw [hs]

theorem selectStep_improve (search : Pos → Option (List Pos)) (a : Pos × List Pos)
    (t : Pos × Nat) (x : Pos) (xs : List Pos) (hs : search t.1 = some (x :: xs))
    (hlt : (x :: xs).length < a.2.length) :
    selectStep search (some a) t = some (t.1, x :: xs) := by
  obtain ⟨a1, a2⟩ := a
  unfold selectStep
  rw [hs]
  exact if_pos hlt

theorem selectStep_keep (search : Pos → Option (List Pos)) (a : Pos × List Pos)
    (t : Pos × Nat) (x : Pos) (xs : List Pos) (hs : search t.1 = some (x :: xs))
    (hge : ¬ (x :: xs).length < a.2.length) :
    selectStep search (some a) t = some a := by
  obtain ⟨a1, a2⟩ := a
  unfold selectStep
  rw [hs]
  exact if_neg hge

theorem selectFold_some_ne_none (search : Pos → Option (List Pos)) :
    ∀ (tasks : List (Pos × Nat)) (a : Pos × List Pos),
      tasks.foldl (selectStep search) (some a) ≠ none := by
  intro tasks
  induction tasks with
  | nil => intro a h; simp at h
  | cons t ts ih =>
    intro a h
    rw [List.foldl_cons] at h
    cases hs : search t.1 with
    | none =>
      rw [selectStep_fail search _ t hs] at h
      exact ih a h
    | some p =>
      cases p with
      | nil =>
        rw [selectStep_nil search _ t hs] at h
        exact ih a h
      | cons x xs =>
        by_cases hlt : (x :: xs).length < a.2.length
        · rw [selectStep_improve search a t x xs hs hlt] at h
          exact ih _ h
        · rw [selectStep_keep search a t x xs hs hlt] at h
          exact ih _ h

theorem selectFold_none_char (search : Pos → Option (List Pos)) :
    ∀ (tasks : List (Pos × Nat)) (acc : Option (Pos × List Pos)),
      tasks.foldl (selectStep search) acc = none →
      acc = none ∧ ∀ t ∈ tasks, ∀ x xs, search t.1 ≠ some (x :: xs) := by
  intro tasks
  induction tasks with
  | nil => intro acc h; simpa using h
  | cons t ts ih =>
    intro acc h
    rw [List.foldl_cons] at h
    obtain ⟨hacc', hts⟩ := ih _ h
    cases hs : search t.1 with
    | none =>
      rw [selectStep_fail search _ t hs] at hacc'
      refine ⟨hacc', ?_⟩
      intro x hx
      rcases List.mem_cons.mp hx with hx | hx
      · subst hx; simp [hs]
      · exact hts x hx
    | some p =>
      cases p with
      | nil =>
        rw [selectStep_nil search _ t hs] at hacc'
        refine ⟨hacc', ?_⟩
        intro x hx
        rcases List.mem_cons.mp hx with hx | hx
        · subst hx; simp [hs]
        · exact hts x hx
      | cons y ys =>
        exfalso
        cases acc with
        | none =>
          rw [selectStep_first search t y ys hs] at hacc'
          simp at hacc'
        | some a =>
          by_cases hlt : (y :: ys).length < a.2.length
          · rw [selectStep_improve search a t y ys hs hlt] at hacc'
            simp at hacc'
          · rw [selectStep_keep search a t y ys hs hlt] at hacc'
            simp at hacc'

theorem selectFold_some_char (search : Pos → Option (List Pos)) :
    ∀ (tasks : List (Pos × Nat)) (acc : Option (Pos × List Pos)) (b : Pos × List Pos),
      tasks.foldl (selectStep search) acc = some b →
      (acc = some b ∧ ∀ t ∈ tasks, ∀ x xs, search t.1 = some (x :: xs) →
          b.2.length ≤ (x :: xs).length) ∨
      (∃ l₁ t l₂, tasks = l₁ ++ t :: l₂ ∧ t.1 = b.1 ∧ search t.1 = some b.2 ∧
        (∀ a, acc = some a → b.2.length < a.2.length) ∧
        (∀ t' ∈ l₁, ∀ x xs, search t'.1 = some (x :: xs) → b.2.length < (x :: xs).length) ∧
        (∀ t' ∈ l₂, ∀ x xs, search t'.1 = some (x :: xs) → b.2.length ≤ (x :: xs).length)) := by
  intro tasks
  induction tasks with
  | nil =>
    intro acc b h
    simp only [List.foldl_nil] at h
    exact Or.inl ⟨h, by simp⟩
  | cons t ts ih =>
    intro acc b h
    rw [List.foldl_cons] at h
    rcases ih _ _ h with ⟨hacc', hnb⟩ | ⟨l₁, t', l₂, hsplit, hfst, hsearch, haccs, hl₁, hl₂⟩
    · -- the winner was already the accumulator entering `ts`
      cases hs : search t.1 with
      | none =>
        rw [selectStep_fail search _ t hs] at hacc'
        refine Or.inl ⟨hacc', ?_⟩
        intro u hu x xs hx
        rcases List.mem_cons.mp hu with hu | hu
        · subst hu; rw [hs] at hx; exact absurd hx (by simp)
        · exact hnb u hu x xs hx
      | some p =>
        cases p with
        | nil =>
          rw [selectStep_nil search _ t hs] at hacc'
          refine Or.inl ⟨hacc', ?_⟩
          intro u hu x xs hx
          rcases List.mem_cons.mp hu with hu | hu
          · subst hu; rw [hs] at hx; exact absurd hx (by simp)
          · exact hnb u hu x xs hx
        | cons y ys =>
          cases acc with
          | none =>
            rw [selectStep_first search t y ys hs] at hacc'
            have hb : (t.1, y :: ys) = b := by injection hacc'
            refine Or.inr ⟨[], t, ts, by simp, ?_, ?_, by simp, by simp, ?_⟩
            · rw [← hb]
            · rw [hs, ← hb]
            · intro u hu x xs hx
              exact hnb u hu x xs hx
          | some a =>
            by_cases hlt : (y :: ys).length < a.2.length
            · rw [selectStep_improve search a t y ys hs hlt] at hacc'
              have hb : (t.1, y :: ys) = b := by injection hacc'
              refine Or.inr ⟨[], t, ts, by simp, ?_, ?_, ?_, by simp, ?_⟩
              · rw [← hb]
              · rw [hs, ← hb]
              · intro a' ha'
                have haa : a = a' := by injection ha'
                subst haa
                rw [← hb]
                simpa using hlt
              · intro u hu x xs hx
                exact hnb u hu x xs hx
            · rw [selectStep_keep search a t y ys hs hlt] at hacc'
              have hab : a = b := by injection hacc'
              subst hab
              refine Or.inl ⟨rfl, ?_⟩
              intro u hu x xs hx
              rcases List.mem_cons.mp hu with hu | hu
              · subst hu
                rw [hs] at hx
                have hyx : y :: ys = x :: xs := by injection hx
                rw [← hyx]
                omega
              · exact hnb u hu x xs hx
    · -- the winner was adopted somewhere inside `ts`
      refine Or.inr ⟨t :: l₁, t', l₂, by simp [hsplit], hfst, hsearch, ?_, ?_, hl₂⟩
      · -- strictly better than anything the fold started from
        intro a ha
        subst ha
        cases hs : search t.1 with
        | none =>
          rw [selectStep_fail search _ t hs] at haccs
          exact haccs a rfl
        | some p =>
          cases p with
          | nil =>
            rw [selectStep_nil search _ t hs] at haccs
            exact haccs a rfl
          | cons y ys =>
            by_cases hlt : (y :: ys).length < a.2.length
            · rw [selectStep_improve search a t y ys hs hlt] at haccs
              have := haccs (t.1, y :: ys) rfl
              simp only at this
              omega
            · rw [selectStep_keep search a t y ys hs hlt] at haccs
              exact haccs a rfl
      · -- every earlier success is strictly longer
        intro u hu x xs hx
        rcases List.mem_cons.mp hu with hu | hu
        · subst hu
          cases acc with
          | none =>
            rw [selectStep_first search u x xs hx] at haccs
            have := haccs (u.1, x :: xs) rfl
            simpa using this
          | some a =>
            by_cases hlt : (x :: xs).length < a.2.length
            · rw [selectStep_improve search a u x xs hx hlt] at haccs
              have := haccs (u.1, x :: xs) rfl
              simpa using this
            · rw [selectStep_keep search a u x xs hx hlt] at haccs
              have := haccs a rfl
              simp only at this
              omega
        · exact hl₁ u hu x xs hx

/-- C3: `find_nearest_task`'s selection loop runs the configured
search on every open task in mapping enumeration order, is unaffected
by failed searches (it fails only when every search fails), and picks
a successful path of minimum length, preferring the first task in
enumeration order among equal-length candidates. -/
theorem findNearestTask_selection (alg : Alg) (e : Env) (pos : Pos) :
    (selectNearest (fun t => runSearch alg e pos t) e.tasks = none ↔
      ∀ t ∈ e.tasks, runSearch alg e pos t.1 = none) ∧
    ∀ bt bp, selectNearest (fun t => runSearch alg e pos t) e.tasks = some (bt, bp) →
      runSearch alg e pos bt = some bp ∧
      (∀ t ∈ e.tasks, ∀ p, runSearch alg e pos t.1 = some p → bp.length ≤ p.length) ∧
      ∃ l₁ t l₂, e.tasks = l₁ ++ t :: l₂ ∧ t.1 = bt ∧
        ∀ t' ∈ l₁, ∀ p, runSearch alg e pos t'.1 = some p → bp.length < p.length := by
  have hform : ∀ (u : Pos) (p : List Pos), runSearch alg e pos u = some p →
      ∃ x xs, p = x :: xs := by
    intro u p hp
    cases p with
    | nil => exact absurd rfl (runSearch_ne_nil alg e pos u [] hp)
    | cons x xs => exact ⟨x, xs, rfl⟩
  constructor
  · constructor
    · intro h
      obtain ⟨-, hall⟩ := selectFold_none_char _ _ _ h
      intro t ht
      cases hs : runSearch alg e pos t.1 with
      | none => rfl
      | some p =>
        obtain ⟨x, xs, rfl⟩ := hform t.1 p hs
        exact absurd hs (hall t ht x xs)
    · intro h
      exact selectNearest_all_fail _ _ h
  · intro bt bp h
    rcases selectFold_some_char _ _ _ _ h with ⟨habs, -⟩ | ⟨l₁, t, l₂, hsplit, hfst, hsearch, -, hl₁, hl₂⟩
    · exact absurd habs (by simp)
    · simp only at hfst hsearch hl₁ hl₂
      refine ⟨by rw [← hfst]; exact hsearch, ?_, l₁, t, l₂, hsplit, hfst, ?_⟩
      · intro u hu p hp
        obtain ⟨x, xs, rfl⟩ := hform u.1 p hp
        rw [hsplit] at hu
        rcases List.mem_append.mp hu with hu | hu
        · exact le_of_lt (hl₁ u hu x xs hp)
        · rcases List.mem_cons.mp hu with hu | hu
          · subst hu
            rw [hsearch] at hp
            have : bp = x :: xs := by injection hp
            rw [this]
          · exact hl₂ u hu x xs hp
      · intro u hu p hp
        obtain ⟨x, xs, rfl⟩ := hform u.1 p hp
        exact hl₁ u hu x xs hp

/-- Witness for C3 at the wall scenario: with the single task
unreachable, the selection loop reports no selection (and does not
fail). -/
theorem findNearestTask_selection_witness :
    selectNearest (fun t => runSearch Alg.astar wallEnv ((0 : Int), (0 : Int)) t)
      wallEnv.tasks = none :=
  (findNearestTask_selection Alg.astar wallEnv ((0 : Int), (0 : Int))).1.mpr
    (by
      intro t ht
      simp only [wallEnv, List.mem_singleton] at ht
      subst ht
      rfl)

/-! ## Grid-path basics -/

theorem IsPathList.ne_nil {e : Env} {s t : Pos} {l : List Pos} (h : IsPathList e s t l) :
    l ≠ [] := by
  intro hl
  rw [hl] at h
  simp [IsPathList] at h

theorem isPathList_singleton (e : Env) (p : Pos) : IsPathList e p p [p] := by
  refine ⟨rfl, rfl, by simp⟩

theorem reach_self (e : Env) (p : Pos) : Reach e p p :=
  ⟨[p], isPathList_singleton e p⟩

theorem isPathList_extend {e : Env} {s t v : Pos} {l : List Pos}
    (h : IsPathList e s t l) (hadj : Adj e t v) : IsPathList e s v (l ++ [v]) := by
  obtain ⟨hh, hl, hc⟩ := h
  refine ⟨?_, ?_, ?_⟩
  · cases l with
    | nil => simp at hh
    | cons a rest => simpa using hh
  · simp
  · rw [List.chain'_append]
    refine ⟨hc, by simp, ?_⟩
    intro a ha b hb
    have hb2 : v = b := by simpa using hb
    have ha2 : t = a := by
      rw [Option.mem_def, hl] at ha
      injection ha
    rw [← hb2, ← ha2]
    exact hadj

theorem isPathList_concat {e : Env} {s w t : Pos} {m : List Pos} {n : List Pos}
    (hm : IsPathList e s w m) (hn : IsPathList e w t n) :
    IsPathList e s t (m ++ n.tail) := by
  obtain ⟨hmh, hml, hmc⟩ := hm
  obtain ⟨hnh, hnl, hnc⟩ := hn
  cases n with
  | nil => simp at hnh
  | cons b n' =>
    have hb : b = w := by simpa using hnh
    subst hb
    cases n' with
    | nil =>
      have hbt : t = b := by
        have := hnl
        simp only [List.getLast?_singleton, Option.some_inj] at this
        exact this.symm
      subst hbt
      simpa using ⟨hmh, hml, hmc⟩
    | cons c n'' =>
      refine ⟨?_, ?_, ?_⟩
      · cases m with
        | nil => simp at hmh
        | cons a rest => simpa using hmh
      · simp only [List.tail_cons]
        rw [List.getLast?_append_cons]
        simpa using hnl
      · simp only [List.tail_cons]
        rw [List.chain'_append]
        refine ⟨hmc, (List.chain'_cons'.mp hnc).2, ?_⟩
        intro a ha bb hbb
        have hbb2 : c = bb := by simpa using hbb
        have ha2 : b = a := by
          rw [Option.mem_def, hml] at ha
          injection ha
        rw [← hbb2, ← ha2]
        exact (List.chain'_cons'.mp hnc).1 c rfl

theorem adj_heuristic_le {e : Env} {p q : Pos} (h : Adj e p q) (t : Pos) :
    heuristic p t ≤ heuristic q t + 1 ∧ heuristic q t ≤ heuristic p t + 1 := by
  simp only [Adj, getNeighbors, List.mem_filter] at h
  obtain ⟨hmem, -⟩ := h
  obtain ⟨x, y⟩ := p
  obtain ⟨qx, qy⟩ := q
  simp only [List.mem_cons, List.not_mem_nil, or_false, Prod.mk.injEq] at hmem
  unfold heuristic
  rcases hmem with ⟨h1, h2⟩ | ⟨h1, h2⟩ | ⟨h1, h2⟩ | ⟨h1, h2⟩ <;>
    (subst h1; subst h2; simp only; omega)

theorem heuristic_le_of_path {e : Env} (G : Pos) :
    ∀ (l : List Pos) (s t : Pos), IsPathList e s t l →
      heuristic s G ≤ heuristic t G + (l.length - 1) := by
  intro l
  induction l with
  | nil => intro s t h; exact absurd rfl h.ne_nil
  | cons a rest ih =>
    intro s t h
    obtain ⟨hh, hl, hc⟩ := h
    have ha : a = s := by simpa using hh
    subst ha
    cases rest with
    | nil =>
      have hat : t = a := by
        have := hl
        simp only [List.getLast?_singleton, Option.some_inj] at this
        exact this.symm
      subst hat
      simp
    | cons b rest' =>
      have hadj : Adj e a b := (List.chain'_cons.mp hc).1
      have hpath : IsPathList e b t (b :: rest') :=
        ⟨rfl, by simpa using hl, (List.chain'_cons.mp hc).2⟩
      have hb := ih b t hpath
      have h1 := (adj_heuristic_le hadj G).1
      simp only [List.length_cons] at hb ⊢
      omega

theorem heuristic_admissible {e : Env} {s t : Pos} {l : List Pos}
    (h : IsPathList e s t l) : heuristic s t + 1 ≤ l.length := by
  have hle := heuristic_le_of_path (e := e) t l s t h
  have hne := h.ne_nil
  have hlen : 1 ≤ l.length := by
    cases l with
    | nil => exact absurd rfl hne
    | cons a rest => simp
  have h0 : heuristic t t = 0 := by simp [heuristic]
  rw [h0] at hle
  omega

theorem reach_exists_shortest {e : Env} {s t : Pos} (h : Reach e s t) :
    ∃ d, IsShortest e s t d := by
  classical
  set S : Set Nat := {n | ∃ l, IsPathList e s t l ∧ l.length = n} with hS
  have hne : S.Nonempty := by
    obtain ⟨l, hl⟩ := h
    exact ⟨l.length, l, hl, rfl⟩
  have hmem : sInf S ∈ S := Nat.sInf_mem hne
  obtain ⟨l, hl, hlen⟩ := hmem
  have hpos : 1 ≤ l.length := by
    cases l with
    | nil => exact absurd rfl hl.ne_nil
    | cons a rest => simp
  refine ⟨sInf S - 1, ⟨⟨l, hl, by omega⟩, ?_⟩⟩
  intro m hm
  have : sInf S ≤ m.length := Nat.sInf_le ⟨m, hm, rfl⟩
  omega

theorem isShortest_unique {e : Env} {s t : Pos} {d d' : Nat}
    (h : IsShortest e s t d) (h' : IsShortest e s t d') : d = d' := by
  obtain ⟨⟨l, hl, hlen⟩, hmin⟩ := h
  obtain ⟨⟨l', hl', hlen'⟩, hmin'⟩ := h'
  have h1 := hmin l' hl'
  have h2 := hmin' l hl
  omega

theorem shortestPath_isShortest {e : Env} {s t : Pos} {l : List Pos}
    (h : ShortestPath e s t l) : IsShortest e s t (l.length - 1) := by
  obtain ⟨hl, hmin⟩ := h
  have hpos : 1 ≤ l.length := by
    cases l with
    | nil => exact absurd rfl hl.ne_nil
    | cons a rest => simp
  exact ⟨⟨l, hl, by omega⟩, fun m hm => by have := hmin m hm; omega⟩

theorem reach_exists_shortestPath {e : Env} {s t : Pos} (h : Reach e s t) :
    ∃ l, ShortestPath e s t l := by
  obtain ⟨d, ⟨⟨l, hl, hlen⟩, hmin⟩⟩ := reach_exists_shortest h
  exact ⟨l, hl, fun m hm => by have := hmin m hm; omega⟩

theorem path_decompose_split {e : Env} {s z w : Pos} {lpre lsuf : List Pos}
    (h : IsPathList e s z (lpre ++ w :: lsuf)) :
    IsPathList e s w (lpre ++ [w]) ∧ IsPathList e w z (w :: lsuf) := by
  obtain ⟨hh, hl, hc⟩ := h
  constructor
  · refine ⟨?_, by simp, ?_⟩
    · cases lpre with
      | nil => simpa using hh
      | cons a rest => simpa using hh
    · have hp : (lpre ++ [w]) <+: (lpre ++ w :: lsuf) := by
        refine ⟨lsuf, by simp⟩
      exact List.Chain'.prefix hc hp
  · refine ⟨rfl, ?_, ?_⟩
    · rw [List.getLast?_append_cons] at hl
      exact hl
    · exact (List.chain'_append.mp hc).2.1

theorem shortestPath_init {e : Env} {s z w : Pos} {lpre lsuf : List Pos}
    (h : ShortestPath e s z (lpre ++ w :: lsuf)) :
    IsShortest e s w lpre.length := by
  obtain ⟨hpath, hmin⟩ := h
  obtain ⟨hpre, hsuf⟩ := path_decompose_split hpath
  refine ⟨⟨lpre ++ [w], hpre, by simp⟩, ?_⟩
  intro m hm
  have hsplice := isPathList_concat hm hsuf
  have := hmin _ hsplice
  simp only [List.length_append, List.length_cons, List.tail_cons] at this ⊢
  omega

/-! ## Heap-pop lemmas -/

theorem entryLE_iff (a b : Nat × Pos) :
    entryLE a b = true ↔
      (a.1 < b.1 ∨ (a.1 = b.1 ∧ (a.2.1 < b.2.1 ∨ (a.2.1 = b.2.1 ∧ a.2.2 ≤ b.2.2)))) := by
  unfold entryLE
  simp [Bool.or_eq_true, Bool.and_eq_true, decide_eq_true_eq]

theorem entryLE_refl (a : Nat × Pos) : entryLE a a = true := by
  rw [entryLE_iff]
  omega

theorem entryLE_total (a b : Nat × Pos) : entryLE a b = true ∨ entryLE b a = true := by
  rw [entryLE_iff, entryLE_iff]
  omega

theorem entryLE_trans {a b c : Nat × Pos} (h1 : entryLE a b = true)
    (h2 : entryLE b c = true) : entryLE a c = true := by
  rw [entryLE_iff] at h1 h2 ⊢
  omega

theorem entryLE_fst {a b : Nat × Pos} (h : entryLE a b = true) : a.1 ≤ b.1 := by
  rw [entryLE_iff] at h
  omega

theorem findMinEntry_spec :
    ∀ (l : List (Nat × Pos)) (m : Nat × Pos), findMinEntry l = some m →
      m ∈ l ∧ ∀ x ∈ l, entryLE m x = true := by
  intro l
  match l with
  | [] => intro m h; simp [findMinEntry] at h
  | a :: rest =>
    intro m h
    simp only [findMinEntry, Option.some_inj] at h
    subst h
    -- fold invariant: the accumulator is in the list and below everything seen
    suffices hgen : ∀ (r : List (Nat × Pos)) (acc : Nat × Pos),
        (List.foldl (fun m x => if entryLE m x then m else x) acc r = acc ∨
          List.foldl (fun m x => if entryLE m x then m else x) acc r ∈ r) ∧
        entryLE (List.foldl (fun m x => if entryLE m x then m else x) acc r) acc = true ∧
        ∀ x ∈ r, entryLE (List.foldl (fun m x => if entryLE m x then m else x) acc r) x = true by
      obtain ⟨hmem, hacc, hall⟩ := hgen rest a
      refine ⟨?_, ?_⟩
      · rcases hmem with hmem | hmem
        · rw [hmem]; simp
        · simp [hmem]
      · intro x hx
        rcases List.mem_cons.mp hx with hx | hx
        · subst hx; exact hacc
        · exact hall x hx
    intro r
    induction r with
    | nil => intro acc; exact ⟨Or.inl rfl, entryLE_refl acc, by simp⟩
    | cons x xs ih =>
      intro acc
      by_cases hle : entryLE acc x = true
      · have hstep : (if entryLE acc x then acc else x) = acc := by simp [hle]
        obtain ⟨hmem, hacc, hall⟩ := ih acc
        rw [List.foldl_cons, hstep]
        refine ⟨?_, hacc, ?_⟩
        · rcases hmem with hmem | hmem
          · exact Or.inl hmem
          · exact Or.inr (by simp [hmem])
        · intro y hy
          rcases List.mem_cons.mp hy with hy | hy
          · subst hy; exact entryLE_trans hacc hle
          · exact hall y hy
      · have hstep : (if entryLE acc x then acc else x) = x := by simp [hle]
        have hxacc : entryLE x acc = true := by
          rcases entryLE_total acc x with h | h
          · exact absurd h hle
          · exact h
        obtain ⟨hmem, haccx, hall⟩ := ih x
        rw [List.foldl_cons, hstep]
        refine ⟨?_, entryLE_trans haccx hxacc, ?_⟩
        · rcases hmem with hmem | hmem
          · exact Or.inr (by simp [hmem])
          · exact Or.inr (by simp [hmem])
        · intro y hy
          rcases List.mem_cons.mp hy with hy | hy
          · subst hy; exact haccx
          · exact hall y hy

theorem popMin_none_iff (l : List (Nat × Pos)) : popMin l = none ↔ l = [] := by
  cases l with
  | nil => simp [popMin, findMinEntry]
  | cons a rest => simp [popMin, findMinEntry]

theorem eraseEntry_perm : ∀ (l : List (Nat × Pos)) (m : Nat × Pos), m ∈ l →
    l.Perm (m :: eraseEntry l m) := by
  intro l
  induction l with
  | nil => intro m h; simp at h
  | cons x xs ih =>
    intro m h
    by_cases hx : x = m
    · subst hx
      rw [eraseEntry, if_pos rfl]
    · rw [eraseEntry, if_neg hx]
      have hmem : m ∈ xs := by
        rcases List.mem_cons.mp h with h | h
        · exact absurd h.symm hx
        · exact h
      exact ((ih m hmem).cons x).trans (List.Perm.swap m x (eraseEntry xs m))

theorem popMin_spec {l : List (Nat × Pos)} {m : Nat × Pos} {rest : List (Nat × Pos)}
    (h : popMin l = some (m, rest)) :
    m ∈ l ∧ (∀ x ∈ l, entryLE m x = true) ∧ rest = eraseEntry l m ∧ l.Perm (m :: rest) := by
  unfold popMin at h
  cases hf : findMinEntry l with
  | none => rw [hf] at h; simp at h
  | some m' =>
    rw [hf] at h
    simp only [Option.some_inj] at h
    have hm : m' = m := congrArg Prod.fst h
    have hrest : eraseEntry l m' = rest := congrArg Prod.snd h
    subst hm
    obtain ⟨hmem, hall⟩ := findMinEntry_spec l m' hf
    exact ⟨hmem, hall, hrest.symm, by rw [← hrest]; exact eraseEntry_perm l m' hmem⟩

/-! ## Relaxation characterization -/

theorem updateMap_same {α : Type} (m : Pos → Option α) (k : Pos) (v : α) :
    updateMap m k v k = some v := by
  simp [updateMap]

theorem updateMap_other {α : Type} (m : Pos → Option α) (k : Pos) (v : α) {p : Pos}
    (h : p ≠ k) : updateMap m k v p = m p := by
  simp [updateMap, h]

theorem relaxOne_better {goal current : Pos} {gc : Nat} {st : AState} {nb : Pos}
    (h : betterG (st.gScore nb) (gc + 1) = true) :
    relaxOne goal current gc st nb =
      { openSet := st.openSet ++ [(gc + 1 + heuristic nb goal, nb)]
        cameFrom := updateMap st.cameFrom nb current
        gScore := updateMap st.gScore nb (gc + 1)
        fScore := updateMap st.fScore nb (gc + 1 + heuristic nb goal) } := by
  simp [relaxOne, h]

theorem relaxOne_worse {goal current : Pos} {gc : Nat} {st : AState} {nb : Pos}
    (h : betterG (st.gScore nb) (gc + 1) = false) :
    relaxOne goal current gc st nb = st := by
  simp [relaxOne, h]

theorem relaxAll_char (goal current : Pos) (gc : Nat) :
    ∀ (nbrs : List Pos) (st : AState), nbrs.Nodup →
      (∀ v, v ∉ nbrs →
        (relaxAll goal current gc nbrs st).gScore v = st.gScore v ∧
        (relaxAll goal current gc nbrs st).cameFrom v = st.cameFrom v) ∧
      (∀ v ∈ nbrs,
        (betterG (st.gScore v) (gc + 1) = true →
          (relaxAll goal current gc nbrs st).gScore v = some (gc + 1) ∧
          (relaxAll goal current gc nbrs st).cameFrom v = some current) ∧
        (betterG (st.gScore v) (gc + 1) = false →
          (relaxAll goal current gc nbrs st).gScore v = st.gScore v ∧
          (relaxAll goal current gc nbrs st).cameFrom v = st.cameFrom v)) ∧
      ∃ P, (relaxAll goal current gc nbrs st).openSet = st.openSet ++ P ∧
        (∀ q ∈ P, ∃ v, v ∈ nbrs ∧ q = (gc + 1 + heuristic v goal, v) ∧
          betterG (st.gScore v) (gc + 1) = true) ∧
        (∀ v ∈ nbrs, betterG (st.gScore v) (gc + 1) = true →
          (gc + 1 + heuristic v goal, v) ∈ P) := by
  intro nbrs
  induction nbrs with
  | nil =>
    intro st _
    refine ⟨fun v _ => ⟨rfl, rfl⟩, by simp, [], by simp [relaxAll], by simp, by simp⟩
  | cons nb nbs ih =>
    intro st hnodup
    have hnb_not : nb ∉ nbs := (List.nodup_cons.mp hnodup).1
    have hnodup' : nbs.Nodup := (List.nodup_cons.mp hnodup).2
    have hfold : relaxAll goal current gc (nb :: nbs) st =
        relaxAll goal current gc nbs (relaxOne goal current gc st nb) := by
      simp [relaxAll]
    obtain ⟨hout, hin, P', hP'eq, hP'mem, hP'cov⟩ := ih (relaxOne goal current gc st nb) hnodup'
    cases hbet : betterG (st.gScore nb) (gc + 1) with
    | true =>
      have hone := @relaxOne_better goal current _ _ _ hbet
      -- facts about the intermediate state
      have hg_nb : (relaxOne goal current gc st nb).gScore nb = some (gc + 1) := by
        rw [hone]; exact updateMap_same _ _ _
      have hcf_nb : (relaxOne goal current gc st nb).cameFrom nb = some current := by
        rw [hone]; exact updateMap_same _ _ _
      have hg_other : ∀ v, v ≠ nb → (relaxOne goal current gc st nb).gScore v = st.gScore v := by
        intro v hv; rw [hone]; exact updateMap_other _ _ _ hv
      have hcf_other : ∀ v, v ≠ nb →
          (relaxOne goal current gc st nb).cameFrom v = st.cameFrom v := by
        intro v hv; rw [hone]; exact updateMap_other _ _ _ hv
      have hopen1 : (relaxOne goal current gc st nb).openSet =
          st.openSet ++ [(gc + 1 + heuristic nb goal, nb)] := by
        rw [hone]
      refine ⟨?_, ?_, (gc + 1 + heuristic nb goal, nb) :: P', ?_, ?_, ?_⟩
      · intro v hv
        have hv_nb : v ≠ nb := fun hc => hv (by simp [hc])
        have hv_nbs : v ∉ nbs := fun hc => hv (by simp [hc])
        obtain ⟨hg, hcf⟩ := hout v hv_nbs
        rw [hfold, hg, hcf, hg_other v hv_nb, hcf_other v hv_nb]
        exact ⟨rfl, rfl⟩
      · intro v hv
        rcases List.mem_cons.mp hv with hv | hv
        · subst hv
          constructor
          · intro _
            obtain ⟨hg, hcf⟩ := hout v hnb_not
            rw [hfold, hg, hcf, hg_nb, hcf_nb]
            exact ⟨rfl, rfl⟩
          · intro hcontra
            rw [hbet] at hcontra
            exact absurd hcontra (by simp)
        · have hv_nb : v ≠ nb := fun hc => hnb_not (hc ▸ hv)
          have hgsame : (relaxOne goal current gc st nb).gScore v = st.gScore v :=
            hg_other v hv_nb
          obtain ⟨htr, hfa⟩ := hin v hv
          constructor
          · intro hb
            rw [hgsame] at htr
            exact (by rw [hfold]; exact htr hb)
          · intro hb
            rw [hgsame] at hfa
            obtain ⟨hg, hcf⟩ := hfa hb
            rw [hcf_other v hv_nb] at hcf
            rw [hfold, hg, hcf]
            exact ⟨rfl, rfl⟩
      · rw [hfold, hP'eq, hopen1]
        simp
      · intro q hq
        rcases List.mem_cons.mp hq with hq | hq
        · subst hq
          exact ⟨nb, by simp, rfl, hbet⟩
        · obtain ⟨v, hvmem, hqeq, hvb⟩ := hP'mem q hq
          have hv_nb : v ≠ nb := fun hc => hnb_not (hc ▸ hvmem)
          rw [hg_other v hv_nb] at hvb
          exact ⟨v, by simp [hvmem], hqeq, hvb⟩
      · intro v hv hvb
        rcases List.mem_cons.mp hv with hv | hv
        · subst hv
          simp
        · have hv_nb : v ≠ nb := fun hc => hnb_not (hc ▸ hv)
          have := hP'cov v hv (by rw [hg_other v hv_nb]; exact hvb)
          simp [this]
    | false =>
      have hone := @relaxOne_worse goal current _ _ _ hbet
      rw [hone] at hout hin hP'eq hP'mem hP'cov
      refine ⟨?_, ?_, P', ?_, ?_, ?_⟩
      · intro v hv
        have hv_nbs : v ∉ nbs := fun hc => hv (by simp [hc])
        obtain ⟨hg, hcf⟩ := hout v hv_nbs
        rw [hfold, hone]
        exact ⟨hg, hcf⟩
      · intro v hv
        rcases List.mem_cons.mp hv with hv | hv
        · subst hv
          constructor
          · intro hcontra
            rw [hbet] at hcontra
            exact absurd hcontra (by simp)
          · intro _
            by_cases hvnbs : v ∈ nbs
            · obtain ⟨htr, hfa⟩ := hin v hvnbs
              cases hbet2 : betterG (st.gScore v) (gc + 1) with
              | true =>
                rw [hbet] at hbet2
                exact absurd hbet2 (by simp)
              | false =>
                obtain ⟨hg, hcf⟩ := hfa hbet2
                rw [hfold, hone]
                exact ⟨hg, hcf⟩
            · obtain ⟨hg, hcf⟩ := hout v hvnbs
              rw [hfold, hone]
              exact ⟨hg, hcf⟩
        · obtain ⟨htr, hfa⟩ := hin v hv
          constructor
          · intro hb
            rw [hfold, hone]
            exact htr hb
          · intro hb
            obtain ⟨hg, hcf⟩ := hfa hb
            rw [hfold, hone]
            exact ⟨hg, hcf⟩
      · rw [hfold, hone]
        exact hP'eq
      · intro q hq
        obtain ⟨v, hvmem, hqeq, hvb⟩ := hP'mem q hq
        exact ⟨v, by simp [hvmem], hqeq, hvb⟩
      · intro v hv hvb
        rcases List.mem_cons.mp hv with hv | hv
        · subst hv
          rw [hbet] at hvb
          exact absurd hvb (by simp)
        · exact hP'cov v hv hvb

/-! ## Neighbor and grid lemmas -/

theorem getNeighbors_nodup (e : Env) (x y : Int) : (getNeighbors e x y).Nodup := by
  apply List.Nodup.filter
  simp only [List.nodup_cons, List.mem_cons, List.not_mem_nil, or_false,
    List.mem_singleton, Prod.mk.injEq, not_or, List.nodup_nil, and_true, true_and,
    not_and]
  refine ⟨⟨?_, ?_, ?_⟩, ⟨?_, ?_⟩, ?_⟩
  all_goals first
    | omega
    | exact ⟨by omega, not_false⟩

theorem self_not_mem_getNeighbors (e : Env) (u : Pos) : u ∉ getNeighbors e u.1 u.2 := by
  obtain ⟨x, y⟩ := u
  simp only [getNeighbors, List.mem_filter, List.mem_cons, List.not_mem_nil, or_false,
    List.mem_singleton, Prod.mk.injEq]
  rintro ⟨(⟨h1, h2⟩ | ⟨h1, h2⟩ | ⟨h1, h2⟩ | ⟨h1, h2⟩), -⟩ <;> omega

theorem mem_getNeighbors_grid {e : Env} {u : Pos} {v : Pos}
    (h : v ∈ getNeighbors e u.1 u.2) : v ∈ gridFinset e := by
  simp only [getNeighbors, List.mem_filter, Bool.and_eq_true] at h
  exact (mem_gridFinset e v).mpr h.2.1

theorem adj_of_mem_getNeighbors {e : Env} {u v : Pos}
    (h : v ∈ getNeighbors e u.1 u.2) : Adj e u v := h

theorem card_gridFinset (e : Env) :
    (gridFinset e).card = e.columns.toNat * e.rows.toNat := by
  rw [gridFinset, Finset.card_product]
  rw [Int.card_Icc, Int.card_Icc]
  congr 1 <;> omega

theorem gKeysFinset_card_le (e : Env) (start : Pos) (st : AState) :
    (gKeysFinset e start st).card ≤ gridCount e := by
  have h1 : (gKeysFinset e start st).card ≤ (insert start (gridFinset e)).card :=
    Finset.card_filter_le _ _
  have h2 : (insert start (gridFinset e)).card ≤ (gridFinset e).card + 1 :=
    Finset.card_insert_le _ _
  have h3 := card_gridFinset e
  simp only [gridCount]
  omega

theorem mem_gKeysFinset {e : Env} {start : Pos} {st : AState} {v : Pos} :
    v ∈ gKeysFinset e start st ↔
      (v = start ∨ v ∈ gridFinset e) ∧ (st.gScore v).isSome = true := by
  simp [gKeysFinset, Finset.mem_filter, Finset.mem_insert]

/-! ## The A* loop invariant -/

/-- Invariant of the A* loop for `e`, agent `start` and `goal`.  `S` in
the `opt` field is the (existentially quantified) set of nodes that
have been popped while holding their optimal `g`. -/
structure AInv (e : Env) (start goal : Pos) (st : AState) : Prop where
  start_g : st.gScore start = some 0
  g_sound : ∀ v d, st.gScore v = some d → ∃ l, IsPathList e start v l ∧ l.length ≤ d + 1
  keys_grid : ∀ v, (st.gScore v).isSome = true → v = start ∨ v ∈ gridFinset e
  g_bound : ∀ v d, st.gScore v = some d → d + 1 ≤ (gKeysFinset e start st).card
  open_entries : ∀ pe ∈ st.openSet, ∃ d, st.gScore pe.2 = some d ∧
    (d + heuristic pe.2 goal ≤ pe.1 ∨ (pe.2 = start ∧ pe.1 = 0))
  cf_start : st.cameFrom start = none
  cf_some : ∀ v, (st.gScore v).isSome = true → v ≠ start → (st.cameFrom v).isSome = true
  cf_edge : ∀ v u, st.cameFrom v = some u → Adj e u v ∧
    ∃ dv du, st.gScore v = some dv ∧ st.gScore u = some du ∧ du < dv
  opt : ∃ S : Finset Pos, goal ∉ S ∧
    (∀ w ∈ S, ∃ dw, st.gScore w = some dw ∧ IsShortest e start w dw ∧
       ∀ v ∈ getNeighbors e w.1 w.2, ∃ dv, st.gScore v = some dv ∧ dv ≤ dw + 1) ∧
    (∀ z, Reach e start z → z ∈ S ∨
       ∃ l lpre w lsuf q, ShortestPath e start z l ∧ l = lpre ++ w :: lsuf ∧
         st.gScore w = some lpre.length ∧ (q, w) ∈ st.openSet ∧
         q ≤ (l.length - 1) + heuristic z goal) ∧
    (∀ v dv, st.gScore v = some dv → IsShortest e start v dv → v ∉ S →
       ∃ q, (q, v) ∈ st.openSet ∧ q ≤ dv + heuristic v goal)

theorem AInv.g_ge_dist {e : Env} {start goal : Pos} {st : AState}
    (hinv : AInv e start goal st) {v : Pos} {d dw : Nat}
    (hg : st.gScore v = some d) (hs : IsShortest e start v dw) : dw ≤ d := by
  obtain ⟨l, hl, hlen⟩ := hinv.g_sound v d hg
  have := hs.2 l hl
  omega

theorem AInv.keys_reach {e : Env} {start goal : Pos} {st : AState}
    (hinv : AInv e start goal st) {v : Pos} {d : Nat}
    (hg : st.gScore v = some d) : Reach e start v := by
  obtain ⟨l, hl, -⟩ := hinv.g_sound v d hg
  exact ⟨l, hl⟩

theorem initAState_inv (e : Env) (start goal : Pos) :
    AInv e start goal (initAState start goal) := by
  have hgs : (initAState start goal).gScore start = some 0 := by
    simp [initAState]
  refine ⟨hgs, ?_, ?_, ?_, ?_, ?_, ?_, ?_, ?_⟩
  · intro v d hg
    simp only [initAState] at hg
    by_cases hv : v = start
    · rw [if_pos hv] at hg
      have hd : (0 : Nat) = d := by injection hg
      rw [hv]
      refine ⟨[start], isPathList_singleton e start, by simp⟩
    · rw [if_neg hv] at hg
      exact absurd hg (by simp)
  · intro v hv
    simp only [initAState] at hv
    by_cases h : v = start
    · exact Or.inl h
    · rw [if_neg h] at hv
      simp at hv
  · intro v d hg
    simp only [initAState] at hg
    by_cases hv : v = start
    · rw [if_pos hv] at hg
      have hd : (0 : Nat) = d := by injection hg
      have hmem : start ∈ gKeysFinset e start (initAState start goal) := by
        rw [mem_gKeysFinset]
        exact ⟨Or.inl rfl, by simp [initAState]⟩
      have := Finset.card_pos.mpr ⟨start, hmem⟩
      omega
    · rw [if_neg hv] at hg
      exact absurd hg (by simp)
  · intro pe hpe
    simp only [initAState, List.mem_singleton] at hpe
    subst hpe
    exact ⟨0, hgs, Or.inr ⟨rfl, rfl⟩⟩
  · simp [initAState]
  · intro v hv hne
    simp only [initAState] at hv
    rw [if_neg hne] at hv
    simp at hv
  · intro v u hcf
    simp only [initAState] at hcf
    exact absurd hcf (by simp)
  · refine ⟨∅, by simp, by simp, ?_, ?_⟩
    · intro z hz
      right
      obtain ⟨l, hl⟩ := reach_exists_shortestPath hz
      obtain ⟨hh, -, -⟩ := hl.1
      cases l with
      | nil => exact absurd rfl hl.1.ne_nil
      | cons a lsuf =>
        have ha : a = start := by simpa using hh
        subst ha
        refine ⟨a :: lsuf, [], a, lsuf, 0, hl, by simp, by simpa using hgs, ?_, by simp⟩
        simp [initAState]
    · intro v dv hg hs _
      simp only [initAState] at hg
      by_cases hv : v = start
      · rw [if_pos hv] at hg
        have hd : (0 : Nat) = dv := by injection hg
        refine ⟨0, ?_, by omega⟩
        rw [hv]
        simp [initAState]
      · rw [if_neg hv] at hg
        exact absurd hg (by simp)

/-! ## One A* iteration: relaxation corollaries -/

theorem astarNext_g_cases (e : Env) (goal u : Pos) (gc : Nat) (st : AState)
    (rest : List (Nat × Pos)) (v : Pos) :
    ((astarNext e goal u gc st rest).gScore v = st.gScore v ∧
      (astarNext e goal u gc st rest).cameFrom v = st.cameFrom v) ∨
    (v ∈ getNeighbors e u.1 u.2 ∧ betterG (st.gScore v) (gc + 1) = true ∧
      (astarNext e goal u gc st rest).gScore v = some (gc + 1) ∧
      (astarNext e goal u gc st rest).cameFrom v = some u) := by
  obtain ⟨hout, hin, -⟩ :=
    relaxAll_char goal u gc (getNeighbors e u.1 u.2) { st with openSet := rest }
      (getNeighbors_nodup e u.1 u.2)
  by_cases hv : v ∈ getNeighbors e u.1 u.2
  · obtain ⟨htr, hfa⟩ := hin v hv
    rcases Bool.eq_false_or_eq_true (betterG (st.gScore v) (gc + 1)) with hb | hb
    · obtain ⟨hg, hcf⟩ := htr hb
      exact Or.inr ⟨hv, hb, hg, hcf⟩
    · obtain ⟨hg, hcf⟩ := hfa hb
      exact Or.inl ⟨hg, hcf⟩
  · obtain ⟨hg, hcf⟩ := hout v hv
    exact Or.inl ⟨hg, hcf⟩

theorem astarNext_open_char (e : Env) (goal u : Pos) (gc : Nat) (st : AState)
    (rest : List (Nat × Pos)) :
    ∃ P, (astarNext e goal u gc st rest).openSet = rest ++ P ∧
      (∀ q ∈ P, ∃ v, v ∈ getNeighbors e u.1 u.2 ∧ q = (gc + 1 + heuristic v goal, v) ∧
        betterG (st.gScore v) (gc + 1) = true) ∧
      (∀ v ∈ getNeighbors e u.1 u.2, betterG (st.gScore v) (gc + 1) = true →
        (gc + 1 + heuristic v goal, v) ∈ P) := by
  obtain ⟨-, -, P, hPeq, hPmem, hPcov⟩ :=
    relaxAll_char goal u gc (getNeighbors e u.1 u.2) { st with openSet := rest }
      (getNeighbors_nodup e u.1 u.2)
  refine ⟨P, hPeq, ?_, ?_⟩
  · intro q hq
    obtain ⟨v, hv, hqe, hb⟩ := hPmem q hq
    exact ⟨v, hv, hqe, hb⟩
  · exact hPcov

theorem astarNext_g_updated (e : Env) (goal u : Pos) (gc : Nat) (st : AState)
    (rest : List (Nat × Pos)) {v : Pos} (hv : v ∈ getNeighbors e u.1 u.2)
    (hb : betterG (st.gScore v) (gc + 1) = true) :
    (astarNext e goal u gc st rest).gScore v = some (gc + 1) ∧
    (astarNext e goal u gc st rest).cameFrom v = some u := by
  obtain ⟨-, hin, -⟩ :=
    relaxAll_char goal u gc (getNeighbors e u.1 u.2) { st with openSet := rest }
      (getNeighbors_nodup e u.1 u.2)
  exact (hin v hv).1 hb

theorem astarNext_g_not_updated (e : Env) (goal u : Pos) (gc : Nat) (st : AState)
    (rest : List (Nat × Pos)) {v : Pos} (hv : v ∈ getNeighbors e u.1 u.2)
    (hb : betterG (st.gScore v) (gc + 1) = false) :
    (astarNext e goal u gc st rest).gScore v = st.gScore v ∧
    (astarNext e goal u gc st rest).cameFrom v = st.cameFrom v := by
  obtain ⟨-, hin, -⟩ :=
    relaxAll_char goal u gc (getNeighbors e u.1 u.2) { st with openSet := rest }
      (getNeighbors_nodup e u.1 u.2)
  exact (hin v hv).2 hb

theorem astarNext_g_self (e : Env) (goal u : Pos) (gc : Nat) (st : AState)
    (rest : List (Nat × Pos)) :
    (astarNext e goal u gc st rest).gScore u = st.gScore u ∧
    (astarNext e goal u gc st rest).cameFrom u = st.cameFrom u := by
  obtain ⟨hout, -, -⟩ :=
    relaxAll_char goal u gc (getNeighbors e u.1 u.2) { st with openSet := rest }
      (getNeighbors_nodup e u.1 u.2)
  exact hout u (self_not_mem_getNeighbors e u)

theorem astarNext_g_unchanged_of_opt {e : Env} {start goal : Pos} {st : AState}
    (hinv : AInv e start goal st) {u : Pos} {gc : Nat} (hgc : st.gScore u = some gc)
    (rest : List (Nat × Pos))
    {w : Pos} {dw : Nat} (hgw : st.gScore w = some dw) (hsw : IsShortest e start w dw) :
    (astarNext e goal u gc st rest).gScore w = some dw := by
  rcases astarNext_g_cases e goal u gc st rest w with ⟨hg, -⟩ | ⟨hmem, hb, hg, -⟩
  · rw [hg, hgw]
  · -- an update would push the recorded value strictly below the optimum
    exfalso
    rw [hgw] at hb
    simp only [betterG, decide_eq_true_eq] at hb
    obtain ⟨lu, hlu, hlulen⟩ := hinv.g_sound u gc hgc
    have hpath := isPathList_extend hlu (adj_of_mem_getNeighbors hmem)
    have := hsw.2 _ hpath
    simp only [List.length_append, List.length_singleton] at this
    omega

/-- Walking along a shortest path to `z` from a settled vertex: either
the whole path (hence `z`) is settled, or the first unsettled vertex on
it is optimal and sits in the open set, giving the open-set witness for
`z`. -/
theorem settled_walk (e : Env) (start goal : Pos) (st' : AState) (S' : Finset Pos)
    (hS'prop : ∀ w ∈ S', ∃ dw, st'.gScore w = some dw ∧ IsShortest e start w dw ∧
        ∀ v ∈ getNeighbors e w.1 w.2, ∃ dv, st'.gScore v = some dv ∧ dv ≤ dw + 1)
    (hiii : ∀ v dv, st'.gScore v = some dv → IsShortest e start v dv → v ∉ S' →
        ∃ q, (q, v) ∈ st'.openSet ∧ q ≤ dv + heuristic v goal)
    (hsound : ∀ v d, st'.gScore v = some d → ∃ l, IsPathList e start v l ∧ l.length ≤ d + 1)
    {z : Pos} {l : List Pos} (hl : ShortestPath e start z l) :
    ∀ (lsuf lpre : List Pos) (w : Pos), l = lpre ++ w :: lsuf → w ∈ S' →
      z ∈ S' ∨ ∃ l₂ lpre₂ w₂ lsuf₂ q, ShortestPath e start z l₂ ∧
        l₂ = lpre₂ ++ w₂ :: lsuf₂ ∧
        st'.gScore w₂ = some lpre₂.length ∧ (q, w₂) ∈ st'.openSet ∧
        q ≤ (l₂.length - 1) + heuristic z goal := by
  intro lsuf
  induction lsuf with
  | nil =>
    intro lpre w heq hw
    left
    have hz : w = z := by
      have hlast := hl.1.2.1
      rw [heq, List.getLast?_append_cons] at hlast
      simpa using hlast
    rw [← hz]
    exact hw
  | cons v lsuf' ih =>
    intro lpre w heq hw
    obtain ⟨dw, hgw, hsw, hnb⟩ := hS'prop w hw
    -- `w` sits at index `lpre.length` of a shortest path, so `dw = lpre.length`
    have hws : IsShortest e start w lpre.length := shortestPath_init (heq ▸ hl)
    have hdw : dw = lpre.length := isShortest_unique hsw hws
    subst hdw
    -- the next path vertex is a neighbor of `w`
    have hdecomp := path_decompose_split (e := e) (heq ▸ hl.1)
    have hadj : Adj e w v := by
      have hchain := hdecomp.2.2.2
      exact (List.chain'_cons.mp hchain).1
    obtain ⟨dv, hgv, hdvle⟩ := hnb v hadj
    -- the successor is at distance `lpre.length + 1`
    have heq2 : l = (lpre ++ [w]) ++ v :: lsuf' := by rw [heq]; simp
    have hvs : IsShortest e start v (lpre ++ [w]).length := shortestPath_init (heq2 ▸ hl)
    simp only [List.length_append, List.length_singleton] at hvs
    have hdvge : lpre.length + 1 ≤ dv := by
      obtain ⟨lv, hlv, hlvlen⟩ := hsound v dv hgv
      have := hvs.2 lv hlv
      omega
    have hdv : dv = lpre.length + 1 := by omega
    subst hdv
    by_cases hvS : v ∈ S'
    · have := ih (lpre ++ [w]) v (by rw [heq]; simp) hvS
      exact this
    · right
      obtain ⟨q, hqmem, hqle⟩ := hiii v (lpre.length + 1) hgv
        (by simpa using hvs) hvS
      refine ⟨l, lpre ++ [w], v, lsuf', q, hl, by rw [heq]; simp, by simpa using hgv,
        hqmem, ?_⟩
      -- consistency of the heuristic along the path suffix
      have hsuf : IsPathList e v z (v :: lsuf') := (path_decompose_split (heq2 ▸ hl.1)).2
      have hcons := heuristic_le_of_path (e := e) goal (v :: lsuf') v z hsuf
      have hlen : l.length = lpre.length + 2 + lsuf'.length := by
        rw [heq]; simp; omega
      simp only [List.length_cons] at hcons
      omega

/-- Preservation of the A* invariant across one full iteration. -/
theorem astarNext_inv {e : Env} {start goal : Pos} {st : AState}
    (hinv : AInv e start goal st) {p : Nat} {u : Pos} {rest : List (Nat × Pos)}
    (hpop : popMin st.openSet = some ((p, u), rest))
    (hne : u ≠ goal) {gc : Nat} (hgc : st.gScore u = some gc) :
    AInv e start goal (astarNext e goal u gc st rest) := by
  classical
  obtain ⟨hpmem, hpmin, -, hperm⟩ := popMin_spec hpop
  obtain ⟨P, hPeq, hPmem, hPcov⟩ := astarNext_open_char e goal u gc st rest
  have hcase := astarNext_g_cases e goal u gc st rest
  -- start's recorded g never changes
  have hstart' : (astarNext e goal u gc st rest).gScore start = some 0 := by
    rcases hcase start with ⟨hg, -⟩ | ⟨-, hb, -, -⟩
    · rw [hg, hinv.start_g]
    · rw [hinv.start_g] at hb
      simp [betterG] at hb
  -- soundness of every recorded g
  have hsound' : ∀ v d, (astarNext e goal u gc st rest).gScore v = some d →
      ∃ l, IsPathList e start v l ∧ l.length ≤ d + 1 := by
    intro v d hg'
    rcases hcase v with ⟨hg, -⟩ | ⟨hmem, -, hg2, -⟩
    · rw [hg] at hg'
      exact hinv.g_sound v d hg'
    · rw [hg2] at hg'
      have hd : gc + 1 = d := by injection hg'
      obtain ⟨lu, hlu, hlulen⟩ := hinv.g_sound u gc hgc
      refine ⟨lu ++ [v], isPathList_extend hlu (adj_of_mem_getNeighbors hmem), ?_⟩
      simp only [List.length_append, List.length_singleton]
      omega
  -- keys stay within the grid (or the start)
  have hkeys' : ∀ v, ((astarNext e goal u gc st rest).gScore v).isSome = true →
      v = start ∨ v ∈ gridFinset e := by
    intro v hv
    rcases hcase v with ⟨hg, -⟩ | ⟨hmem, -, -, -⟩
    · rw [hg] at hv
      exact hinv.keys_grid v hv
    · exact Or.inr (mem_getNeighbors_grid hmem)
  -- key sets only grow
  have hkeys_mono : gKeysFinset e start st ⊆
      gKeysFinset e start (astarNext e goal u gc st rest) := by
    intro w hw
    rw [mem_gKeysFinset] at hw ⊢
    refine ⟨hw.1, ?_⟩
    rcases hcase w with ⟨hg, -⟩ | ⟨-, -, hg2, -⟩
    · rw [hg]; exact hw.2
    · rw [hg2]; simp
  have hcard_mono := Finset.card_le_card hkeys_mono
  -- the g bound
  have hbound' : ∀ v d, (astarNext e goal u gc st rest).gScore v = some d →
      d + 1 ≤ (gKeysFinset e start (astarNext e goal u gc st rest)).card := by
    intro v d hg'
    rcases hcase v with ⟨hg, -⟩ | ⟨hmem, hb, hg2, -⟩
    · rw [hg] at hg'
      have := hinv.g_bound v d hg'
      omega
    · rw [hg2] at hg'
      have hd : gc + 1 = d := by injection hg'
      cases hold : st.gScore v with
      | some dv =>
        rw [hold] at hb
        simp only [betterG, decide_eq_true_eq] at hb
        have := hinv.g_bound v dv hold
        omega
      | none =>
        have hnotmem : v ∉ gKeysFinset e start st := by
          rw [mem_gKeysFinset]
          rintro ⟨-, hsome⟩
          rw [hold] at hsome
          simp at hsome
        have hmem' : v ∈ gKeysFinset e start (astarNext e goal u gc st rest) := by
          rw [mem_gKeysFinset]
          refine ⟨Or.inr (mem_getNeighbors_grid hmem), ?_⟩
          rw [hg2]; simp
        have hss : gKeysFinset e start st ⊂
            gKeysFinset e start (astarNext e goal u gc st rest) :=
          (Finset.ssubset_iff_of_subset hkeys_mono).mpr ⟨v, hmem', hnotmem⟩
        have hlt := Finset.card_lt_card hss
        have := hinv.g_bound u gc hgc
        omega
  -- open-set entries stay justified
  have hopen' : ∀ pe ∈ (astarNext e goal u gc st rest).openSet,
      ∃ d, (astarNext e goal u gc st rest).gScore pe.2 = some d ∧
        (d + heuristic pe.2 goal ≤ pe.1 ∨ (pe.2 = start ∧ pe.1 = 0)) := by
    intro pe hpe
    rw [hPeq] at hpe
    rcases List.mem_append.mp hpe with hpe | hpe
    · have hpe_open : pe ∈ st.openSet := hperm.symm.subset (by simp [hpe])
      obtain ⟨d, hgd, hcond⟩ := hinv.open_entries pe hpe_open
      rcases hcase pe.2 with ⟨hg, -⟩ | ⟨hmem, hb, hg2, -⟩
      · exact ⟨d, by rw [hg]; exact hgd, hcond⟩
      · rw [hgd] at hb
        simp only [betterG, decide_eq_true_eq] at hb
        refine ⟨gc + 1, hg2, ?_⟩
        rcases hcond with hcond | hcond
        · exact Or.inl (by omega)
        · exact Or.inr hcond
    · obtain ⟨v, hvmem, hqeq, hb⟩ := hPmem pe hpe
      subst hqeq
      obtain ⟨hg2, -⟩ := astarNext_g_updated e goal u gc st rest hvmem hb
      exact ⟨gc + 1, hg2, Or.inl (by simp)⟩
  -- the back-pointer of the start never appears
  have hcfstart' : (astarNext e goal u gc st rest).cameFrom start = none := by
    rcases hcase start with ⟨-, hcf⟩ | ⟨-, hb, -, -⟩
    · rw [hcf, hinv.cf_start]
    · rw [hinv.start_g] at hb
      simp [betterG] at hb
  -- every non-start key has a back-pointer
  have hcfsome' : ∀ v, ((astarNext e goal u gc st rest).gScore v).isSome = true →
      v ≠ start → ((astarNext e goal u gc st rest).cameFrom v).isSome = true := by
    intro v hv hvne
    rcases hcase v with ⟨hg, hcf⟩ | ⟨-, -, -, hcf⟩
    · rw [hg] at hv
      rw [hcf]
      exact hinv.cf_some v hv hvne
    · rw [hcf]; simp
  -- back-pointer edges stay legal and strictly g-decreasing
  have hcfedge' : ∀ v w, (astarNext e goal u gc st rest).cameFrom v = some w →
      Adj e w v ∧ ∃ dv du, (astarNext e goal u gc st rest).gScore v = some dv ∧
        (astarNext e goal u gc st rest).gScore w = some du ∧ du < dv := by
    intro v w hcf'
    rcases hcase v with ⟨hg, hcf⟩ | ⟨hmem, hb, hg2, hcf2⟩
    · rw [hcf] at hcf'
      obtain ⟨hadj, dv, du, hgv, hgw, hlt⟩ := hinv.cf_edge v w hcf'
      refine ⟨hadj, dv, ?_⟩
      rcases hcase w with ⟨hgw', -⟩ | ⟨-, hbw, hgw2, -⟩
      · exact ⟨du, by rw [hg]; exact hgv, by rw [hgw']; exact hgw, hlt⟩
      · rw [hgw] at hbw
        simp only [betterG, decide_eq_true_eq] at hbw
        exact ⟨gc + 1, by rw [hg]; exact hgv, hgw2, by omega⟩
    · rw [hcf2] at hcf'
      have hwu : u = w := by injection hcf'
      subst hwu
      refine ⟨adj_of_mem_getNeighbors hmem, gc + 1, gc, hg2, ?_, by omega⟩
      rw [(astarNext_g_self e goal u gc st rest).1]
      exact hgc
  -- the optimality bundle
  obtain ⟨S, hgoalS, hS, hWit, hOpt⟩ := hinv.opt
  by_cases hoptu : IsShortest e start u gc
  case pos =>
    -- u was popped holding its optimal g: settle it
    refine ⟨hstart', hsound', hkeys', hbound', hopen', hcfstart', hcfsome', hcfedge', ?_⟩
    refine ⟨insert u S, ?_, ?_, ?_, ?_⟩
    · simp only [Finset.mem_insert, not_or]
      exact ⟨fun hc => hne hc.symm, hgoalS⟩
    · -- settled vertices keep optimal g and dominate their neighbors
      intro w hw
      rcases Finset.mem_insert.mp hw with hw | hw
      · subst hw
        refine ⟨gc, ?_, hoptu, ?_⟩
        · rw [(astarNext_g_self e goal w gc st rest).1]
          exact hgc
        · intro v hv
          rcases Bool.eq_false_or_eq_true (betterG (st.gScore v) (gc + 1)) with hb | hb
          · obtain ⟨hg2, -⟩ := astarNext_g_updated e goal w gc st rest hv hb
            exact ⟨gc + 1, hg2, by omega⟩
          · obtain ⟨hg2, -⟩ := astarNext_g_not_updated e goal w gc st rest hv hb
            cases hold : st.gScore v with
            | none => rw [hold] at hb; simp [betterG] at hb
            | some dv =>
              rw [hold] at hb
              simp only [betterG, decide_eq_false_iff_not, decide_eq_true_eq, Nat.not_lt] at hb
              exact ⟨dv, by rw [hg2]; exact hold, by omega⟩
      · obtain ⟨dw, hgw, hsw, hnbw⟩ := hS w hw
        refine ⟨dw, astarNext_g_unchanged_of_opt hinv hgc rest hgw hsw, hsw, ?_⟩
        intro v hv
        obtain ⟨dv, hgv, hle⟩ := hnbw v hv
        rcases hcase v with ⟨hg, -⟩ | ⟨-, hb, hg2, -⟩
        · exact ⟨dv, by rw [hg]; exact hgv, hle⟩
        · rw [hgv] at hb
          simp only [betterG, decide_eq_true_eq] at hb
          exact ⟨gc + 1, hg2, by omega⟩
    · -- the open-set witness survives for every reachable vertex
      intro z hz
      -- first record the two facts the walking lemma needs
      have hi' : ∀ w ∈ insert u S, ∃ dw,
          (astarNext e goal u gc st rest).gScore w = some dw ∧
          IsShortest e start w dw ∧
          ∀ v ∈ getNeighbors e w.1 w.2, ∃ dv,
            (astarNext e goal u gc st rest).gScore v = some dv ∧ dv ≤ dw + 1 := by
        intro w hw
        rcases Finset.mem_insert.mp hw with hw | hw
        · subst hw
          refine ⟨gc, ?_, hoptu, ?_⟩
          · rw [(astarNext_g_self e goal w gc st rest).1]
            exact hgc
          · intro v hv
            rcases Bool.eq_false_or_eq_true (betterG (st.gScore v) (gc + 1)) with hb | hb
            · obtain ⟨hg2, -⟩ := astarNext_g_updated e goal w gc st rest hv hb
              exact ⟨gc + 1, hg2, by omega⟩
            · obtain ⟨hg2, -⟩ := astarNext_g_not_updated e goal w gc st rest hv hb
              cases hold : st.gScore v with
              | none => rw [hold] at hb; simp [betterG] at hb
              | some dv =>
                rw [hold] at hb
                simp only [betterG, decide_eq_false_iff_not, decide_eq_true_eq,
                  Nat.not_lt] at hb
                exact ⟨dv, by rw [hg2]; exact hold, by omega⟩
        · obtain ⟨dw, hgw, hsw, hnbw⟩ := hS w hw
          refine ⟨dw, astarNext_g_unchanged_of_opt hinv hgc rest hgw hsw, hsw, ?_⟩
          intro v hv
          obtain ⟨dv, hgv, hle⟩ := hnbw v hv
          rcases hcase v with ⟨hg, -⟩ | ⟨-, hb, hg2, -⟩
          · exact ⟨dv, by rw [hg]; exact hgv, hle⟩
          · rw [hgv] at hb
            simp only [betterG, decide_eq_true_eq] at hb
            exact ⟨gc + 1, hg2, by omega⟩
      have hiii' : ∀ v dv, (astarNext e goal u gc st rest).gScore v = some dv →
          IsShortest e start v dv → v ∉ insert u S →
          ∃ q, (q, v) ∈ (astarNext e goal u gc st rest).openSet ∧
            q ≤ dv + heuristic v goal := by
        intro v dv hg'v hsv hvnot
        have hvnotu : v ≠ u := fun hc => hvnot (by simp [hc])
        have hvnotS : v ∉ S := fun hc => hvnot (by simp [hc])
        rcases hcase v with ⟨hg, -⟩ | ⟨hmem, hb, hg2, -⟩
        · rw [hg] at hg'v
          obtain ⟨q', hq'mem, hq'le⟩ := hOpt v dv hg'v hsv hvnotS
          have : (q', v) ∈ (p, u) :: rest := hperm.subset hq'mem
          rcases List.mem_cons.mp this with heq | hmem'
          · exfalso
            have : v = u := congrArg Prod.snd heq
            exact hvnotu this
          · exact ⟨q', by rw [hPeq]; exact List.mem_append.mpr (Or.inl hmem'), hq'le⟩
        · rw [hg2] at hg'v
          have hdv : gc + 1 = dv := by injection hg'v
          refine ⟨gc + 1 + heuristic v goal, ?_, by omega⟩
          rw [hPeq]
          exact List.mem_append.mpr (Or.inr (hPcov v hmem hb))
      rcases hWit z hz with hzS | ⟨l, lpre, w, lsuf, q, hl, heq, hgw, hqmem, hqle⟩
      · exact Or.inl (by simp [hzS])
      · have hws : IsShortest e start w lpre.length := shortestPath_init (heq ▸ hl)
        have hg'w : (astarNext e goal u gc st rest).gScore w = some lpre.length :=
          astarNext_g_unchanged_of_opt hinv hgc rest hgw hws
        have hqw_cons : (q, w) ∈ (p, u) :: rest := hperm.subset hqmem
        rcases List.mem_cons.mp hqw_cons with heq2 | hmem2
        · -- the popped entry was the witness: walk along the path from u
          have hwu : w = u := congrArg Prod.snd heq2
          subst hwu
          exact settled_walk e start goal _ (insert w S) hi' hiii' hsound' hl lsuf lpre w
            heq (by simp)
        · -- the witness entry survived the pop
          right
          exact ⟨l, lpre, w, lsuf, q, hl, heq, hg'w,
            by rw [hPeq]; exact List.mem_append.mpr (Or.inl hmem2), hqle⟩
    · -- optimal unsettled vertices still have an open entry
      intro v dv hg'v hsv hvnot
      have hvnotu : v ≠ u := fun hc => hvnot (by simp [hc])
      have hvnotS : v ∉ S := fun hc => hvnot (by simp [hc])
      rcases hcase v with ⟨hg, -⟩ | ⟨hmem, hb, hg2, -⟩
      · rw [hg] at hg'v
        obtain ⟨q', hq'mem, hq'le⟩ := hOpt v dv hg'v hsv hvnotS
        have : (q', v) ∈ (p, u) :: rest := hperm.subset hq'mem
        rcases List.mem_cons.mp this with heq | hmem'
        · exact absurd (congrArg Prod.snd heq) hvnotu
        · exact ⟨q', by rw [hPeq]; exact List.mem_append.mpr (Or.inl hmem'), hq'le⟩
      · rw [hg2] at hg'v
        have hdv : gc + 1 = dv := by injection hg'v
        refine ⟨gc + 1 + heuristic v goal, ?_, by omega⟩
        rw [hPeq]
        exact List.mem_append.mpr (Or.inr (hPcov v hmem hb))
  case neg =>
    -- u was popped with a stale g: S does not change
    refine ⟨hstart', hsound', hkeys', hbound', hopen', hcfstart', hcfsome', hcfedge', ?_⟩
    have hi' : ∀ w ∈ S, ∃ dw,
        (astarNext e goal u gc st rest).gScore w = some dw ∧
        IsShortest e start w dw ∧
        ∀ v ∈ getNeighbors e w.1 w.2, ∃ dv,
          (astarNext e goal u gc st rest).gScore v = some dv ∧ dv ≤ dw + 1 := by
      intro w hw
      obtain ⟨dw, hgw, hsw, hnbw⟩ := hS w hw
      refine ⟨dw, astarNext_g_unchanged_of_opt hinv hgc rest hgw hsw, hsw, ?_⟩
      intro v hv
      obtain ⟨dv, hgv, hle⟩ := hnbw v hv
      rcases hcase v with ⟨hg, -⟩ | ⟨-, hb, hg2, -⟩
      · exact ⟨dv, by rw [hg]; exact hgv, hle⟩
      · rw [hgv] at hb
        simp only [betterG, decide_eq_true_eq] at hb
        exact ⟨gc + 1, hg2, by omega⟩
    have hiii' : ∀ v dv, (astarNext e goal u gc st rest).gScore v = some dv →
        IsShortest e start v dv → v ∉ S →
        ∃ q, (q, v) ∈ (astarNext e goal u gc st rest).openSet ∧
          q ≤ dv + heuristic v goal := by
      intro v dv hg'v hsv hvnotS
      rcases hcase v with ⟨hg, -⟩ | ⟨hmem, hb, hg2, -⟩
      · rw [hg] at hg'v
        obtain ⟨q', hq'mem, hq'le⟩ := hOpt v dv hg'v hsv hvnotS
        have : (q', v) ∈ (p, u) :: rest := hperm.subset hq'mem
        rcases List.mem_cons.mp this with heq | hmem'
        · exfalso
          have hvu : v = u := congrArg Prod.snd heq
          subst hvu
          rw [hgc] at hg'v
          have : dv = gc := by
            have h2 : gc = dv := by injection hg'v
            omega
          subst this
          exact hoptu hsv
        · exact ⟨q', by rw [hPeq]; exact List.mem_append.mpr (Or.inl hmem'), hq'le⟩
      · rw [hg2] at hg'v
        have hdv : gc + 1 = dv := by injection hg'v
        refine ⟨gc + 1 + heuristic v goal, ?_, by omega⟩
        rw [hPeq]
        exact List.mem_append.mpr (Or.inr (hPcov v hmem hb))
    refine ⟨S, hgoalS, hi', ?_, hiii'⟩
    intro z hz
    rcases hWit z hz with hzS | ⟨l, lpre, w, lsuf, q, hl, heq, hgw, hqmem, hqle⟩
    · exact Or.inl hzS
    · have hws : IsShortest e start w lpre.length := shortestPath_init (heq ▸ hl)
      have hg'w : (astarNext e goal u gc st rest).gScore w = some lpre.length :=
        astarNext_g_unchanged_of_opt hinv hgc rest hgw hws
      have hqw_cons : (q, w) ∈ (p, u) :: rest := hperm.subset hqmem
      rcases List.mem_cons.mp hqw_cons with heq2 | hmem2
      · -- impossible: the popped vertex would have been optimal
        exfalso
        have hwu : w = u := congrArg Prod.snd heq2
        subst hwu
        rw [hgc] at hgw
        have hgl : gc = lpre.length := by injection hgw
        rw [← hgl] at hws
        exact hoptu hws
      · right
        exact ⟨l, lpre, w, lsuf, q, hl, heq, hg'w,
          by rw [hPeq]; exact List.mem_append.mpr (Or.inl hmem2), hqle⟩

/-! ## Termination measure of the A* loop -/

theorem aPhi_le (e : Env) (start : Pos) (st : AState) :
    aPhi e start st ≤ gridCount e * gridCount e := by
  have h1 : aPhi e start st ≤ (gKeysFinset e start st).card * gridCount e := by
    unfold aPhi
    have := Finset.sum_le_card_nsmul (gKeysFinset e start st)
      (fun v => gridCount e - (st.gScore v).getD 0) (gridCount e)
      (fun x _ => Nat.sub_le _ _)
    simpa [smul_eq_mul] using this
  have h2 := gKeysFinset_card_le e start st
  calc aPhi e start st ≤ (gKeysFinset e start st).card * gridCount e := h1
    _ ≤ gridCount e * gridCount e := Nat.mul_le_mul_right _ h2

theorem gKeysFinset_gScore_eq {e : Env} {start : Pos} {st₁ st₂ : AState}
    (h : st₁.gScore = st₂.gScore) : gKeysFinset e start st₁ = gKeysFinset e start st₂ := by
  unfold gKeysFinset
  rw [h]

theorem aPhi_gScore_eq {e : Env} {start : Pos} {st₁ st₂ : AState}
    (h : st₁.gScore = st₂.gScore) : aPhi e start st₁ = aPhi e start st₂ := by
  unfold aPhi
  rw [gKeysFinset_gScore_eq h, h]

theorem relaxOne_measure {e : Env} {start goal current : Pos} {gc : Nat} {st : AState}
    {nb : Pos} (hnb_grid : nb ∈ gridFinset e)
    (hMI : ∀ v d, st.gScore v = some d → d + 1 ≤ (gKeysFinset e start st).card)
    (hgcb : gc + 1 ≤ (gKeysFinset e start st).card) :
    (∀ v d, (relaxOne goal current gc st nb).gScore v = some d →
        d + 1 ≤ (gKeysFinset e start (relaxOne goal current gc st nb)).card) ∧
    gc + 1 ≤ (gKeysFinset e start (relaxOne goal current gc st nb)).card ∧
    aMeasure e start (relaxOne goal current gc st nb) ≤ aMeasure e start st := by
  rcases Bool.eq_false_or_eq_true (betterG (st.gScore nb) (gc + 1)) with hbt | hbf
  case inr =>
    rw [relaxOne_worse hbf]
    exact ⟨hMI, hgcb, le_refl _⟩
  case inl =>
    have hb := hbt
    rw [relaxOne_better hb]
    set st' : AState :=
      { openSet := st.openSet ++ [(gc + 1 + heuristic nb goal, nb)]
        cameFrom := updateMap st.cameFrom nb current
        gScore := updateMap st.gScore nb (gc + 1)
        fScore := updateMap st.fScore nb (gc + 1 + heuristic nb goal) } with hst'
    have hg' : ∀ v, st'.gScore v = if v = nb then some (gc + 1) else st.gScore v := by
      intro v
      simp [hst', updateMap]
    cases hold : st.gScore nb with
    | some dv =>
      -- existing key: the key set is unchanged and the potential grows
      rw [hold] at hb
      simp only [betterG, decide_eq_true_eq] at hb
      have hkeys_eq : gKeysFinset e start st' = gKeysFinset e start st := by
        apply Finset.ext
        intro x
        rw [mem_gKeysFinset, mem_gKeysFinset]
        constructor
        · rintro ⟨hbase, hsome⟩
          refine ⟨hbase, ?_⟩
          rw [hg'] at hsome
          by_cases hx : x = nb
          · rw [hx, hold]; simp
          · rw [if_neg hx] at hsome; exact hsome
        · rintro ⟨hbase, hsome⟩
          refine ⟨hbase, ?_⟩
          rw [hg']
          by_cases hx : x = nb
          · rw [if_pos hx]; simp
          · rw [if_neg hx]; exact hsome
      have hnb_mem : nb ∈ gKeysFinset e start st := by
        rw [mem_gKeysFinset]
        exact ⟨Or.inr hnb_grid, by rw [hold]; simp⟩
      -- potentials: the nb-term grows by at least one, others unchanged
      have hsum_st : aPhi e start st =
          (gridCount e - dv) + ((gKeysFinset e start st).erase nb).sum
            (fun v => gridCount e - (st.gScore v).getD 0) := by
        unfold aPhi
        rw [← Finset.add_sum_erase _ _ hnb_mem, hold]
        simp
      have hsum_st' : aPhi e start st' =
          (gridCount e - (gc + 1)) + ((gKeysFinset e start st).erase nb).sum
            (fun v => gridCount e - (st.gScore v).getD 0) := by
        unfold aPhi
        rw [hkeys_eq, ← Finset.add_sum_erase _ _ hnb_mem]
        congr 1
        · rw [hg', if_pos rfl]
          simp
        · apply Finset.sum_congr rfl
          intro x hx
          have hxnb : x ≠ nb := Finset.ne_of_mem_erase hx
          rw [hg', if_neg hxnb]
      have hdvN : dv + 1 ≤ gridCount e := by
        have := hMI nb dv hold
        have := gKeysFinset_card_le e start st
        omega
      have hphi_lt : aPhi e start st + 1 ≤ aPhi e start st' := by
        rw [hsum_st, hsum_st']
        have : (gridCount e - dv) + 1 ≤ gridCount e - (gc + 1) := by omega
        omega
      have hphile := aPhi_le e start st'
      refine ⟨?_, ?_, ?_⟩
      · intro v d hvd
        rw [hg'] at hvd
        by_cases hv : v = nb
        · rw [if_pos hv] at hvd
          have hd : gc + 1 = d := by injection hvd
          have hMIb := hMI nb dv hold
          rw [hkeys_eq]
          omega
        · rw [if_neg hv] at hvd
          rw [hkeys_eq]
          exact hMI v d hvd
      · rw [hkeys_eq]; exact hgcb
      · unfold aMeasure
        have hopen : st'.openSet.length = st.openSet.length + 1 := by
          simp [hst']
        rw [hopen]
        omega
    | none =>
      -- fresh key: the key set gains nb and the potential grows
      have hnb_notmem : nb ∉ gKeysFinset e start st := by
        rw [mem_gKeysFinset]
        rintro ⟨-, hsome⟩
        rw [hold] at hsome
        simp at hsome
      have hkeys_eq : gKeysFinset e start st' = insert nb (gKeysFinset e start st) := by
        apply Finset.ext
        intro x
        rw [mem_gKeysFinset, Finset.mem_insert, mem_gKeysFinset]
        constructor
        · rintro ⟨hbase, hsome⟩
          by_cases hx : x = nb
          · exact Or.inl hx
          · rw [hg', if_neg hx] at hsome
            exact Or.inr ⟨hbase, hsome⟩
        · rintro (hx | ⟨hbase, hsome⟩)
          · subst hx
            exact ⟨Or.inr hnb_grid, by rw [hg', if_pos rfl]; simp⟩
          · refine ⟨hbase, ?_⟩
            rw [hg']
            by_cases hx : x = nb
            · rw [if_pos hx]; simp
            · rw [if_neg hx]; exact hsome
      have hcard_lt : (gKeysFinset e start st).card + 1 ≤ gridCount e := by
        have hss : gKeysFinset e start st ⊂ insert start (gridFinset e) := by
          refine (Finset.ssubset_iff_of_subset (Finset.filter_subset _ _)).mpr ?_
          exact ⟨nb, Finset.mem_insert_of_mem hnb_grid, hnb_notmem⟩
        have h1 := Finset.card_lt_card hss
        have h2 : (insert start (gridFinset e)).card ≤ gridCount e := by
          have := Finset.card_insert_le start (gridFinset e)
          have := card_gridFinset e
          simp only [gridCount]
          omega
        omega
      have hsum_st' : aPhi e start st' =
          (gridCount e - (gc + 1)) + aPhi e start st := by
        unfold aPhi
        rw [hkeys_eq, Finset.sum_insert hnb_notmem]
        congr 1
        · rw [hg', if_pos rfl]
          simp
        · apply Finset.sum_congr rfl
          intro x hx
          have hxnb : x ≠ nb := fun hc => hnb_notmem (hc ▸ hx)
          rw [hg', if_neg hxnb]
      have hterm : 1 ≤ gridCount e - (gc + 1) := by omega
      have hphi_lt : aPhi e start st + 1 ≤ aPhi e start st' := by omega
      have hphile := aPhi_le e start st'
      refine ⟨?_, ?_, ?_⟩
      · intro v d hvd
        rw [hg'] at hvd
        rw [hkeys_eq, Finset.card_insert_of_not_mem hnb_notmem]
        by_cases hv : v = nb
        · rw [if_pos hv] at hvd
          have hd : gc + 1 = d := by injection hvd
          omega
        · rw [if_neg hv] at hvd
          have := hMI v d hvd
          omega
      · rw [hkeys_eq, Finset.card_insert_of_not_mem hnb_notmem]
        omega
      · unfold aMeasure
        have hopen : st'.openSet.length = st.openSet.length + 1 := by
          simp [hst']
        rw [hopen]
        omega

theorem relaxAll_measure {e : Env} {start goal current : Pos} {gc : Nat} :
    ∀ (nbrs : List Pos) (st : AState), (∀ v ∈ nbrs, v ∈ gridFinset e) →
      (∀ v d, st.gScore v = some d → d + 1 ≤ (gKeysFinset e start st).card) →
      gc + 1 ≤ (gKeysFinset e start st).card →
      aMeasure e start (relaxAll goal current gc nbrs st) ≤ aMeasure e start st := by
  intro nbrs
  induction nbrs with
  | nil => intro st _ _ _; simp [relaxAll]
  | cons nb nbs ih =>
    intro st hgrid hMI hgcb
    have hstep := @relaxOne_measure e start goal current _ _ _
      (hgrid nb (by simp)) hMI hgcb
    have hfold : relaxAll goal current gc (nb :: nbs) st =
        relaxAll goal current gc nbs (relaxOne goal current gc st nb) := by
      simp [relaxAll]
    rw [hfold]
    have := ih (relaxOne goal current gc st nb) (fun v hv => hgrid v (by simp [hv]))
      hstep.1 hstep.2.1
    omega

theorem astarNext_measure {e : Env} {start goal : Pos} {st : AState}
    (hinv : AInv e start goal st) {p : Nat} {u : Pos} {rest : List (Nat × Pos)}
    (hpop : popMin st.openSet = some ((p, u), rest)) {gc : Nat}
    (hgc : st.gScore u = some gc) :
    aMeasure e start (astarNext e goal u gc st rest) < aMeasure e start st := by
  obtain ⟨-, -, -, hperm⟩ := popMin_spec hpop
  have hlen : st.openSet.length = rest.length + 1 := by
    have := hperm.length_eq
    simpa using this
  have hmid_phi : aPhi e start { st with openSet := rest } = aPhi e start st :=
    aPhi_gScore_eq rfl
  have hmid_keys : gKeysFinset e start { st with openSet := rest } =
      gKeysFinset e start st := gKeysFinset_gScore_eq rfl
  have hmid : aMeasure e start { st with openSet := rest } + 1 = aMeasure e start st := by
    unfold aMeasure
    rw [hmid_phi]
    simp only []
    omega
  have hrelax := @relaxAll_measure e start goal u gc
    (getNeighbors e u.1 u.2) { st with openSet := rest }
    (fun v hv => mem_getNeighbors_grid hv)
    (by rw [hmid_keys]; exact hinv.g_bound)
    (by rw [hmid_keys]; exact hinv.g_bound u gc hgc)
  unfold astarNext
  omega

/-! ## Reconstruction, goal pop, and the main A* theorem -/

theorem witnessEnv_path : IsPathList witnessEnv ((0 : Int), (0 : Int)) ((1 : Int), (0 : Int))
    [((0 : Int), (0 : Int)), ((1 : Int), (0 : Int))] := by
  refine ⟨rfl, rfl, ?_⟩
  refine List.chain'_cons.mpr ⟨?_, by simp⟩
  show Adj witnessEnv (0, 0) (1, 0)
  unfold Adj getNeighbors witnessEnv isWithinBounds isBarrier
  decide

theorem reconstruct_correct {e : Env} {start goal : Pos} {st : AState}
    (hinv : AInv e start goal st) :
    ∀ dv v fuel, st.gScore v = some dv → dv + 1 ≤ fuel →
      ∃ l, reconstructPath st.cameFrom fuel v = some l ∧ IsPathList e start v l ∧
        l.length ≤ dv + 1 := by
  intro dv
  induction dv using Nat.strong_induction_on with
  | _ dv ih =>
    intro v fuel hg hfuel
    obtain ⟨fuel', rfl⟩ : ∃ k, fuel = k + 1 := ⟨fuel - 1, by omega⟩
    cases hcf : st.cameFrom v with
    | none =>
      have hv : v = start := by
        by_contra hne
        have hsome : (st.gScore v).isSome = true := by rw [hg]; rfl
        have := hinv.cf_some v hsome hne
        rw [hcf] at this
        simp at this
      refine ⟨[v], ?_, ?_, by simp⟩
      · simp only [reconstructPath, hcf]
      · rw [hv]
        exact isPathList_singleton e start
    | some u =>
      obtain ⟨hadj, dv', du, hgv, hgu, hlt⟩ := hinv.cf_edge v u hcf
      have hdv : dv = dv' := by
        rw [hg] at hgv
        injection hgv
      subst hdv
      obtain ⟨lu, hrec, hlu, hlen⟩ := ih du (by omega) u fuel' hgu (by omega)
      refine ⟨lu ++ [v], ?_, isPathList_extend hlu hadj, ?_⟩
      · simp only [reconstructPath, hcf, hrec, Option.map_some']
      · simp only [List.length_append, List.length_singleton]
        omega

theorem astar_goal_pop {e : Env} {start goal : Pos} {st : AState}
    (hinv : AInv e start goal st) {p : Nat} {rest : List (Nat × Pos)}
    (hpop : popMin st.openSet = some ((p, goal), rest)) :
    ∃ dg, st.gScore goal = some dg ∧ IsShortest e start goal dg := by
  obtain ⟨hmem, hmin, -, -⟩ := popMin_spec hpop
  obtain ⟨d, hgd, hcond⟩ := hinv.open_entries (p, goal) hmem
  simp only at hgd hcond
  have hh0 : heuristic goal goal = 0 := by simp [heuristic]
  have hdp : d ≤ p := by
    rcases hcond with hcond | ⟨hgs, hp0⟩
    · rw [hh0] at hcond
      omega
    · -- the initial (0, start) entry for a goal equal to the start
      rw [hgs] at hgd
      rw [hinv.start_g] at hgd
      have : (0 : Nat) = d := by injection hgd
      omega
  have hreach : Reach e start goal := hinv.keys_reach hgd
  obtain ⟨S, hgoalS, -, hWit, -⟩ := hinv.opt
  rcases hWit goal hreach with hgS | ⟨l, lpre, w, lsuf, q, hl, heq, hgw, hqmem, hqle⟩
  · exact absurd hgS hgoalS
  · have hql : q ≤ l.length - 1 := by
      rw [hh0] at hqle
      omega
    have hpq : p ≤ q := entryLE_fst (hmin (q, w) hqmem)
    have hshort := shortestPath_isShortest hl
    have hdist_le_d : l.length - 1 ≤ d := hinv.g_ge_dist hgd hshort
    have hd : d = l.length - 1 := by omega
    rw [hd] at hgd
    exact ⟨l.length - 1, hgd, hshort⟩

theorem astar_open_empty {e : Env} {start goal : Pos} {st : AState}
    (hinv : AInv e start goal st) (hempty : st.openSet = []) :
    ¬ Reach e start goal := by
  intro hreach
  obtain ⟨S, hgoalS, -, hWit, -⟩ := hinv.opt
  rcases hWit goal hreach with h | ⟨l, lpre, w, lsuf, q, -, -, -, hqmem, -⟩
  · exact hgoalS h
  · rw [hempty] at hqmem
    simp at hqmem

theorem aStarLoop_correct {e : Env} {start goal : Pos} :
    ∀ (fuel : Nat) (st : AState), AInv e start goal st →
      aMeasure e start st < fuel →
      (Reach e start goal → ∃ l, aStarLoop e goal fuel st = some (some l) ∧
        ShortestPath e start goal l) ∧
      (¬ Reach e start goal → aStarLoop e goal fuel st = some none) := by
  intro fuel
  induction fuel with
  | zero => intro st _ h; omega
  | succ n ih =>
    intro st hinv hmeas
    cases hpop : popMin st.openSet with
    | none =>
      have hempty := (popMin_none_iff _).mp hpop
      have hnreach := astar_open_empty hinv hempty
      constructor
      · intro hreach
        exact absurd hreach hnreach
      · intro _
        simp only [aStarLoop, hpop]
    | some pr =>
      obtain ⟨⟨q, u⟩, rest⟩ := pr
      by_cases hu : u = goal
      · subst hu
        obtain ⟨dg, hgoalg, hshort⟩ := astar_goal_pop hinv hpop
        have hfu : dg + 1 ≤ gridCount e + 1 := by
          have h1 := hinv.g_bound _ _ hgoalg
          have h2 := gKeysFinset_card_le e start st
          omega
        obtain ⟨l, hrec, hpath, hlen⟩ :=
          reconstruct_correct hinv dg u (gridCount e + 1) hgoalg hfu
        have hshortest : ShortestPath e start u l := by
          refine ⟨hpath, ?_⟩
          intro m hm
          have := hshort.2 m hm
          omega
        constructor
        · intro _
          refine ⟨l, ?_, hshortest⟩
          simp [aStarLoop, hpop, hrec]
        · intro hnr
          exact absurd (hinv.keys_reach hgoalg) hnr
      · obtain ⟨d, hgd, -⟩ := hinv.open_entries (q, u) (popMin_spec hpop).1
        simp only at hgd
        have hinv' := astarNext_inv hinv hpop hu hgd
        have hmeas' := astarNext_measure hinv hpop hgd
        have hres := ih _ hinv' (by omega)
        have hunfold : aStarLoop e goal (n + 1) st =
            aStarLoop e goal n (astarNext e goal u d st rest) := by
          simp only [aStarLoop, hpop, if_neg hu, hgd]
          rfl
        rw [hunfold]
        exact hres

/-- C1: A* computes shortest paths.  On every grid, (a) if the goal is
4-connected-reachable from the agent, `a_star_search` terminates with a
path of minimum step count from start to goal; (b) if it is not,
`a_star_search` terminates returning `None`; and (c) a relaxation from
any popped node (in particular a stale re-expansion) never changes the
recorded `g` of a node that already holds its optimal value. -/
theorem a_star_search_correct (e : Env) (start goal : Pos) :
    (Reach e start goal → ∃ l, aStarSearch e start goal = some (some l) ∧
      IsPathList e start goal l ∧ ∀ m, IsPathList e start goal m → l.length ≤ m.length) ∧
    (¬ Reach e start goal → aStarSearch e start goal = some none) ∧
    (∀ (st : AState) (u v : Pos) (gc dv : Nat) (rest : List (Nat × Pos)),
      AInv e start goal st → st.gScore u = some gc →
      st.gScore v = some dv → IsShortest e start v dv →
      (astarNext e goal u gc st rest).gScore v = some dv) := by
  have hmeas : aMeasure e start (initAState start goal) < aStarFuel e := by
    have h1 : aPhi e start (initAState start goal) ≤ gridCount e * gridCount e :=
      aPhi_le e start (initAState start goal)
    have h2 : (initAState start goal).openSet.length = 1 := by simp [initAState]
    have h3 : 2 * gridCount e * gridCount e = 2 * (gridCount e * gridCount e) := by ring
    unfold aMeasure aStarFuel
    omega
  have hmain := aStarLoop_correct (aStarFuel e) (initAState start goal)
    (initAState_inv e start goal) hmeas
  refine ⟨?_, ?_, ?_⟩
  · intro hreach
    obtain ⟨l, hrun, hsp⟩ := hmain.1 hreach
    exact ⟨l, hrun, hsp.1, hsp.2⟩
  · exact hmain.2
  · intro st u v gc dv rest hinv hgu hgv hsv
    exact astarNext_g_unchanged_of_opt hinv hgu rest hgv hsv

/-- Witness for C1 on a concrete 2-by-2 grid with a reachable goal. -/
theorem a_star_search_correct_witness :
    ∃ l, aStarSearch witnessEnv ((0 : Int), (0 : Int)) ((1 : Int), (0 : Int)) =
        some (some l) ∧
      IsPathList witnessEnv ((0 : Int), (0 : Int)) ((1 : Int), (0 : Int)) l ∧
      ∀ m, IsPathList witnessEnv ((0 : Int), (0 : Int)) ((1 : Int), (0 : Int)) m →
        l.length ≤ m.length :=
  (a_star_search_correct witnessEnv ((0 : Int), (0 : Int)) ((1 : Int), (0 : Int))).1
    ⟨_, witnessEnv_path⟩

/-! ## IDA*: neighbor-fold lemmas (generic in the recursive call) -/

theorem idaFold_ne_none (recur : List Pos → Nat → Nat → Option IdaRes)
    (rpath : List Pos) (g threshold : Nat) :
    ∀ (nbrs : List Pos) (minCost : Option Nat),
      (∀ nb ∈ nbrs, nb ∉ rpath → recur (nb :: rpath) (g + 1) threshold ≠ none) →
      idaFold recur rpath g threshold nbrs minCost ≠ none := by
  intro nbrs
  induction nbrs with
  | nil => intro minCost _ h; simp [idaFold] at h
  | cons nb nbs ih =>
    intro minCost hrec h
    rw [idaFold] at h
    by_cases hmem : nb ∈ rpath
    · rw [if_pos hmem] at h
      exact ih minCost (fun x hx hx2 => hrec x (by simp [hx]) hx2) h
    · rw [if_neg hmem] at h
      cases hr : recur (nb :: rpath) (g + 1) threshold with
      | none => exact hrec nb (by simp) hmem hr
      | some r =>
        rw [hr] at h
        cases r with
        | found p => simp at h
        | bound b =>
          exact ih _ (fun x hx hx2 => hrec x (by simp [hx]) hx2) h

theorem idaFold_found_src (recur : List Pos → Nat → Nat → Option IdaRes)
    (rpath : List Pos) (g threshold : Nat) :
    ∀ (nbrs : List Pos) (minCost : Option Nat) (p : List Pos),
      idaFold recur rpath g threshold nbrs minCost = some (IdaRes.found p) →
      ∃ nb ∈ nbrs, nb ∉ rpath ∧ recur (nb :: rpath) (g + 1) threshold =
        some (IdaRes.found p) := by
  intro nbrs
  induction nbrs with
  | nil => intro minCost p h; simp [idaFold] at h
  | cons nb nbs ih =>
    intro minCost p h
    rw [idaFold] at h
    by_cases hmem : nb ∈ rpath
    · rw [if_pos hmem] at h
      obtain ⟨x, hx, hx2, hx3⟩ := ih _ _ h
      exact ⟨x, by simp [hx], hx2, hx3⟩
    · rw [if_neg hmem] at h
      cases hr : recur (nb :: rpath) (g + 1) threshold with
      | none => rw [hr] at h; simp at h
      | some r =>
        rw [hr] at h
        cases r with
        | found q =>
          simp only [Option.some_inj] at h
          have hq : q = p := by injection h
          subst hq
          exact ⟨nb, by simp, hmem, hr⟩
        | bound b =>
          obtain ⟨x, hx, hx2, hx3⟩ := ih _ _ h
          exact ⟨x, by simp [hx], hx2, hx3⟩

theorem idaFold_found_of_branch (recur : List Pos → Nat → Nat → Option IdaRes)
    (rpath : List Pos) (g threshold : Nat) :
    ∀ (nbrs : List Pos) (minCost : Option Nat),
      (∀ nb ∈ nbrs, nb ∉ rpath → recur (nb :: rpath) (g + 1) threshold ≠ none) →
      (∃ v ∈ nbrs, v ∉ rpath ∧
        ∃ p, recur (v :: rpath) (g + 1) threshold = some (IdaRes.found p)) →
      ∃ p', idaFold recur rpath g threshold nbrs minCost = some (IdaRes.found p') := by
  intro nbrs
  induction nbrs with
  | nil => intro minCost _ hv; simp at hv
  | cons nb nbs ih =>
    intro minCost hnn hv
    rw [idaFold]
    by_cases hmem : nb ∈ rpath
    · rw [if_pos hmem]
      obtain ⟨v, hvmem, hvnot, p, hp⟩ := hv
      rcases List.mem_cons.mp hvmem with hveq | hvmem'
      · subst hveq
        exact absurd hmem hvnot
      · exact ih _ (fun x hx hx2 => hnn x (by simp [hx]) hx2) ⟨v, hvmem', hvnot, p, hp⟩
    · rw [if_neg hmem]
      cases hr : recur (nb :: rpath) (g + 1) threshold with
      | none => exact absurd hr (hnn nb (by simp) hmem)
      | some r =>
        cases r with
        | found q => exact ⟨q, rfl⟩
        | bound b =>
          obtain ⟨v, hvmem, hvnot, p, hp⟩ := hv
          rcases List.mem_cons.mp hvmem with hveq | hvmem'
          · subst hveq
            rw [hr] at hp
            exact absurd (by injection hp) (by simp)
          · exact ih _ (fun x hx hx2 => hnn x (by simp [hx]) hx2) ⟨v, hvmem', hvnot, p, hp⟩

theorem idaFold_bound_cases (recur : List Pos → Nat → Nat → Option IdaRes)
    (rpath : List Pos) (g threshold : Nat) :
    ∀ (nbrs : List Pos) (minCost : Option Nat) (b : Option Nat),
      idaFold recur rpath g threshold nbrs minCost = some (IdaRes.bound b) →
      (b = minCost ∨ ∃ v ∈ nbrs, v ∉ rpath ∧
        recur (v :: rpath) (g + 1) threshold = some (IdaRes.bound b)) := by
  intro nbrs
  induction nbrs with
  | nil =>
    intro minCost b h
    simp only [idaFold, Option.some_inj] at h
    left
    have := h
    injection this with h2
    exact h2.symm
  | cons nb nbs ih =>
    intro minCost b h
    rw [idaFold] at h
    by_cases hmem : nb ∈ rpath
    · rw [if_pos hmem] at h
      rcases ih _ _ h with hb | ⟨v, hv, hv2, hv3⟩
      · exact Or.inl hb
      · exact Or.inr ⟨v, by simp [hv], hv2, hv3⟩
    · rw [if_neg hmem] at h
      cases hr : recur (nb :: rpath) (g + 1) threshold with
      | none => rw [hr] at h; simp at h
      | some r =>
        rw [hr] at h
        cases r with
        | found q => simp at h
        | bound b' =>
          rcases ih _ _ h with hb | ⟨v, hv, hv2, hv3⟩
          · by_cases hlt : costLt b' minCost = true
            · rw [if_pos hlt] at hb
              subst hb
              exact Or.inr ⟨nb, by simp, hmem, hr⟩
            · rw [if_neg hlt] at hb
              exact Or.inl hb
          · exact Or.inr ⟨v, by simp [hv], hv2, hv3⟩

theorem idaFold_bound_le (recur : List Pos → Nat → Nat → Option IdaRes)
    (rpath : List Pos) (g threshold : Nat) :
    ∀ (nbrs : List Pos) (minCost : Option Nat) (b : Option Nat),
      idaFold recur rpath g threshold nbrs minCost = some (IdaRes.bound b) →
      (∀ x, minCost = some x → ∃ y, b = some y ∧ y ≤ x) ∧
      (∀ v ∈ nbrs, v ∉ rpath → ∀ bv x, recur (v :: rpath) (g + 1) threshold =
          some (IdaRes.bound bv) → bv = some x → ∃ y, b = some y ∧ y ≤ x) := by
  intro nbrs
  induction nbrs with
  | nil =>
    intro minCost b h
    simp only [idaFold, Option.some_inj] at h
    have hb : minCost = b := by injection h
    subst hb
    exact ⟨fun x hx => ⟨x, hx, le_refl x⟩, by simp⟩
  | cons nb nbs ih =>
    intro minCost b h
    rw [idaFold] at h
    by_cases hmem : nb ∈ rpath
    · rw [if_pos hmem] at h
      obtain ⟨hmin, hbr⟩ := ih _ _ h
      refine ⟨hmin, ?_⟩
      intro v hv hv2 bv x hbv hx
      rcases List.mem_cons.mp hv with hveq | hvmem
      · subst hveq
        exact absurd hmem hv2
      · exact hbr v hvmem hv2 bv x hbv hx
    · rw [if_neg hmem] at h
      cases hr : recur (nb :: rpath) (g + 1) threshold with
      | none => rw [hr] at h; simp at h
      | some r =>
        rw [hr] at h
        cases r with
        | found q => simp at h
        | bound b' =>
          obtain ⟨hmin, hbr⟩ := ih _ _ h
          have hstep : ∀ x, (if costLt b' minCost then b' else minCost) = some x →
              ∃ y, b = some y ∧ y ≤ x := hmin
          constructor
          · intro x hx
            by_cases hlt : costLt b' minCost = true
            · -- the branch value replaced the accumulator: it is smaller
              have hlt2 := hlt
              cases b' with
              | none => simp [costLt] at hlt
              | some y' =>
                have hy'x : y' < x := by
                  rw [hx] at hlt
                  simpa [costLt] using hlt
                obtain ⟨y, hy, hyle⟩ := hstep y' (by rw [if_pos hlt2])
                exact ⟨y, hy, by omega⟩
            · obtain ⟨y, hy, hyle⟩ := hstep x (by rw [if_neg hlt]; exact hx)
              exact ⟨y, hy, hyle⟩
          · intro v hv hv2 bv x hbv hx
            rcases List.mem_cons.mp hv with hveq | hvmem
            · subst hveq
              rw [hr] at hbv
              have hbb : b' = bv := by injection hbv with h1; injection h1
              subst hbb
              subst hx
              by_cases hlt : costLt (some x) minCost = true
              · obtain ⟨y, hy, hyle⟩ := hstep x (by rw [if_pos hlt])
                exact ⟨y, hy, hyle⟩
              · cases hmc : minCost with
                | none =>
                  rw [hmc] at hlt
                  simp [costLt] at hlt
                | some m =>
                  have hlt2 := hlt
                  rw [hmc] at hlt
                  simp only [costLt, decide_eq_true_eq] at hlt
                  have hmx : m ≤ x := by omega
                  obtain ⟨y, hy, hyle⟩ := hstep m (by rw [if_neg hlt2, hmc])
                  exact ⟨y, hy, by omega⟩
            · exact hbr v hvmem hv2 bv x hbv hx

theorem idaFold_all_inf (recur : List Pos → Nat → Nat → Option IdaRes)
    (rpath : List Pos) (g threshold : Nat) :
    ∀ (nbrs : List Pos),
      (∀ nb ∈ nbrs, nb ∉ rpath → recur (nb :: rpath) (g + 1) threshold =
        some (IdaRes.bound none)) →
      idaFold recur rpath g threshold nbrs none = some (IdaRes.bound none) := by
  intro nbrs
  induction nbrs with
  | nil => intro _; simp [idaFold]
  | cons nb nbs ih =>
    intro hall
    rw [idaFold]
    by_cases hmem : nb ∈ rpath
    · rw [if_pos hmem]
      exact ih (fun x hx hx2 => hall x (by simp [hx]) hx2)
    · rw [if_neg hmem]
      rw [hall nb (by simp) hmem]
      show idaFold recur rpath g threshold nbs
        (if costLt none none = true then none else none) = some (IdaRes.bound none)
      rw [ite_self]
      exact ih (fun x hx hx2 => hall x (by simp [hx]) hx2)

/-! ## IDA*: path helper lemmas -/

theorem nodup_cells_length_le {e : Env} {start : Pos} {rpath : List Pos}
    (hnodup : rpath.Nodup) (hcells : ∀ c ∈ rpath, c = start ∨ c ∈ gridFinset e) :
    rpath.length ≤ gridCount e := by
  have h1 : rpath.length = rpath.toFinset.card := (List.toFinset_card_of_nodup hnodup).symm
  have h2 : rpath.toFinset ⊆ insert start (gridFinset e) := by
    intro x hx
    rw [List.mem_toFinset] at hx
    rcases hcells x hx with h | h
    · exact Finset.mem_insert.mpr (Or.inl h)
    · exact Finset.mem_insert_of_mem h
  have h3 := Finset.card_le_card h2
  have h4 := Finset.card_insert_le start (gridFinset e)
  have h5 := card_gridFinset e
  simp only [gridCount]
  omega

theorem not_nodup_split {l : List Pos} (h : ¬ l.Nodup) :
    ∃ x l₁ l₂ l₃, l = l₁ ++ x :: (l₂ ++ x :: l₃) := by
  induction l with
  | nil => simp at h
  | cons a l' ih =>
    rw [List.nodup_cons] at h
    push_neg at h
    by_cases hmem : a ∈ l'
    · obtain ⟨s, t, hst⟩ := List.append_of_mem hmem
      exact ⟨a, [], s, t, by simp [hst]⟩
    · obtain ⟨x, l₁, l₂, l₃, hsplit⟩ := ih (h hmem)
      exact ⟨x, a :: l₁, l₂, l₃, by simp [hsplit]⟩

theorem shortestPath_nodup {e : Env} {s t : Pos} {l : List Pos}
    (h : ShortestPath e s t l) : l.Nodup := by
  by_contra hnd
  obtain ⟨x, l₁, l₂, l₃, hsplit⟩ := not_nodup_split hnd
  obtain ⟨hpath, hmin⟩ := h
  rw [hsplit] at hpath
  have h1 := @path_decompose_split e s t x l₁ (l₂ ++ x :: l₃) hpath
  have hsuffix : IsPathList e x t ((x :: l₂) ++ x :: l₃) := by
    have h12 := h1.2
    simpa using h12
  have h2 := @path_decompose_split e x t x (x :: l₂) l₃ hsuffix
  have hshort := isPathList_concat h1.1 h2.2
  have hcontra := hmin _ hshort
  rw [hsplit] at hcontra
  simp only [List.length_append, List.length_cons, List.tail_cons,
    List.length_singleton, List.length_nil] at hcontra
  omega

theorem heuristic_triangle (a b c : Pos) :
    heuristic a c ≤ heuristic a b + heuristic b c := by
  obtain ⟨ax, ay⟩ := a
  obtain ⟨bx, by'⟩ := b
  obtain ⟨cx, cy⟩ := c
  simp only [heuristic]
  omega

theorem heuristic_le_hBound {e : Env} {start goal : Pos} {c : Pos}
    (hc : c = start ∨ c ∈ gridFinset e) :
    heuristic c goal ≤ hBound e start goal := by
  have htri : heuristic c goal ≤ heuristic c start + heuristic start goal :=
    heuristic_triangle c start goal
  have hcs : heuristic c start ≤ start.1.natAbs + e.columns.toNat +
      start.2.natAbs + e.rows.toNat := by
    rcases hc with hc | hc
    · subst hc
      simp [heuristic]
    · rw [mem_gridFinset] at hc
      simp only [isWithinBounds, decide_eq_true_eq] at hc
      obtain ⟨cx, cy⟩ := c
      simp only [heuristic] at *
      omega
  unfold hBound
  omega

/-! ## IDA*: search-level lemmas -/

theorem idaSearch_ne_none (e : Env) (start goal : Pos) :
    ∀ (fuel : Nat) (rpath : List Pos) (g t : Nat), rpath ≠ [] → rpath.Nodup →
      (∀ c ∈ rpath, c = start ∨ c ∈ gridFinset e) →
      gridCount e + 1 ≤ fuel + rpath.length →
      idaSearch e goal fuel rpath g t ≠ none := by
  intro fuel
  induction fuel with
  | zero =>
    intro rpath g t hne hnodup hcells hfuel
    have := nodup_cells_length_le hnodup hcells
    omega
  | succ n ih =>
    intro rpath g t hne hnodup hcells hfuel
    match rpath with
    | [] => exact absurd rfl hne
    | current :: rtail =>
      rw [idaSearch]
      by_cases hf : t < g + heuristic current goal
      · rw [if_pos hf]
        simp
      · rw [if_neg hf]
        by_cases hgoal : current = goal
        · rw [if_pos hgoal]
          simp
        · rw [if_neg hgoal]
          apply idaFold_ne_none
          intro nb hnb hnotin
          apply ih (nb :: current :: rtail) (g + 1) t (by simp)
            (List.nodup_cons.mpr ⟨hnotin, hnodup⟩)
          · intro c hc
            rcases List.mem_cons.mp hc with hc | hc
            · subst hc
              exact Or.inr (mem_getNeighbors_grid hnb)
            · exact hcells c hc
          · simp only [List.length_cons] at hfuel ⊢
            omega

theorem idaSearch_bound_gt (e : Env) (goal : Pos) :
    ∀ (fuel : Nat) (rpath : List Pos) (g t : Nat) (b : Option Nat),
      idaSearch e goal fuel rpath g t = some (IdaRes.bound b) →
      ∀ x, b = some x → t < x := by
  intro fuel
  induction fuel with
  | zero => intro rpath g t b h; simp [idaSearch] at h
  | succ n ih =>
    intro rpath g t b h x hx
    match rpath with
    | [] => simp [idaSearch] at h
    | current :: rtail =>
      rw [idaSearch] at h
      by_cases hf : t < g + heuristic current goal
      · rw [if_pos hf] at h
        simp only [Option.some_inj] at h
        have hb : some (g + heuristic current goal) = b := by injection h
        rw [← hb] at hx
        have : g + heuristic current goal = x := by injection hx
        omega
      · rw [if_neg hf] at h
        by_cases hgoal : current = goal
        · rw [if_pos hgoal] at h
          simp at h
        · rw [if_neg hgoal] at h
          rcases idaFold_bound_cases _ _ _ _ _ _ _ h with hb | ⟨v, -, -, hv⟩
          · rw [hb] at hx
            simp at hx
          · exact ih _ _ _ _ hv x hx

theorem idaSearch_bound_le_max (e : Env) (start goal : Pos) :
    ∀ (fuel : Nat) (rpath : List Pos) (g t : Nat) (b : Option Nat),
      rpath ≠ [] → rpath.Nodup →
      (∀ c ∈ rpath, c = start ∨ c ∈ gridFinset e) → g + 1 = rpath.length →
      idaSearch e goal fuel rpath g t = some (IdaRes.bound b) →
      ∀ x, b = some x → x ≤ idaMaxF e start goal := by
  intro fuel
  induction fuel with
  | zero => intro rpath g t b _ _ _ _ h; simp [idaSearch] at h
  | succ n ih =>
    intro rpath g t b hne hnodup hcells hg h x hx
    match rpath with
    | [] => exact absurd rfl hne
    | current :: rtail =>
      rw [idaSearch] at h
      by_cases hf : t < g + heuristic current goal
      · rw [if_pos hf] at h
        simp only [Option.some_inj] at h
        have hb : some (g + heuristic current goal) = b := by injection h
        rw [← hb] at hx
        have hxf : g + heuristic current goal = x := by injection hx
        have hlen := nodup_cells_length_le hnodup hcells
        have hh := @heuristic_le_hBound e start goal current
          (hcells current (by simp))
        simp only [List.length_cons] at hg hlen
        unfold idaMaxF
        omega
      · rw [if_neg hf] at h
        by_cases hgoal : current = goal
        · rw [if_pos hgoal] at h
          simp at h
        · rw [if_neg hgoal] at h
          rcases idaFold_bound_cases _ _ _ _ _ _ _ h with hb | ⟨v, hvmem, hvnot, hv⟩
          · rw [hb] at hx
            simp at hx
          · refine ih _ _ _ _ (by simp) (List.nodup_cons.mpr ⟨hvnot, hnodup⟩) ?_
              (by simp only [List.length_cons] at hg ⊢; omega) hv x hx
            intro c hc
            rcases List.mem_cons.mp hc with hc | hc
            · subst hc
              exact Or.inr (mem_getNeighbors_grid hvmem)
            · exact hcells c hc

theorem heuristic_self (p : Pos) : heuristic p p = 0 := by
  simp [heuristic]

theorem isPathList_cons {e : Env} {s v t : Pos} {l : List Pos}
    (hadj : Adj e s v) (h : IsPathList e v t l) : IsPathList e s t (s :: l) := by
  obtain ⟨hh, hl, hc⟩ := h
  cases l with
  | nil => simp at hh
  | cons a rest =>
    have ha : a = v := by simpa using hh
    subst ha
    refine ⟨rfl, by simpa using hl, ?_⟩
    exact List.chain'_cons.mpr ⟨hadj, hc⟩

theorem path_cells {e : Env} :
    ∀ (l : List Pos) (s t : Pos), IsPathList e s t l →
      ∀ c ∈ l, c = s ∨ c ∈ gridFinset e := by
  intro l
  induction l with
  | nil => intro s t h; exact absurd rfl h.ne_nil
  | cons a rest ih =>
    intro s t h c hc
    obtain ⟨hh, hl, hc'⟩ := h
    have ha : a = s := by simpa using hh
    subst ha
    rcases List.mem_cons.mp hc with hca | hcr
    · exact Or.inl hca
    · cases rest with
      | nil => simp at hcr
      | cons b rest' =>
        have hadj : Adj e a b := (List.chain'_cons.mp hc').1
        have hpath : IsPathList e b t (b :: rest') :=
          ⟨rfl, by simpa using hl, (List.chain'_cons.mp hc').2⟩
        rcases ih b t hpath c hcr with hcb | hcg
        · subst hcb
          exact Or.inr (mem_getNeighbors_grid hadj)
        · exact Or.inr hcg

theorem idaSearch_found_sound (e : Env) (start goal : Pos) :
    ∀ (fuel : Nat) (current : Pos) (rest : List Pos) (g t : Nat) (p : List Pos),
      IsPathList e start current (current :: rest).reverse →
      g + 1 = (current :: rest).length →
      idaSearch e goal fuel (current :: rest) g t = some (IdaRes.found p) →
      IsPathList e start goal p ∧ p.length ≤ t + 1 := by
  intro fuel
  induction fuel with
  | zero => intro current rest g t p _ _ h; simp [idaSearch] at h
  | succ n ih =>
    intro current rest g t p hrev hg h
    rw [idaSearch] at h
    by_cases hf : t < g + heuristic current goal
    · rw [if_pos hf] at h
      simp at h
    · rw [if_neg hf] at h
      by_cases hgoal : current = goal
      · rw [if_pos hgoal] at h
        have hp : (current :: rest).reverse = p := by simpa using h
        subst hp
        constructor
        · rw [← hgoal]
          exact hrev
        · rw [hgoal, heuristic_self] at hf
          simp only [List.length_reverse, List.length_cons]
          simp only [List.length_cons] at hg
          omega
      · rw [if_neg hgoal] at h
        obtain ⟨nb, hnbmem, hnbnot, hrec⟩ := idaFold_found_src _ _ _ _ _ _ _ h
        have hadj : Adj e current nb := adj_of_mem_getNeighbors hnbmem
        have hrev' : IsPathList e start nb (nb :: current :: rest).reverse := by
          rw [List.reverse_cons]
          exact isPathList_extend hrev hadj
        exact ih nb (current :: rest) (g + 1) t p hrev'
          (by simp only [List.length_cons] at hg ⊢; omega) hrec

theorem idaSearch_complete (e : Env) (start goal : Pos) :
    ∀ (fuel : Nat) (current : Pos) (rest : List Pos) (g t : Nat) (q : List Pos),
      (current :: rest).Nodup →
      (∀ c ∈ current :: rest, c = start ∨ c ∈ gridFinset e) →
      g + 1 = (current :: rest).length →
      gridCount e + 1 ≤ fuel + (current :: rest).length →
      IsPathList e current goal q → q.Nodup → (∀ c ∈ q, c ∉ rest) →
      g + q.length ≤ t + 1 →
      ∃ p, idaSearch e goal fuel (current :: rest) g t = some (IdaRes.found p) := by
  intro fuel
  induction fuel with
  | zero =>
    intro current rest g t q hnodup hcells _ hfuel _ _ _ _
    have := nodup_cells_length_le hnodup hcells
    omega
  | succ n ih =>
    intro current rest g t q hnodup hcells hg hfuel hq hqnd hqavoid hbudget
    have hadm := heuristic_admissible hq
    rw [idaSearch]
    have hf : ¬ t < g + heuristic current goal := by omega
    rw [if_neg hf]
    by_cases hgoal : current = goal
    · rw [if_pos hgoal]
      exact ⟨_, rfl⟩
    · rw [if_neg hgoal]
      cases q with
      | nil => exact absurd rfl hq.ne_nil
      | cons a q' =>
        have ha : a = current := by simpa using hq.1
        subst ha
        cases q' with
        | nil =>
          have : a = goal := by simpa using hq.2.1
          exact absurd this hgoal
        | cons v q'' =>
          have hadjv : Adj e a v := (List.chain'_cons.mp hq.2.2).1
          have hqv : IsPathList e v goal (v :: q'') :=
            ⟨rfl, by simpa using hq.2.1, (List.chain'_cons.mp hq.2.2).2⟩
          have hvnot : v ∉ a :: rest := by
            intro hvmem
            rcases List.mem_cons.mp hvmem with hv | hv
            · exact (List.nodup_cons.mp hqnd).1 (List.mem_cons.mpr (Or.inl hv.symm))
            · exact hqavoid v (List.mem_cons.mpr (Or.inr (List.mem_cons_self v q''))) hv
          apply idaFold_found_of_branch
          · intro nb hnb hnotin
            apply idaSearch_ne_none e start goal n (nb :: a :: rest) (g + 1) t (by simp)
              (List.nodup_cons.mpr ⟨hnotin, hnodup⟩)
            · intro c hc
              rcases List.mem_cons.mp hc with hc | hc
              · subst hc
                exact Or.inr (mem_getNeighbors_grid hnb)
              · exact hcells c hc
            · simp only [List.length_cons] at hfuel ⊢
              omega
          · refine ⟨v, hadjv, hvnot, ?_⟩
            apply ih v (a :: rest) (g + 1) t (v :: q'')
              (List.nodup_cons.mpr ⟨hvnot, hnodup⟩) ?_
              (by simp only [List.length_cons] at hg ⊢; omega)
              (by simp only [List.length_cons] at hfuel ⊢; omega)
              hqv ((List.nodup_cons.mp hqnd).2) ?_
              (by simp only [List.length_cons] at hbudget ⊢; omega)
            · intro c hc
              rcases List.mem_cons.mp hc with hc | hc
              · subst hc
                exact Or.inr (mem_getNeighbors_grid hadjv)
              · exact hcells c hc
            · intro c hc hmem
              rcases List.mem_cons.mp hmem with hm | hm
              · exact (List.nodup_cons.mp hqnd).1 (hm ▸ hc)
              · exact hqavoid c (List.mem_cons.mpr (Or.inr hc)) hm

theorem idaSearch_bound_below (e : Env) (start goal : Pos) :
    ∀ (fuel : Nat) (current : Pos) (rest : List Pos) (g t : Nat) (q : List Pos),
      (current :: rest).Nodup →
      (∀ c ∈ current :: rest, c = start ∨ c ∈ gridFinset e) →
      g + 1 = (current :: rest).length →
      gridCount e + 1 ≤ fuel + (current :: rest).length →
      IsPathList e start current (current :: rest).reverse →
      IsPathList e current goal q → q.Nodup → (∀ c ∈ q, c ∉ rest) →
      (∀ m, IsPathList e start goal m → t + 1 < m.length) →
      ∃ b, idaSearch e goal fuel (current :: rest) g t =
          some (IdaRes.bound (some b)) ∧ b ≤ g + (q.length - 1) := by
  intro fuel
  induction fuel with
  | zero =>
    intro current rest g t q hnodup hcells _ hfuel _ _ _ _ _
    have := nodup_cells_length_le hnodup hcells
    omega
  | succ n ih =>
    intro current rest g t q hnodup hcells hg hfuel hrev hq hqnd hqavoid hnp
    have hadm := heuristic_admissible hq
    have hqlen : 1 ≤ q.length := by omega
    rw [idaSearch]
    by_cases hf : t < g + heuristic current goal
    · rw [if_pos hf]
      exact ⟨g + heuristic current goal, rfl, by omega⟩
    · rw [if_neg hf]
      by_cases hgoal : current = goal
      · exfalso
        have hpath : IsPathList e start goal (current :: rest).reverse := by
          rw [← hgoal]
          exact hrev
        have hlt := hnp _ hpath
        rw [hgoal, heuristic_self] at hf
        simp only [List.length_reverse, List.length_cons] at hlt
        simp only [List.length_cons] at hg
        omega
      · rw [if_neg hgoal]
        cases q with
        | nil => exact absurd rfl hq.ne_nil
        | cons a q' =>
          have ha : a = current := by simpa using hq.1
          subst ha
          cases q' with
          | nil =>
            have : a = goal := by simpa using hq.2.1
            exact absurd this hgoal
          | cons v q'' =>
            have hadjv : Adj e a v := (List.chain'_cons.mp hq.2.2).1
            have hqv : IsPathList e v goal (v :: q'') :=
              ⟨rfl, by simpa using hq.2.1, (List.chain'_cons.mp hq.2.2).2⟩
            have hvnot : v ∉ a :: rest := by
              intro hvmem
              rcases List.mem_cons.mp hvmem with hv | hv
              · exact (List.nodup_cons.mp hqnd).1 (List.mem_cons.mpr (Or.inl hv.symm))
              · exact hqavoid v (List.mem_cons.mpr (Or.inr (List.mem_cons_self v q''))) hv
            have hrevv : IsPathList e start v (v :: a :: rest).reverse := by
              rw [List.reverse_cons]
              exact isPathList_extend hrev hadjv
            have hcellsv : ∀ c ∈ v :: a :: rest, c = start ∨ c ∈ gridFinset e := by
              intro c hc
              rcases List.mem_cons.mp hc with hc | hc
              · subst hc
                exact Or.inr (mem_getNeighbors_grid hadjv)
              · exact hcells c hc
            have havoidv : ∀ c ∈ v :: q'', c ∉ a :: rest := by
              intro c hc hmem
              rcases List.mem_cons.mp hmem with hm | hm
              · exact (List.nodup_cons.mp hqnd).1 (hm ▸ hc)
              · exact hqavoid c (List.mem_cons.mpr (Or.inr hc)) hm
            obtain ⟨bv, hbv, hbvle⟩ := ih v (a :: rest) (g + 1) t (v :: q'')
              (List.nodup_cons.mpr ⟨hvnot, hnodup⟩) hcellsv
              (by simp only [List.length_cons] at hg ⊢; omega)
              (by simp only [List.length_cons] at hfuel ⊢; omega)
              hrevv hqv ((List.nodup_cons.mp hqnd).2) havoidv hnp
            have hnn : ∀ nb ∈ getNeighbors e a.1 a.2, nb ∉ a :: rest →
                idaSearch e goal n (nb :: a :: rest) (g + 1) t ≠ none := by
              intro nb hnb hnotin
              apply idaSearch_ne_none e start goal n (nb :: a :: rest) (g + 1) t (by simp)
                (List.nodup_cons.mpr ⟨hnotin, hnodup⟩)
              · intro c hc
                rcases List.mem_cons.mp hc with hc | hc
                · subst hc
                  exact Or.inr (mem_getNeighbors_grid hnb)
                · exact hcells c hc
              · simp only [List.length_cons] at hfuel ⊢
                omega
            cases hres : idaFold (fun rp g' t' => idaSearch e goal n rp g' t')
                (a :: rest) g t (getNeighbors e a.1 a.2) none with
            | none => exact absurd hres (idaFold_ne_none _ _ _ _ _ _ hnn)
            | some r =>
              cases r with
              | found p =>
                exfalso
                have heq : idaSearch e goal (n + 1) (a :: rest) g t =
                    some (IdaRes.found p) := by
                  rw [idaSearch, if_neg hf, if_neg hgoal]
                  exact hres
                have hsound := idaSearch_found_sound e start goal (n + 1) a rest g t p
                  hrev hg heq
                have := hnp p hsound.1
                omega
              | bound b' =>
                obtain ⟨y, hy, hyle⟩ := (idaFold_bound_le _ _ _ _ _ _ _ hres).2 v hadjv
                  hvnot (some bv) bv hbv rfl
                refine ⟨y, ?_, ?_⟩
                · rw [hy]
                · simp only [List.length_cons] at hbvle ⊢
                  omega

theorem idaSearch_unreachable_inf (e : Env) (start goal : Pos) :
    ∀ (fuel : Nat) (current : Pos) (rest : List Pos) (g t : Nat),
      (current :: rest).Nodup →
      (∀ c ∈ current :: rest, c = start ∨ c ∈ gridFinset e) →
      g + 1 = (current :: rest).length →
      gridCount e + 1 ≤ fuel + (current :: rest).length →
      IsPathList e start current (current :: rest).reverse →
      ¬ Reach e start goal →
      idaMaxF e start goal ≤ t →
      idaSearch e goal fuel (current :: rest) g t = some (IdaRes.bound none) := by
  intro fuel
  induction fuel with
  | zero =>
    intro current rest g t hnodup hcells _ hfuel _ _ _
    have := nodup_cells_length_le hnodup hcells
    omega
  | succ n ih =>
    intro current rest g t hnodup hcells hg hfuel hrev hnr hmax
    have hlen := nodup_cells_length_le hnodup hcells
    have hh := @heuristic_le_hBound e start goal current
      (hcells current (List.mem_cons_self current rest))
    have hf : ¬ t < g + heuristic current goal := by
      simp only [List.length_cons] at hg hlen
      unfold idaMaxF at hmax
      omega
    rw [idaSearch, if_neg hf]
    have hgoal : current ≠ goal := by
      intro hcg
      apply hnr
      refine ⟨(current :: rest).reverse, ?_⟩
      rw [← hcg]
      exact hrev
    rw [if_neg hgoal]
    apply idaFold_all_inf
    intro nb hnb hnotin
    apply ih nb (current :: rest) (g + 1) t
      (List.nodup_cons.mpr ⟨hnotin, hnodup⟩) ?_
      (by simp only [List.length_cons] at hg ⊢; omega)
      (by simp only [List.length_cons] at hfuel ⊢; omega) ?_ hnr hmax
    · intro c hc
      rcases List.mem_cons.mp hc with hc | hc
      · subst hc
        exact Or.inr (mem_getNeighbors_grid hnb)
      · exact hcells c hc
    · rw [List.reverse_cons]
      exact isPathList_extend hrev (adj_of_mem_getNeighbors hnb)

theorem singleton_reverse_path (e : Env) (s : Pos) :
    IsPathList e s s ([s] : List Pos).reverse := by
  simpa using isPathList_singleton e s

theorem idaLoop_reachable (e : Env) (start goal : Pos) {q : List Pos}
    (hsp : ShortestPath e start goal q) :
    ∀ (fuel t : Nat), t + 1 ≤ q.length → q.length ≤ t + fuel →
      ∃ p, idaLoop e start goal fuel t = some (some p) ∧
        IsPathList e start goal p ∧ p.length = q.length := by
  intro fuel
  induction fuel with
  | zero => intro t h1 h2; omega
  | succ k ih =>
    intro t h1 h2
    rcases eq_or_lt_of_le h1 with hEq | hLt
    · obtain ⟨p, hfound⟩ := idaSearch_complete e start goal (idaSearchFuel e) start [] 0 t q
        (by simp) (by intro c hc; left; simpa using hc) (by simp)
        (by simp [idaSearchFuel]) hsp.1 (shortestPath_nodup hsp)
        (by intro c _; simp) (by omega)
      have hsound := idaSearch_found_sound e start goal (idaSearchFuel e) start [] 0 t p
        (singleton_reverse_path e start) (by simp) hfound
      have hge := hsp.2 p hsound.1
      refine ⟨p, ?_, hsound.1, by omega⟩
      rw [idaLoop, hfound]
    · have hnp : ∀ m, IsPathList e start goal m → t + 1 < m.length := by
        intro m hm
        have := hsp.2 m hm
        omega
      obtain ⟨b, hbound, hble⟩ := idaSearch_bound_below e start goal (idaSearchFuel e)
        start [] 0 t q (by simp) (by intro c hc; left; simpa using hc) (by simp)
        (by simp [idaSearchFuel]) (singleton_reverse_path e start) hsp.1
        (shortestPath_nodup hsp) (by intro c _; simp) hnp
      have hgt := idaSearch_bound_gt e goal (idaSearchFuel e) [start] 0 t _ hbound b rfl
      rw [idaLoop, hbound]
      exact ih b (by omega) (by omega)

theorem idaLoop_unreachable (e : Env) (start goal : Pos)
    (hnr : ¬ Reach e start goal) :
    ∀ (fuel t : Nat), t ≤ idaMaxF e start goal →
      idaMaxF e start goal < t + fuel →
      idaLoop e start goal fuel t = some none := by
  intro fuel
  induction fuel with
  | zero => intro t h1 h2; omega
  | succ k ih =>
    intro t h1 h2
    by_cases hge : idaMaxF e start goal ≤ t
    · have hinf := idaSearch_unreachable_inf e start goal (idaSearchFuel e) start [] 0 t
        (by simp) (by intro c hc; left; simpa using hc) (by simp)
        (by simp [idaSearchFuel]) (singleton_reverse_path e start) hnr hge
      rw [idaLoop, hinf]
    · push_neg at hge
      cases hres : idaSearch e goal (idaSearchFuel e) [start] 0 t with
      | none =>
        exact absurd hres (idaSearch_ne_none e start goal (idaSearchFuel e) [start] 0 t
          (by simp) (by simp) (by intro c hc; left; simpa using hc)
          (by simp [idaSearchFuel]))
      | some r =>
        cases r with
        | found p =>
          exfalso
          have hsound := idaSearch_found_sound e start goal (idaSearchFuel e) start [] 0 t p
            (singleton_reverse_path e start) (by simp) hres
          exact hnr ⟨p, hsound.1⟩
        | bound ob =>
          cases ob with
          | none => rw [idaLoop, hres]
          | some b =>
            have hgt := idaSearch_bound_gt e goal (idaSearchFuel e) [start] 0 t _ hres b rfl
            have hle := idaSearch_bound_le_max e start goal (idaSearchFuel e) [start] 0 t _
              (by simp) (by simp) (by intro c hc; left; simpa using hc) (by simp)
              hres b rfl
            rw [idaLoop, hres]
            exact ih b hle (by omega)

theorem idaStarSearch_spec (e : Env) (start goal : Pos) :
    (∀ q, ShortestPath e start goal q →
      ∃ p, idaStarSearch e start goal = some (some p) ∧
        IsPathList e start goal p ∧ p.length = q.length) ∧
    (¬ Reach e start goal → idaStarSearch e start goal = some none) := by
  constructor
  · intro q hsp
    have hadm := heuristic_admissible hsp.1
    have hqlen : q.length ≤ gridCount e :=
      nodup_cells_length_le (shortestPath_nodup hsp) (path_cells q start goal hsp.1)
    unfold idaStarSearch idaLoopFuel
    apply idaLoop_reachable e start goal hsp
    · omega
    · unfold idaMaxF
      omega
  · intro hnr
    unfold idaStarSearch idaLoopFuel
    apply idaLoop_unreachable e start goal hnr
    · unfold idaMaxF hBound
      omega
    · omega

theorem aStarSearch_spec (e : Env) (start goal : Pos) :
    (Reach e start goal → ∃ l, aStarSearch e start goal = some (some l) ∧
      ShortestPath e start goal l) ∧
    (¬ Reach e start goal → aStarSearch e start goal = some none) := by
  have hmeas : aMeasure e start (initAState start goal) < aStarFuel e := by
    have h1 : aPhi e start (initAState start goal) ≤ gridCount e * gridCount e :=
      aPhi_le e start (initAState start goal)
    have h2 : (initAState start goal).openSet.length = 1 := by simp [initAState]
    have h3 : 2 * gridCount e * gridCount e = 2 * (gridCount e * gridCount e) := by ring
    unfold aMeasure aStarFuel
    omega
  exact aStarLoop_correct (aStarFuel e) (initAState start goal)
    (initAState_inv e start goal) hmeas

theorem reach_closed {e : Env} {R : List Pos}
    (hclosed : ∀ p ∈ R, ∀ q ∈ getNeighbors e p.1 p.2, q ∈ R) :
    ∀ (l : List Pos) (s t : Pos), IsPathList e s t l → s ∈ R → t ∈ R := by
  intro l
  induction l with
  | nil => intro s t h _; exact absurd rfl h.ne_nil
  | cons a rest ih =>
    intro s t h hs
    obtain ⟨hh, hl, hc⟩ := h
    have ha : a = s := by simpa using hh
    subst ha
    cases rest with
    | nil =>
      have hat : a = t := by simpa using hl
      exact hat ▸ hs
    | cons b rest' =>
      have hadj : Adj e a b := (List.chain'_cons.mp hc).1
      exact ih b t ⟨rfl, by simpa using hl, (List.chain'_cons.mp hc).2⟩ (hclosed a hs b hadj)

theorem wallEnv_unreachable : ¬ Reach wallEnv ((0 : Int), (0 : Int)) ((2 : Int), (2 : Int)) := by
  rintro ⟨l, hl⟩
  have hmem := reach_closed (e := wallEnv)
    (R := [((0 : Int), (0 : Int)), (1, 0), (2, 0), (0, 1), (0, 2)])
    (by decide) l _ _ hl (by decide)
  exact absurd hmem (by decide)

theorem mem_getNeighbors_bounds {e : Env} {u v : Pos}
    (h : v ∈ getNeighbors e u.1 u.2) : isWithinBounds e v.1 v.2 = true :=
  (mem_gridFinset e v).mp (mem_getNeighbors_grid h)

theorem isBarrier_eq_false_of_nil (e : Env) (hbf : e.barriers = []) :
    ∀ x y, isBarrier e x y = false := by
  intro x y
  simp [isBarrier, hbf]

theorem barrierFree_inbounds_path (e : Env) (hbf : e.barriers = []) :
    ∀ (n : Nat) (v goal : Pos), heuristic v goal = n →
      isWithinBounds e v.1 v.2 = true → isWithinBounds e goal.1 goal.2 = true →
      ∃ l, IsPathList e v goal l ∧ l.length = heuristic v goal + 1 := by
  intro n
  induction n with
  | zero =>
    intro v goal hh hv hg
    obtain ⟨vx, vy⟩ := v
    obtain ⟨gx, gy⟩ := goal
    simp only [heuristic] at hh
    have h1 : vx = gx := by omega
    have h2 : vy = gy := by omega
    subst h1
    subst h2
    exact ⟨[(vx, vy)], isPathList_singleton e (vx, vy), by simp [heuristic]⟩
  | succ k ih =>
    intro v goal hh hv hg
    obtain ⟨vx, vy⟩ := v
    obtain ⟨gx, gy⟩ := goal
    simp only [heuristic] at hh
    simp only [isWithinBounds, decide_eq_true_eq] at hv hg
    have hnb : ∃ v' : Pos, v' ∈ getNeighbors e vx vy ∧ heuristic v' (gx, gy) = k := by
      by_cases hx : vx < gx
      · refine ⟨(vx + 1, vy), List.mem_filter.mpr ⟨by simp, ?_⟩, by simp only [heuristic]; omega⟩
        have hbar := isBarrier_eq_false_of_nil e hbf
        simp only [hbar, Bool.not_false, Bool.and_true, isWithinBounds, decide_eq_true_eq]
        omega
      · by_cases hx' : gx < vx
        · refine ⟨(vx - 1, vy), List.mem_filter.mpr ⟨by simp, ?_⟩, by simp only [heuristic]; omega⟩
          have hbar := isBarrier_eq_false_of_nil e hbf
          simp only [hbar, Bool.not_false, Bool.and_true, isWithinBounds, decide_eq_true_eq]
          omega
        · by_cases hy : vy < gy
          · refine ⟨(vx, vy + 1), List.mem_filter.mpr ⟨by simp, ?_⟩, by simp only [heuristic]; omega⟩
            have hbar := isBarrier_eq_false_of_nil e hbf
            simp only [hbar, Bool.not_false, Bool.and_true, isWithinBounds, decide_eq_true_eq]
            omega
          · refine ⟨(vx, vy - 1), List.mem_filter.mpr ⟨by simp, ?_⟩, by simp only [heuristic]; omega⟩
            have hbar := isBarrier_eq_false_of_nil e hbf
            simp only [hbar, Bool.not_false, Bool.and_true, isWithinBounds, decide_eq_true_eq]
            omega
    obtain ⟨v', hv'mem, hv'h⟩ := hnb
    obtain ⟨l, hl, hlen⟩ := ih v' (gx, gy) hv'h
      (mem_getNeighbors_bounds (u := (vx, vy)) hv'mem)
      (by simp only [isWithinBounds, decide_eq_true_eq]; omega)
    refine ⟨(vx, vy) :: l,
      isPathList_cons (adj_of_mem_getNeighbors (u := (vx, vy)) hv'mem) hl, ?_⟩
    rw [List.length_cons, hlen, hv'h]
    simp only [heuristic]
    omega

theorem out_step_heuristic {e : Env} {s v goal : Pos}
    (hs : isWithinBounds e s.1 s.2 = false)
    (hv : v ∈ getNeighbors e s.1 s.2)
    (hg : isWithinBounds e goal.1 goal.2 = true) :
    heuristic s goal = heuristic v goal + 1 := by
  have hvb := mem_getNeighbors_bounds hv
  obtain ⟨sx, sy⟩ := s
  obtain ⟨gx, gy⟩ := goal
  obtain ⟨vx, vy⟩ := v
  simp only [getNeighbors, List.mem_filter, List.mem_cons, List.not_mem_nil, or_false,
    Prod.mk.injEq] at hv
  simp only [isWithinBounds, decide_eq_true_eq] at hvb hg
  simp only [isWithinBounds, decide_eq_false_iff_not] at hs
  obtain ⟨hcase, -⟩ := hv
  simp only [heuristic]
  rcases hcase with ⟨h1, h2⟩ | ⟨h1, h2⟩ | ⟨h1, h2⟩ | ⟨h1, h2⟩ <;>
    (subst h1; subst h2; omega)

theorem barrierFree_reach_shortest (e : Env) (hbf : e.barriers = [])
    {start goal : Pos} (h : Reach e start goal) :
    ∃ l, IsPathList e start goal l ∧ l.length = heuristic start goal + 1 := by
  by_cases hsg : start = goal
  · subst hsg
    exact ⟨[start], isPathList_singleton e start, by simp [heuristic_self]⟩
  · obtain ⟨m, hm⟩ := h
    have hgoalmem : goal ∈ m :=
      List.mem_of_mem_getLast? (Option.mem_def.mpr hm.2.1)
    have hgoalgrid : goal ∈ gridFinset e := by
      rcases path_cells m start goal hm goal hgoalmem with hge | hgg
      · exact absurd hge.symm hsg
      · exact hgg
    have hgb : isWithinBounds e goal.1 goal.2 = true := (mem_gridFinset e goal).mp hgoalgrid
    cases hsb : isWithinBounds e start.1 start.2 with
    | true => exact barrierFree_inbounds_path e hbf (heuristic start goal) start goal rfl hsb hgb
    | false =>
      cases m with
      | nil => exact absurd rfl hm.ne_nil
      | cons a rest =>
        have ha : a = start := by simpa using hm.1
        subst ha
        cases rest with
        | nil =>
          have : a = goal := by simpa using hm.2.1
          exact absurd this hsg
        | cons b rest' =>
          have hadj : Adj e a b := (List.chain'_cons.mp hm.2.2).1
          have hstep := out_step_heuristic hsb hadj hgb
          obtain ⟨l, hl, hlen⟩ := barrierFree_inbounds_path e hbf (heuristic b goal) b goal rfl
            (mem_getNeighbors_bounds hadj) hgb
          refine ⟨a :: l, isPathList_cons hadj hl, ?_⟩
          simp only [List.length_cons, hlen, hstep]

/-- C6: for every environment and every goal that is not reachable from
the start in the 4-connected barrier-aware grid graph, both
`a_star_search` and `ida_star_search` terminate normally (the abnormal
`none` layer is not reached, so the bounded fuel suffices and the IDA*
threshold loop does not iterate forever) and both return the failure
value `None`. -/
theorem searches_unreachable (e : Env) (start goal : Pos)
    (h : ¬ Reach e start goal) :
    aStarSearch e start goal = some none ∧ idaStarSearch e start goal = some none :=
  ⟨(aStarSearch_spec e start goal).2 h, (idaStarSearch_spec e start goal).2 h⟩

/-- Witness for C6: in the wall scenario the task cell `(2, 2)` is
sealed off from the agent start `(0, 0)`, and both searches report
failure. -/
theorem searches_unreachable_witness :
    aStarSearch wallEnv ((0 : Int), (0 : Int)) ((2 : Int), (2 : Int)) = some none ∧
      idaStarSearch wallEnv ((0 : Int), (0 : Int)) ((2 : Int), (2 : Int)) = some none :=
  searches_unreachable wallEnv ((0 : Int), (0 : Int)) ((2 : Int), (2 : Int))
    wallEnv_unreachable

/-- C2: whenever the goal is reachable from the start, `a_star_search`
and `ida_star_search` both return a legal path from start to goal and
the two paths have the same length (the routes may differ); on a
barrier-free grid that common length is the Manhattan distance
`heuristic start goal` — a walk taking `d` unit steps is a list of
`d + 1` cells. -/
theorem searches_equal_length (e : Env) (start goal : Pos)
    (h : Reach e start goal) :
    ∃ pa pi, aStarSearch e start goal = some (some pa) ∧
      idaStarSearch e start goal = some (some pi) ∧
      IsPathList e start goal pa ∧ IsPathList e start goal pi ∧
      pa.length = pi.length ∧
      (e.barriers = [] → pa.length = heuristic start goal + 1) := by
  obtain ⟨q, hq⟩ := reach_exists_shortestPath h
  obtain ⟨pa, hpa, hspa⟩ := (aStarSearch_spec e start goal).1 h
  obtain ⟨pi, hpi, hpipath, hpilen⟩ := (idaStarSearch_spec e start goal).1 q hq
  refine ⟨pa, pi, hpa, hpi, hspa.1, hpipath, ?_, ?_⟩
  · have h1 := hspa.2 q hq.1
    have h2 := hq.2 pa hspa.1
    omega
  · intro hbf
    obtain ⟨l, hl, hlen⟩ := barrierFree_reach_shortest e hbf h
    have h1 := hspa.2 l hl
    have h2 := heuristic_admissible hspa.1
    omega

/-- Witness for C2 on the barrier-free 2-by-2 grid: goal `(1, 0)` is
reachable from `(0, 0)`. -/
theorem searches_equal_length_witness :
    ∃ pa pi, aStarSearch witnessEnv ((0 : Int), (0 : Int)) ((1 : Int), (0 : Int)) =
        some (some pa) ∧
      idaStarSearch witnessEnv ((0 : Int), (0 : Int)) ((1 : Int), (0 : Int)) =
        some (some pi) ∧
      IsPathList witnessEnv ((0 : Int), (0 : Int)) ((1 : Int), (0 : Int)) pa ∧
      IsPathList witnessEnv ((0 : Int), (0 : Int)) ((1 : Int), (0 : Int)) pi ∧
      pa.length = pi.length ∧
      (witnessEnv.barriers = [] →
        pa.length = heuristic ((0 : Int), (0 : Int)) ((1 : Int), (0 : Int)) + 1) :=
  searches_equal_length witnessEnv ((0 : Int), (0 : Int)) ((1 : Int), (0 : Int))
    ⟨_, witnessEnv_path⟩

theorem selfTask_cycle :
    simStep Alg.astar selfTaskState = selfTaskMoving ∧
    simStep Alg.astar selfTaskMoving = selfTaskState := by
  constructor <;> rfl

theorem selfTask_stuck (fuel : Nat) :
    ∀ s, s = selfTaskState ∨ s = selfTaskMoving →
      (runSim Alg.astar fuel s).env.tasks ≠ [] := by
  induction fuel with
  | zero =>
    intro s hs
    rcases hs with h | h <;>
      (subst h; simp [runSim, selfTaskState, selfTaskMoving, selfTaskEnv])
  | succ k ih =>
    intro s hs
    rcases hs with h | h
    · subst h
      rw [runSim, if_neg (by simp [selfTaskState, selfTaskEnv]), selfTask_cycle.1]
      exact ih selfTaskMoving (Or.inr rfl)
    · subst h
      rw [runSim, if_neg (by simp [selfTaskMoving, selfTaskEnv]), selfTask_cycle.2]
      exact ih selfTaskState (Or.inl rfl)

/-- Counterexample to C8 as stated: with a task on the agent's starting
cell every task is reachable when selected (the search succeeds with
the singleton path), yet the selection stores an empty step queue with
the moving flag set, the driver toggles between selecting and clearing
the flag forever, and no tick budget ever empties the task set — the
run never "ends" and the task is never completed. -/
theorem run_completion_counterexample :
    (∀ t ∈ selfTaskState.env.tasks,
      Reach selfTaskState.env selfTaskState.position t.1) ∧
    (∀ fuel : Nat, (runSim Alg.astar fuel selfTaskState).env.tasks ≠ []) := by
  constructor
  · intro t ht
    have : t = (((0 : Int), (0 : Int)), 1) := by
      simpa [selfTaskState, selfTaskEnv] using ht
    subst this
    exact reach_self _ _
  · intro fuel
    exact selfTask_stuck fuel selfTaskState (Or.inl rfl)

theorem lookupTask_eq_none_iff :
    ∀ (ts : List (Pos × Nat)) (p : Pos),
      lookupTask ts p = none ↔ ∀ t ∈ ts, t.1 ≠ p := by
  intro ts p
  induction ts with
  | nil => simp [lookupTask]
  | cons q rest ih =>
    obtain ⟨qp, qv⟩ := q
    by_cases hq : p = qp
    · rw [lookupTask, if_pos hq]
      constructor
      · intro hfalse
        simp at hfalse
      · intro hall
        exfalso
        exact hall (qp, qv) (List.mem_cons_self _ _) hq.symm
    · rw [lookupTask, if_neg hq]
      rw [ih]
      constructor
      · intro hall t ht
        rcases List.mem_cons.mp ht with ht | ht
        · subst ht
          simp only
          exact fun hx => hq hx.symm
        · exact hall t ht
      · intro hall t ht
        exact hall t (List.mem_cons.mpr (Or.inr ht))

theorem lookupTask_of_mem_nodup :
    ∀ (ts : List (Pos × Nat)) (w : Pos) (tn : Nat), (w, tn) ∈ ts →
      (ts.map Prod.fst).Nodup → lookupTask ts w = some tn := by
  intro ts
  induction ts with
  | nil => intro w tn h; simp at h
  | cons q rest ih =>
    intro w tn h hnd
    obtain ⟨qp, qv⟩ := q
    rcases List.mem_cons.mp h with hh | hh
    · injection hh with h1 h2
      rw [lookupTask, if_pos h1, h2]
    · have hne : w ≠ qp := by
        intro he
        simp only [List.map_cons, List.nodup_cons] at hnd
        exact hnd.1 (he ▸ List.mem_map.mpr ⟨(w, tn), hh, rfl⟩)
      rw [lookupTask, if_neg hne]
      exact ih w tn hh (by simp only [List.map_cons, List.nodup_cons] at hnd; exact hnd.2)

theorem lookupTask_some_ne_nil {ts : List (Pos × Nat)} {p : Pos} {tn : Nat}
    (h : lookupTask ts p = some tn) : ts ≠ [] := by
  intro he
  subst he
  simp [lookupTask] at h

theorem removeTask_facts {ts : List (Pos × Nat)} {w : Pos} {tn : Nat}
    (h : lookupTask ts w = some tn) (hkeys : (ts.map Prod.fst).Nodup) :
    ((removeTask ts w).map Prod.fst).Nodup ∧
    lookupTask (removeTask ts w) w = none ∧
    (ts.map Prod.snd).Perm (tn :: (removeTask ts w).map Prod.snd) ∧
    (removeTask ts w).length + 1 = ts.length ∧
    List.Sublist (removeTask ts w) ts := by
  obtain ⟨l₁, l₂, hsplit, hl₁, hrem⟩ := lookupTask_split ts w tn h
  have hsub : List.Sublist (removeTask ts w) ts := by
    rw [hrem, hsplit]
    exact List.Sublist.append_left (List.sublist_cons_self (w, tn) l₂) l₁
  refine ⟨?_, ?_, ?_, ?_, ?_⟩
  · exact hkeys.sublist (hsub.map Prod.fst)
  · rw [lookupTask_eq_none_iff]
    intro t ht
    rw [hrem] at ht
    rcases List.mem_append.mp ht with ht | ht
    · exact hl₁ t ht
    · intro he
      rw [hsplit] at hkeys
      simp only [List.map_append, List.map_cons] at hkeys
      have hnm := (List.nodup_cons.mp (List.nodup_middle.mp hkeys)).1
      exact hnm (List.mem_append.mpr (Or.inr (he ▸ List.mem_map.mpr ⟨t, ht, rfl⟩)))
  · rw [hrem, hsplit]
    simp only [List.map_append, List.map_cons]
    exact List.perm_middle
  · rw [hrem, hsplit]
    simp
    omega
  · exact hsub

theorem mem_getNeighbors_valid {e : Env} {x y : Int} {v : Pos}
    (h : v ∈ getNeighbors e x y) :
    isWithinBounds e v.1 v.2 = true ∧ isBarrier e v.1 v.2 = false := by
  have hp := (List.mem_filter.mp h).2
  rw [Bool.and_eq_true, Bool.not_eq_true'] at hp
  exact hp

theorem path_cells_valid {e : Env} :
    ∀ (l : List Pos) (s t : Pos), IsPathList e s t l → ∀ c ∈ l,
      c = s ∨ (isWithinBounds e c.1 c.2 = true ∧ isBarrier e c.1 c.2 = false) := by
  intro l
  induction l with
  | nil => intro s t h; exact absurd rfl h.ne_nil
  | cons a rest ih =>
    intro s t h c hc
    obtain ⟨hh, hl, hc'⟩ := h
    have ha : a = s := by simpa using hh
    subst ha
    rcases List.mem_cons.mp hc with hca | hcr
    · exact Or.inl hca
    · cases rest with
      | nil => simp at hcr
      | cons b rest' =>
        have hadj : Adj e a b := (List.chain'_cons.mp hc').1
        have hpath : IsPathList e b t (b :: rest') :=
          ⟨rfl, by simpa using hl, (List.chain'_cons.mp hc').2⟩
        rcases ih b t hpath c hcr with hcb | hcg
        · subst hcb
          exact Or.inr (mem_getNeighbors_valid hadj)
        · exact Or.inr hcg

theorem adj_symm_of_valid {e : Env} {a b : Pos} (h : Adj e a b)
    (ha : isWithinBounds e a.1 a.2 = true ∧ isBarrier e a.1 a.2 = false) :
    Adj e b a := by
  obtain ⟨ax, ay⟩ := a
  obtain ⟨bx, by'⟩ := b
  simp only [Adj, getNeighbors, List.mem_filter, List.mem_cons, List.not_mem_nil,
    or_false, Prod.mk.injEq] at h ⊢
  obtain ⟨hcase, -⟩ := h
  simp only at ha
  refine ⟨?_, by rw [ha.1, ha.2]; rfl⟩
  rcases hcase with ⟨h1, h2⟩ | ⟨h1, h2⟩ | ⟨h1, h2⟩ | ⟨h1, h2⟩ <;> (subst h1; subst h2; omega)

theorem isPathList_reverse_valid {e : Env} {s t : Pos} {l : List Pos}
    (h : IsPathList e s t l)
    (hs : isWithinBounds e s.1 s.2 = true ∧ isBarrier e s.1 s.2 = false) :
    IsPathList e t s l.reverse := by
  have hvalid := path_cells_valid l s t h
  obtain ⟨hh, hl, hc⟩ := h
  refine ⟨?_, ?_, ?_⟩
  · rw [List.head?_reverse]
    exact hl
  · rw [List.getLast?_reverse]
    exact hh
  · rw [List.chain'_reverse]
    have : ∀ (m : List Pos), (∀ c ∈ m, c = s ∨
        (isWithinBounds e c.1 c.2 = true ∧ isBarrier e c.1 c.2 = false)) →
        List.Chain' (Adj e) m → List.Chain' (flip (Adj e)) m := by
      intro m
      induction m with
      | nil => intro _ _; exact List.chain'_nil
      | cons a rest ihm =>
        intro hv hch
        cases rest with
        | nil => simp
        | cons b rest' =>
          rw [List.chain'_cons] at hch ⊢
          refine ⟨?_, ihm (fun c hc => hv c (List.mem_cons.mpr (Or.inr hc))) hch.2⟩
          have hav : isWithinBounds e a.1 a.2 = true ∧ isBarrier e a.1 a.2 = false := by
            rcases hv a (List.mem_cons.mpr (Or.inl rfl)) with hva | hva
            · rw [hva]
              exact hs
            · exact hva
          exact adj_symm_of_valid hch.1 hav
    exact this l hvalid hc

theorem runSearch_spec (alg : Alg) (e : Env) (start goal : Pos) :
    (Reach e start goal → ∃ l, runSearch alg e start goal = some l ∧
      ShortestPath e start goal l) ∧
    (¬ Reach e start goal → runSearch alg e start goal = none) := by
  cases alg with
  | astar =>
    constructor
    · intro hreach
      obtain ⟨l, hrun, hsp⟩ := (aStarSearch_spec e start goal).1 hreach
      exact ⟨l, by simp [runSearch, hrun], hsp⟩
    · intro hnr
      simp [runSearch, (aStarSearch_spec e start goal).2 hnr]
  | idastar =>
    constructor
    · intro hreach
      obtain ⟨q, hq⟩ := reach_exists_shortestPath hreach
      obtain ⟨l, hrun, hpath, hlen⟩ := (idaStarSearch_spec e start goal).1 q hq
      refine ⟨l, by simp [runSearch, hrun], hpath, ?_⟩
      intro m hm
      have := hq.2 m hm
      omega
    · intro hnr
      simp [runSearch, (idaStarSearch_spec e start goal).2 hnr]

theorem selectNearest_min (search : Pos → Option (List Pos)) (tasks : List (Pos × Nat))
    (w : Pos) (bp : List Pos)
    (h : selectNearest search tasks = some (w, bp)) :
    search w = some bp ∧ (∃ t ∈ tasks, t.1 = w) ∧
    ∀ u ∈ tasks, ∀ p, search u.1 = some p → p ≠ [] → bp.length ≤ p.length := by
  rcases selectFold_some_char search tasks none (w, bp) h with ⟨habs, -⟩ | hmain
  · exact absurd habs (by simp)
  · obtain ⟨l₁, t, l₂, hsplit, hfst, hsearch, -, hl₁, hl₂⟩ := hmain
    simp only at hfst hsearch hl₁ hl₂
    refine ⟨by rw [← hfst]; exact hsearch, ⟨t, by rw [hsplit]; simp, hfst⟩, ?_⟩
    intro u hu p hp hpne
    obtain ⟨x, xs, rfl⟩ : ∃ x xs, p = x :: xs := by
      cases p with
      | nil => exact absurd rfl hpne
      | cons x xs => exact ⟨x, xs, rfl⟩
    rw [hsplit] at hu
    rcases List.mem_append.mp hu with hu | hu
    · exact le_of_lt (hl₁ u hu x xs hp)
    · rcases List.mem_cons.mp hu with hu | hu
      · subst hu
        rw [hsearch] at hp
        have : bp = x :: xs := by injection hp
        rw [this]
      · exact hl₂ u hu x xs hp

theorem eq_dropLast_concat {l : List Pos} {w : Pos} (hne : l ≠ [])
    (h : l.getLast? = some w) : l = l.dropLast ++ [w] := by
  have hlast := List.getLast?_eq_getLast l hne
  rw [hlast] at h
  have hw : l.getLast hne = w := by injection h
  rw [← hw]
  exact (List.dropLast_concat_getLast hne).symm

theorem simStepLog_select (alg : Alg) (s : SimState) (log : List (Pos × Pos × Nat))
    (w : Pos) (bp : List Pos) (hidle : s.moving = false) (htasks : s.env.tasks ≠ [])
    (hsel : selectNearest (fun t => runSearch alg s.env s.position t) s.env.tasks =
      some (w, bp)) :
    simStepLog alg s log = ({ s with path := bp.drop 1, moving := true },
      log ++ [(s.position, w, (bp.drop 1).length)]) := by
  unfold simStepLog findNearestTaskLog
  rw [if_pos ⟨hidle, htasks⟩, hsel]

theorem simStepLog_move (alg : Alg) (s : SimState) (log : List (Pos × Pos × Nat))
    (hmov : s.moving = true) :
    simStepLog alg s log = (moveAgent s, log) := by
  unfold simStepLog
  rw [if_neg (by simp [hmov]), if_pos hmov]

theorem runSimLog_step (alg : Alg) (fuel : Nat) (s : SimState)
    (log : List (Pos × Pos × Nat)) (h : s.env.tasks ≠ []) :
    runSimLog alg (fuel + 1) s log =
      runSimLog alg fuel (simStepLog alg s log).1 (simStepLog alg s log).2 := by
  rw [runSimLog, if_neg h]

theorem simStepLog_fst (alg : Alg) (s : SimState) (log : List (Pos × Pos × Nat)) :
    (simStepLog alg s log).1 = simStep alg s := by
  unfold simStepLog simStep findNearestTaskLog findNearestTask
  by_cases h1 : s.moving = false ∧ s.env.tasks ≠ []
  · rw [if_pos h1, if_pos h1]
    cases hsel : selectNearest (fun t => runSearch alg s.env s.position t) s.env.tasks with
    | none => rfl
    | some b =>
      obtain ⟨w, sp⟩ := b
      rfl
  · rw [if_neg h1, if_neg h1]
    by_cases h2 : s.moving = true
    · rw [if_pos h2, if_pos h2]
    · rw [if_neg h2, if_neg h2]

theorem runSimLog_fst (alg : Alg) :
    ∀ (fuel : Nat) (s : SimState) (log : List (Pos × Pos × Nat)),
      (runSimLog alg fuel s log).1 = runSim alg fuel s := by
  intro fuel
  induction fuel with
  | zero => intro s log; rfl
  | succ k ih =>
    intro s log
    rw [runSimLog, runSim]
    by_cases h : s.env.tasks = []
    · rw [if_pos h, if_pos h]
    · rw [if_neg h, if_neg h, ih, simStepLog_fst]

theorem runSimLog_mover (alg : Alg) :
    ∀ (q : List Pos) (s : SimState) (w : Pos) (tn : Nat) (fuel : Nat)
      (log : List (Pos × Pos × Nat)),
      s.moving = true → s.path = q ++ [w] →
      (∀ c ∈ q, lookupTask s.env.tasks c = none) →
      lookupTask s.env.tasks w = some tn →
      runSimLog alg (fuel + (q.length + 1)) s log =
        runSimLog alg fuel
          { s with
            position := w
            path := []
            cumulativeCost := s.cumulativeCost + (q.length + 1)
            env := { s.env with tasks := removeTask s.env.tasks w }
            taskCompleted := s.taskCompleted + 1
            completedTasks := s.completedTasks ++ [tn] } log := by
  intro q
  induction q with
  | nil =>
    intro s w tn fuel log hmov hpath hq hw
    have htne : s.env.tasks ≠ [] := lookupTask_some_ne_nil hw
    have hpw : s.path = [w] := by simpa using hpath
    simp only [List.length_nil, Nat.zero_add]
    rw [runSimLog_step alg fuel s log htne, simStepLog_move alg s log hmov]
    have hmv : moveAgent s =
        { s with
          position := w
          path := []
          cumulativeCost := s.cumulativeCost + 1
          env := { s.env with tasks := removeTask s.env.tasks w }
          taskCompleted := s.taskCompleted + 1
          completedTasks := s.completedTasks ++ [tn] } := by
      simp only [moveAgent, hpw, checkTaskCompletion, hw]
    rw [hmv]
  | cons c q' ihq =>
    intro s w tn fuel log hmov hpath hq hw
    have htne : s.env.tasks ≠ [] := lookupTask_some_ne_nil hw
    have hfe : fuel + ((c :: q').length + 1) = (fuel + (q'.length + 1)) + 1 := by
      simp only [List.length_cons]
      omega
    have hcost : s.cumulativeCost + ((c :: q').length + 1) =
        (s.cumulativeCost + 1) + (q'.length + 1) := by
      simp only [List.length_cons]
      omega
    rw [hfe, hcost, runSimLog_step alg _ s log htne, simStepLog_move alg s log hmov]
    have hcpath : s.path = c :: (q' ++ [w]) := by simpa using hpath
    have hmv : moveAgent s =
        { s with
          position := c
          path := q' ++ [w]
          cumulativeCost := s.cumulativeCost + 1 } := by
      simp only [moveAgent, hcpath, checkTaskCompletion,
        hq c (List.mem_cons_self c q')]
    rw [hmv]
    exact ihq
      { s with
        position := c
        path := q' ++ [w]
        cumulativeCost := s.cumulativeCost + 1 } w tn fuel log hmov rfl
      (fun x hx => hq x (List.mem_cons.mpr (Or.inr hx))) hw

theorem selection_success (alg : Alg) (e : Env) (pos : Pos)
    (hne : e.tasks ≠ [])
    (hreach : ∀ t ∈ e.tasks, Reach e pos t.1) :
    ∃ w bp, selectNearest (fun t => runSearch alg e pos t) e.tasks = some (w, bp) ∧
      ShortestPath e pos w bp ∧ (∃ t ∈ e.tasks, t.1 = w) ∧
      ∀ u ∈ e.tasks, ∀ p, runSearch alg e pos u.1 = some p → p ≠ [] →
        bp.length ≤ p.length := by
  obtain ⟨t0, ts0, hts⟩ : ∃ t0 ts0, e.tasks = t0 :: ts0 := by
    cases h : e.tasks with
    | nil => exact absurd h hne
    | cons a l => exact ⟨a, l, rfl⟩
  have hmem0 : t0 ∈ e.tasks := by
    rw [hts]
    exact List.mem_cons_self _ _
  obtain ⟨p0, hp0run, hp0sp⟩ := (runSearch_spec alg e pos t0.1).1 (hreach t0 hmem0)
  have hselne : selectNearest (fun t => runSearch alg e pos t) e.tasks ≠ none := by
    intro hnone
    obtain ⟨-, hall⟩ := selectFold_none_char _ _ _ hnone
    obtain ⟨x, xs, hxx⟩ : ∃ x xs, p0 = x :: xs := by
      cases p0 with
      | nil => exact absurd rfl hp0sp.1.ne_nil
      | cons x xs => exact ⟨x, xs, rfl⟩
    refine hall t0 hmem0 x xs ?_
    rw [← hxx]
    exact hp0run
  obtain ⟨wb, hsel⟩ := Option.ne_none_iff_exists'.mp hselne
  obtain ⟨w, bp⟩ := wb
  obtain ⟨hsearchw, hwtask, hmin⟩ := selectNearest_min _ _ _ _ hsel
  obtain ⟨tw, htwmem, htwfst⟩ := hwtask
  obtain ⟨pw, hpwrun, hpwsp⟩ := (runSearch_spec alg e pos w).1
    (by rw [← htwfst]; exact hreach tw htwmem)
  have hbp : bp = pw := by
    have h2 : runSearch alg e pos w = some bp := hsearchw
    have h3 : some bp = some pw := by
      rw [← h2]
      exact hpwrun
    exact Option.some_inj.mp h3
  exact ⟨w, bp, hsel, by rw [hbp]; exact hpwsp, ⟨tw, htwmem, htwfst⟩, hmin⟩

theorem winner_interior_no_task (alg : Alg) (e : Env) (pos : Pos)
    (w : Pos) (bp : List Pos) (q₁ : List Pos)
    (hreach : ∀ t ∈ e.tasks, Reach e pos t.1)
    (hmin : ∀ u ∈ e.tasks, ∀ p, runSearch alg e pos u.1 = some p → p ≠ [] →
      bp.length ≤ p.length)
    (hbpsp : ShortestPath e pos w bp)
    (hbp : bp = pos :: (q₁ ++ [w])) :
    ∀ c ∈ q₁, lookupTask e.tasks c = none := by
  intro c hc
  rw [lookupTask_eq_none_iff]
  intro u hu he
  obtain ⟨qa, qb, hq⟩ := List.append_of_mem hc
  have hbp_split : bp = (pos :: qa) ++ c :: (qb ++ [w]) := by
    rw [hbp, hq]
    simp
  have hpref := @path_decompose_split e pos w c (pos :: qa) (qb ++ [w])
    (hbp_split ▸ hbpsp.1)
  obtain ⟨lc, hlcrun, hlcsp⟩ := (runSearch_spec alg e pos u.1).1 (hreach u hu)
  have hlc_le : lc.length ≤ ((pos :: qa) ++ [c]).length := by
    apply hlcsp.2
    rw [he]
    exact hpref.1
  have hminlc := hmin u hu lc hlcrun hlcsp.1.ne_nil
  have hlen1 : ((pos :: qa) ++ [c]).length = qa.length + 2 := by
    simp only [List.length_append, List.length_cons, List.length_singleton,
      List.length_nil]
    try omega
  have hlen2 : bp.length = qa.length + qb.length + 3 := by
    rw [hbp_split]
    simp only [List.length_append, List.length_cons, List.length_singleton,
      List.length_nil]
    try omega
  omega

theorem shortest_decomp {e : Env} {pos w : Pos} {bp : List Pos}
    (hsp : ShortestPath e pos w bp) (hne : w ≠ pos) :
    ∃ q₁, bp = pos :: (q₁ ++ [w]) := by
  obtain ⟨hh, hl, -⟩ := hsp.1
  cases bp with
  | nil => simp at hh
  | cons b rest =>
    have hb : b = pos := by simpa using hh
    subst hb
    cases rest with
    | nil =>
      have hbw : b = w := by simpa using hl
      exact absurd hbw.symm hne
    | cons r0 r1 =>
      have hlast : (r0 :: r1).getLast? = some w := by
        rw [← hl]
        exact (List.getLast?_cons_cons).symm
      refine ⟨(r0 :: r1).dropLast, ?_⟩
      have hdc := eq_dropLast_concat (l := r0 :: r1) (w := w) (by simp) hlast
      rw [← hdc]

theorem runSim_completion_aux (alg : Alg) :
    ∀ (T : Nat) (s : SimState) (log : List (Pos × Pos × Nat)),
      s.env.tasks.length = T →
      s.moving = false → s.path = [] →
      lookupTask s.env.tasks s.position = none →
      (s.env.tasks.map Prod.fst).Nodup →
      (s.env.tasks.map Prod.snd).Nodup →
      (∀ t ∈ s.env.tasks, Reach s.env s.position t.1) →
      isWithinBounds s.env s.position.1 s.position.2 = true →
      isBarrier s.env s.position.1 s.position.2 = false →
      ∃ (fuel : Nat) (sf : SimState) (lens : List (Pos × Pos × Nat)) (ids : List Nat),
        runSimLog alg fuel s log = (sf, log ++ lens) ∧
        sf.env.tasks = [] ∧
        sf.cumulativeCost = s.cumulativeCost + (lens.map (fun r => r.2.2)).sum ∧
        lens.length = T ∧
        (∀ r ∈ lens, ∃ l, ShortestPath s.env r.1 r.2.1 l ∧ r.2.2 + 1 = l.length) ∧
        sf.completedTasks = s.completedTasks ++ ids ∧
        ids.Perm (s.env.tasks.map Prod.snd) := by
  intro T
  induction T using Nat.strong_induction_on with
  | _ T ih =>
    intro s log hT hidle hpath hnotask hkeys hids hreach hb hnb
    by_cases hempty : s.env.tasks = []
    · refine ⟨0, s, [], [], by simp [runSimLog], hempty, by simp, ?_, by simp, by simp, ?_⟩
      · rw [← hT, hempty]
        rfl
      · rw [hempty]
        simp
    · obtain ⟨w, bp, hsel, hbpsp, ⟨tw, htwmem, htwfst⟩, hmin⟩ :=
        selection_success alg s.env s.position hempty hreach
      obtain ⟨twp, twn⟩ := tw
      have hw_eq : twp = w := htwfst
      have htwmem2 : (w, twn) ∈ s.env.tasks := hw_eq ▸ htwmem
      have hwne : w ≠ s.position := by
        intro he
        rw [lookupTask_eq_none_iff] at hnotask
        exact hnotask (w, twn) htwmem2 he
      obtain ⟨q₁, hbp⟩ := shortest_decomp hbpsp hwne
      have hdrop : bp.drop 1 = q₁ ++ [w] := by
        rw [hbp]
        rfl
      have htw : lookupTask s.env.tasks w = some twn :=
        lookupTask_of_mem_nodup _ _ _ htwmem2 hkeys
      obtain ⟨hkeysR, hlookupR, hpermR, hlenR, hsubR⟩ := removeTask_facts htw hkeys
      have hq₁ : ∀ c ∈ q₁, lookupTask s.env.tasks c = none :=
        winner_interior_no_task alg s.env s.position w bp q₁ hreach hmin hbpsp hbp
      have hwmem : w ∈ bp := by
        rw [hbp]
        simp
      have hwvalid : isWithinBounds s.env w.1 w.2 = true ∧
          isBarrier s.env w.1 w.2 = false := by
        rcases path_cells_valid bp s.position w hbpsp.1 w hwmem with h | h
        · exact absurd h hwne
        · exact h
      have hrev : IsPathList s.env w s.position bp.reverse :=
        isPathList_reverse_valid hbpsp.1 ⟨hb, hnb⟩
      have hstep1 : ∀ F, runSimLog alg (F + 1) s log =
          runSimLog alg F { s with path := bp.drop 1, moving := true }
            (log ++ [(s.position, w, (bp.drop 1).length)]) := by
        intro F
        rw [runSimLog_step alg F s log hempty,
          simStepLog_select alg s log w bp hidle hempty hsel]
      have hstep2 : ∀ (F : Nat) (log2 : List (Pos × Pos × Nat)),
          runSimLog alg (F + (q₁.length + 1))
            { s with path := bp.drop 1, moving := true } log2 =
          runSimLog alg F
            { s with
              position := w
              path := []
              moving := true
              cumulativeCost := s.cumulativeCost + (q₁.length + 1)
              env := { s.env with tasks := removeTask s.env.tasks w }
              taskCompleted := s.taskCompleted + 1
              completedTasks := s.completedTasks ++ [twn] } log2 := by
        intro F log2
        exact runSimLog_mover alg q₁ { s with path := bp.drop 1, moving := true } w twn F
          log2 rfl (by simp [hdrop]) hq₁ htw
      by_cases hrem : removeTask s.env.tasks w = []
      · refine ⟨(0 + (q₁.length + 1)) + 1,
          { s with
            position := w
            path := []
            moving := true
            cumulativeCost := s.cumulativeCost + (q₁.length + 1)
            env := { s.env with tasks := removeTask s.env.tasks w }
            taskCompleted := s.taskCompleted + 1
            completedTasks := s.completedTasks ++ [twn] },
          [(s.position, w, (bp.drop 1).length)], [twn], ?_, hrem, ?_, ?_, ?_, rfl, ?_⟩
        · exact (hstep1 (0 + (q₁.length + 1))).trans ((hstep2 0 _).trans rfl)
        · simp only [hdrop, List.map_cons, List.map_nil, List.sum_cons, List.sum_nil,
            List.length_append, List.length_cons, List.length_nil]
          try omega
        · have h1 : s.env.tasks.length = 1 := by
            rw [hrem] at hlenR
            simpa using hlenR.symm
          simp only [List.length_cons, List.length_nil]
          omega
        · intro r hr
          have hre : r = (s.position, w, (bp.drop 1).length) := by simpa using hr
          subst hre
          refine ⟨bp, hbpsp, ?_⟩
          rw [hbp]
          simp
        · have hp := hpermR
          rw [hrem] at hp
          simp only [List.map_nil] at hp
          exact hp.symm
      · have hstep3 : ∀ (F : Nat) (log2 : List (Pos × Pos × Nat)),
            runSimLog alg (F + 1)
              { s with
                position := w
                path := []
                moving := true
                cumulativeCost := s.cumulativeCost + (q₁.length + 1)
                env := { s.env with tasks := removeTask s.env.tasks w }
                taskCompleted := s.taskCompleted + 1
                completedTasks := s.completedTasks ++ [twn] } log2 =
            runSimLog alg F
              { s with
                position := w
                path := []
                moving := false
                cumulativeCost := s.cumulativeCost + (q₁.length + 1)
                env := { s.env with tasks := removeTask s.env.tasks w }
                taskCompleted := s.taskCompleted + 1
                completedTasks := s.completedTasks ++ [twn] } log2 := by
          intro F log2
          rw [runSimLog_step alg F _ log2 hrem, simStepLog_move alg _ log2 rfl]
          rfl
        have hidsR : ((removeTask s.env.tasks w).map Prod.snd).Nodup :=
          hids.sublist (hsubR.map Prod.snd)
        have hreachR : ∀ t ∈ removeTask s.env.tasks w, Reach s.env w t.1 := by
          intro u hu
          obtain ⟨lu, hlu⟩ := hreach u (hsubR.subset hu)
          exact ⟨bp.reverse ++ lu.tail, isPathList_concat hrev hlu⟩
        obtain ⟨fuelR, sf, lensR, idsR, hrun, hfe, hfc, hfl, hfs, hfcompl, hfperm⟩ :=
          ih (removeTask s.env.tasks w).length (by omega)
            { s with
              position := w
              path := []
              moving := false
              cumulativeCost := s.cumulativeCost + (q₁.length + 1)
              env := { s.env with tasks := removeTask s.env.tasks w }
              taskCompleted := s.taskCompleted + 1
              completedTasks := s.completedTasks ++ [twn] }
            (log ++ [(s.position, w, (bp.drop 1).length)])
            rfl rfl rfl hlookupR hkeysR hidsR hreachR hwvalid.1 hwvalid.2
        refine ⟨((fuelR + 1) + (q₁.length + 1)) + 1, sf,
          (s.position, w, (bp.drop 1).length) :: lensR, twn :: idsR, ?_, hfe, ?_, ?_, ?_, ?_, ?_⟩
        · refine (hstep1 ((fuelR + 1) + (q₁.length + 1))).trans
            ((hstep2 (fuelR + 1) _).trans ((hstep3 fuelR _).trans ?_))
          rw [hrun, List.append_assoc]
          rfl
        · rw [hfc]
          simp only [hdrop, List.map_cons, List.sum_cons, List.length_append,
            List.length_cons, List.length_nil]
          omega
        · simp only [List.length_cons]
          rw [hfl]
          omega
        · intro r hr
          rcases List.mem_cons.mp hr with hr | hr
          · subst hr
            refine ⟨bp, hbpsp, ?_⟩
            rw [hbp]
            simp
          · obtain ⟨l, hl, hll⟩ := hfs r hr
            exact ⟨l, hl, hll⟩
        · rw [hfcompl]
          simp
        · exact (hfperm.cons twn).trans hpermR.symm

/-- Amended C8: the claim holds once no task sits on the agent's current
cell (the counterexample shows the run otherwise never ends).  From an
idle agent on a valid in-bounds non-barrier cell, with duplicate-free
task keys and ids, every task reachable, iterating the driver empties
the task set in finitely many ticks; the cumulative cost grows by
exactly the sum of the logged selected stored-path lengths, one log
entry per selection, each recording a length that is the shortest-path
step count from the selection-time position to the selected task cell;
and the completed-task list gains exactly `T` ids — a permutation of
the task ids, hence without duplicates. -/
theorem run_completion (alg : Alg) (s : SimState)
    (hidle : s.moving = false) (hpath : s.path = [])
    (hnotask : lookupTask s.env.tasks s.position = none)
    (hkeys : (s.env.tasks.map Prod.fst).Nodup)
    (hids : (s.env.tasks.map Prod.snd).Nodup)
    (hreach : ∀ t ∈ s.env.tasks, Reach s.env s.position t.1)
    (hbnd : isWithinBounds s.env s.position.1 s.position.2 = true)
    (hbar : isBarrier s.env s.position.1 s.position.2 = false) :
    ∃ (fuel : Nat) (sf : SimState) (lens : List (Pos × Pos × Nat)) (ids : List Nat),
      runSimLog alg fuel s [] = (sf, lens) ∧
      runSim alg fuel s = sf ∧
      sf.env.tasks = [] ∧
      sf.cumulativeCost = s.cumulativeCost + (lens.map (fun r => r.2.2)).sum ∧
      lens.length = s.env.tasks.length ∧
      (∀ r ∈ lens, ∃ l, ShortestPath s.env r.1 r.2.1 l ∧ r.2.2 + 1 = l.length) ∧
      sf.completedTasks = s.completedTasks ++ ids ∧
      ids.Perm (s.env.tasks.map Prod.snd) ∧
      ids.length = s.env.tasks.length ∧ ids.Nodup := by
  obtain ⟨fuel, sf, lens, ids, h1, h2, h3, h4, h5, h6, h7⟩ :=
    runSim_completion_aux alg s.env.tasks.length s [] rfl hidle hpath hnotask hkeys hids
      hreach hbnd hbar
  have h1b : runSimLog alg fuel s [] = (sf, lens) := by
    rw [h1]
    rfl
  refine ⟨fuel, sf, lens, ids, h1b, ?_, h2, h3, h4, h5, h6, h7, ?_, ?_⟩
  · have hfst := runSimLog_fst alg fuel s []
    rw [h1b] at hfst
    exact hfst.symm
  · rw [h7.length_eq]
    simp
  · exact h7.nodup_iff.mpr hids

/-- Witness for the amended C8 on the 2-by-2 grid: the agent starts at
`(1, 1)` (no task there) and the single task `7` at the origin is
reachable, so the run completes it. -/
theorem run_completion_witness :
    ∃ (fuel : Nat) (sf : SimState) (lens : List (Pos × Pos × Nat)) (ids : List Nat),
      runSimLog Alg.astar fuel witnessStateNoTask [] = (sf, lens) ∧
      runSim Alg.astar fuel witnessStateNoTask = sf ∧
      sf.env.tasks = [] ∧
      sf.cumulativeCost = witnessStateNoTask.cumulativeCost +
        (lens.map (fun r => r.2.2)).sum ∧
      lens.length = witnessStateNoTask.env.tasks.length ∧
      (∀ r ∈ lens, ∃ l, ShortestPath witnessStateNoTask.env r.1 r.2.1 l ∧
        r.2.2 + 1 = l.length) ∧
      sf.completedTasks = witnessStateNoTask.completedTasks ++ ids ∧
      ids.Perm (witnessStateNoTask.env.tasks.map Prod.snd) ∧
      ids.length = witnessStateNoTask.env.tasks.length ∧ ids.Nodup :=
  run_completion Alg.astar witnessStateNoTask rfl rfl rfl (by decide) (by decide)
    (by
      intro t ht
      have hteq : t = (((0 : Int), (0 : Int)), 7) := by
        simpa [witnessStateNoTask, witnessEnv] using ht
      subst hteq
      refine ⟨[((1 : Int), (1 : Int)), ((0 : Int), (1 : Int)), ((0 : Int), (0 : Int))],
        rfl, rfl, ?_⟩
      refine List.chain'_cons.mpr ⟨?_, List.chain'_cons.mpr ⟨?_, by simp⟩⟩
      · show Adj witnessEnv (1, 1) (0, 1)
        unfold Adj getNeighbors witnessEnv isWithinBounds isBarrier
        decide
      · show Adj witnessEnv (0, 1) (0, 0)
        unfold Adj getNeighbors witnessEnv isWithinBounds isBarrier
        decide)
    (by decide) (by decide)

end Sim
